import Mathlib

/-!
# ProxyPlay.c : the forwarding proxy and its shared object cache

A shallow embedding of `src/ProxyPlay.c`, written statement by statement from the C
source: the cache (`init_cache`, `save_block`, `cache_evict`, `find_block`,
`access_block`, `block_update`, the lock helpers), and the request path (`handle_get`,
`parse_url`, `build_header`, the relay loop).

Modelling decisions:
* a `cache_block *` is `Option Nat`: `none` is `NULL`, `some p` is the `p`-th block
  handed out by `malloc` (blocks are never freed by the program, only their `object`);
* `malloc` does not initialise the memory it returns: what the blocks to come hold is
  part of the state (`fresh`), and a field that `save_block` does not assign keeps it;
* `size_t` is 64 bits wide: sums and differences are reduced modulo `2 ^ 64`;
* a semaphore is its counter; `P` on a counter that is `0` makes the calling thread
  wait, which ends the call with `Outcome.blocked` and keeps the state reached so far;
* every cache operation is run to its end (or to the point where it waits) before the
  next one starts;
* the debug prints are left out, the two list walks of `print_list` are kept;
* loops take fuel, and `Outcome.nofuel` says that the fuel did not suffice;
* a character array is the list of its first characters, all later ones being NUL; the
  string it holds is what stands before the first NUL (`cstr`). What a local array or
  variable holds before the program assigns it is a parameter of the function that reads
  it (`Locals` for `handle_get` and the `build_header` it calls);
* `sscanf`, `atoi`, `strstr`, `strcpy`, `strncpy` and `sprintf` follow the C standard;
  `atoi` and `%d` yield an `int` as the C library computes it: the number written is
  read by `strtol`, which stops at the ends of the range of `long`, and the `long` is
  converted to `int`;
* a read beyond the end of the array `buf_object` (lines 180-181) ends the call with
  `Outcome.fault`;
* a connection is the list of what the successive calls of `rio_readlineb` deliver; the
  limit `MAXLINE` of `csapp.h` is not in the source and no line is taken to reach it.

The other sources, `src/DataPlay.c`, `src/LRUcache.c` and `src/CacheBlockOpt.c`, have a
namespace each, with the decisions taken for them at its head. The definitions of the
four namespaces come first, the theorems after them.
-/

namespace ProxyPlay

/-- Recommended max cache size (line 4). -/
def MAX_CACHE_SIZE : Nat := 1049000

/-- Recommended max object size (line 5). -/
def MAX_OBJECT_SIZE : Nat := 102400

/-- Number of values of a `size_t`. -/
def SIZE_MOD : Nat := 2 ^ 64

/-- The struct `cache_block` (lines 29-38). -/
structure cache_block where
  object : Option (List Nat)
  url : List Char
  readcnt : Int
  block_size : Nat
  next_block : Option Nat
  prev_block : Option Nat
  read_mutex : Nat
  write_mutex : Nat
deriving DecidableEq, Repr

/-- The struct `cache` (lines 40-45). -/
structure cache where
  head : Option Nat
  size : Nat
  read_mutex : Nat
  write_mutex : Nat
deriving DecidableEq, Repr

/-- What the proxy does on its sockets. -/
inductive NetEvent where
  | client_write (bytes : List Nat)
  | origin_connect (url : String)
deriving DecidableEq, Repr

/-- The globals `share_cache` and `tail` (lines 82-83), the blocks allocated so far,
the socket activity so far, and `fresh`: what the memory holds that the coming calls of
`malloc` return, one element a block; beyond the end of the list the memory is zero. -/
structure ProxyState where
  heap : List cache_block
  share_cache : cache
  tail : Option Nat
  net : List NetEvent
  fresh : List cache_block
deriving DecidableEq, Repr

/-- How a call ends. -/
inductive Outcome (α : Type) where
  | ret (a : α)
  | blocked
  | fault
  | nofuel
deriving DecidableEq, Repr

/-- A piece of C code: a state transformer with an outcome. -/
def Prog (α : Type) : Type := ProxyState → Outcome α × ProxyState

/-- Sequencing: what follows a call runs only when the call returns. -/
def Prog.bind {α β : Type} (m : Prog α) (f : α → Prog β) : Prog β := fun s =>
  match m s with
  | (Outcome.ret a, s1) => f a s1
  | (Outcome.blocked, s1) => (Outcome.blocked, s1)
  | (Outcome.fault, s1) => (Outcome.fault, s1)
  | (Outcome.nofuel, s1) => (Outcome.nofuel, s1)

/-- Return a value, state untouched. -/
def Prog.pure {α : Type} (a : α) : Prog α := fun s => (Outcome.ret a, s)

instance : Monad Prog where
  pure := Prog.pure
  bind := Prog.bind

/-- Wait forever. -/
def block {α : Type} : Prog α := fun s => (Outcome.blocked, s)

/-- Dereference of `NULL` or of an address that was never allocated. -/
def fault {α : Type} : Prog α := fun s => (Outcome.fault, s)

/-- Loop fuel exhausted. -/
def nofuel {α : Type} : Prog α := fun s => (Outcome.nofuel, s)

/-- Read the globals. -/
def getState : Prog ProxyState := fun s => (Outcome.ret s, s)

/-- Read the block at address `p`. -/
def load (p : Nat) : Prog cache_block := fun s =>
  match s.heap[p]? with
  | some b => (Outcome.ret b, s)
  | none => (Outcome.fault, s)

/-- Update the block at address `p`. -/
def store (p : Nat) (f : cache_block → cache_block) : Prog Unit := fun s =>
  match s.heap[p]? with
  | some b => (Outcome.ret (), { s with heap := s.heap.set p (f b) })
  | none => (Outcome.fault, s)

/-- Address held by a pointer that the code dereferences. -/
def deref (p : Option Nat) : Prog Nat :=
  match p with
  | some a => Prog.pure a
  | none => fault

/-- The statement `P(&p->write_mutex)`. -/
def P_write_mutex (p : Nat) : Prog Unit := do
  let b ← load p
  if b.write_mutex = 0 then block
  else store p (fun c => { c with write_mutex := c.write_mutex - 1 })

/-- The statement `V(&p->write_mutex)`. -/
def V_write_mutex (p : Nat) : Prog Unit :=
  store p (fun c => { c with write_mutex := c.write_mutex + 1 })

/-- The statement `P(&p->read_mutex)`. -/
def P_read_mutex (p : Nat) : Prog Unit := do
  let b ← load p
  if b.read_mutex = 0 then block
  else store p (fun c => { c with read_mutex := c.read_mutex - 1 })

/-- The statement `V(&p->read_mutex)`. -/
def V_read_mutex (p : Nat) : Prog Unit :=
  store p (fun c => { c with read_mutex := c.read_mutex + 1 })

/-- The statement `P(&share_cache.write_mutex)`. -/
def P_cache_write_mutex : Prog Unit := fun s =>
  if s.share_cache.write_mutex = 0 then (Outcome.blocked, s)
  else (Outcome.ret (),
    { s with share_cache := { s.share_cache with write_mutex := s.share_cache.write_mutex - 1 } })

/-- The statement `V(&share_cache.write_mutex)`. -/
def V_cache_write_mutex : Prog Unit := fun s =>
  (Outcome.ret (),
    { s with share_cache := { s.share_cache with write_mutex := s.share_cache.write_mutex + 1 } })

/-- Assign `share_cache.head`. -/
def set_head (p : Option Nat) : Prog Unit := fun s =>
  (Outcome.ret (), { s with share_cache := { s.share_cache with head := p } })

/-- Assign `share_cache.size`. -/
def set_size (n : Nat) : Prog Unit := fun s =>
  (Outcome.ret (), { s with share_cache := { s.share_cache with size := n } })

/-- Assign `tail`. -/
def set_tail (p : Option Nat) : Prog Unit := fun s =>
  (Outcome.ret (), { s with tail := p })

/-- The call `rio_writen(connfd, buf, n)` of `access_block`: the `n` bytes at `buf` go
to the client; a `NULL` buffer makes the write fail and nothing is sent. -/
def rio_writen_client (buf : Option (List Nat)) (n : Nat) : Prog Unit := fun s =>
  match buf with
  | some bytes => (Outcome.ret (), { s with net := s.net ++ [NetEvent.client_write (bytes.take n)] })
  | none => (Outcome.ret (), s)

/-- The NUL character that ends a C string. -/
def NUL : Char := Char.ofNat 0

/-- The C string held by a character array: the characters before the first NUL. The
characters of an array beyond the end of the list are taken to be NUL. -/
def cstr (buf : List Char) : List Char := buf.takeWhile (fun c => c ≠ NUL)

/-- Write the string `s` and its terminating NUL at the start of the array `buf`
(`strcpy`, `sprintf`, a `%s` conversion of `sscanf`). -/
def put_cstr (buf s : List Char) : List Char := s ++ NUL :: buf.drop (s.length + 1)

/-- Write the characters `s` at the start of the array `buf`, without a NUL (`strncpy`
with a count that does not exceed the length of the source, `memcpy` of `strlen`
bytes). -/
def put_chars (buf s : List Char) : List Char := s ++ buf.drop s.length

/-- The first `n` bytes of an array of bytes that is given by its first bytes, all
later ones being 0. -/
def first_bytes (n : Nat) (arr : List Nat) : List Nat :=
  arr.take n ++ List.replicate (n - arr.length) 0

/-- A block of memory that holds zero bytes only. -/
def zero_block : cache_block :=
  { object := none, url := [], readcnt := 0, block_size := 0, next_block := none,
    prev_block := none, read_mutex := 0, write_mutex := 0 }

/-- Allocate a block (`malloc(sizeof(cache_block))`, line 219) and return its address.
The block holds what the memory held before. -/
def malloc_block : Prog Nat := fun s =>
  (Outcome.ret s.heap.length,
    { s with heap := s.heap ++ [s.fresh.headD zero_block], fresh := s.fresh.tail })

/-- The function `init_cache` (lines 441-448), on a heap without blocks and with
memory that holds zero bytes only. -/
def init_cache : ProxyState :=
  { heap := [],
    share_cache := { head := none, size := 0, read_mutex := 1, write_mutex := 1 },
    tail := none,
    net := [],
    fresh := [] }

/-- The function `read_lock` (lines 407-417). -/
def read_lock (p : Nat) : Prog Unit := do
  P_read_mutex p
  store p (fun c => { c with readcnt := c.readcnt + 1 })
  let b ← load p
  if b.readcnt = 1 then
    P_write_mutex p
  V_read_mutex p

/-- The function `read_unlock` (lines 419-429). -/
def read_unlock (p : Nat) : Prog Unit := do
  P_read_mutex p
  store p (fun c => { c with readcnt := c.readcnt - 1 })
  let b ← load p
  if b.readcnt = 0 then
    V_write_mutex p
  V_read_mutex p

/-- The function `write_block` (lines 431-434). -/
def write_block (p : Nat) : Prog Unit := P_write_mutex p

/-- The function `write_unblock` (lines 436-439). -/
def write_unblock (p : Nat) : Prog Unit := V_write_mutex p

/-- The loop of `cache_evict` (lines 259-268): `cur` is `cur_block`, the result is the
final `cur_block` and `evicted`. -/
def cache_evict_loop (size : Nat) : Nat → Option Nat → Nat → Prog (Option Nat × Nat)
  | _, none, evicted => Prog.pure (none, evicted)
  | 0, some p, evicted =>
      if evicted ≤ size then nofuel else Prog.pure (some p, evicted)
  | fuel + 1, some p, evicted =>
      if evicted ≤ size then do
        write_block p
        let b ← load p
        let evicted1 := (evicted + b.block_size) % SIZE_MOD
        store p (fun c => { c with object := none })
        write_unblock p
        let b1 ← load p
        cache_evict_loop size fuel b1.prev_block evicted1
      else Prog.pure (some p, evicted)

/-- The function `cache_evict` (lines 252-283). -/
def cache_evict (fuel : Nat) (size : Nat) : Prog Unit := do
  let s ← getState
  if size = 0 ∨ s.share_cache.head = none then
    Prog.pure ()
  else do
    let (cur_block, evicted) ← cache_evict_loop size fuel s.tail 0
    match cur_block with
    | some p => do
        let t ← deref (← getState).tail
        write_block t
        set_tail (some p)
        write_unblock p
    | none => set_tail none
    P_cache_write_mutex
    let s1 ← getState
    set_size ((s1.share_cache.size + SIZE_MOD - evicted) % SIZE_MOD)
    V_cache_write_mutex

/-- The first loop of `print_list` (lines 195-201): follow `next_block` to `NULL`. -/
def print_list_next : Nat → Option Nat → Prog Unit
  | _, none => Prog.pure ()
  | 0, some _ => nofuel
  | fuel + 1, some p => do
      let b ← load p
      print_list_next fuel b.next_block

/-- The second loop of `print_list` (lines 203-209): follow `prev_block` to `NULL`. -/
def print_list_prev : Nat → Option Nat → Prog Unit
  | _, none => Prog.pure ()
  | 0, some _ => nofuel
  | fuel + 1, some p => do
      let b ← load p
      print_list_prev fuel b.prev_block

/-- The function `print_list` (lines 193-211): it prints, and it walks the list from
`share_cache.head` and from `tail` without taking a lock. -/
def print_list (fuel : Nat) : Prog Unit := do
  print_list_next fuel (← getState).share_cache.head
  print_list_prev fuel (← getState).tail

/-- The function `save_block` (lines 213-250) with `MAX_CACHE_SIZE` as the parameter
`cap`. The string `url` is the C string at the pointer `url`; `obj` is the caller's
buffer, of which `size` bytes are copied. The `memcpy` of line 225 puts the `strlen(url)`
characters of the URL at the start of the array `cur->url` and no NUL after them; the
field `readcnt` is not assigned. -/
def save_block (cap : Nat) (fuel : Nat) (url : String) (obj : List Nat) (size : Nat) :
    Prog Unit := do
  let s ← getState
  if (s.share_cache.size + size) % SIZE_MOD > cap then
    cache_evict fuel ((s.share_cache.size + size + SIZE_MOD - cap % SIZE_MOD) % SIZE_MOD)
  let cur ← malloc_block
  store cur (fun c => { c with object := some (first_bytes size obj), block_size := size,
                               read_mutex := 1, write_mutex := 1,
                               url := put_chars c.url (cstr url.toList),
                               prev_block := none })
  let s1 ← getState
  match s1.share_cache.head with
  | some h => do
      P_cache_write_mutex
      store cur (fun c => { c with next_block := some h })
      store h (fun c => { c with prev_block := some cur })
      set_head (some cur)
      V_cache_write_mutex
  | none => do
      set_head (some cur)
      store cur (fun c => { c with next_block := none })
  let s2 ← getState
  if s2.tail = none then
    set_tail (some cur)
  P_cache_write_mutex
  let s3 ← getState
  set_size ((s3.share_cache.size + size) % SIZE_MOD)
  V_cache_write_mutex
  print_list fuel

/-- The loop of `find_block` (lines 288-300); `strcmp` compares the C string held in
the array `url` of the block with the C string `url`. -/
def find_block_loop (url : String) : Nat → Option Nat → Prog (Option Nat)
  | _, none => Prog.pure none
  | 0, some _ => nofuel
  | fuel + 1, some p => do
      read_lock p
      let b ← load p
      if cstr b.url = cstr url.toList then do
        read_unlock p
        Prog.pure (some p)
      else do
        read_unlock p
        let b1 ← load p
        find_block_loop url fuel b1.next_block

/-- The function `find_block` (lines 285-303). -/
def find_block (fuel : Nat) (url : String) : Prog (Option Nat) := do
  let s ← getState
  find_block_loop url fuel s.share_cache.head

/-- The function `block_update` (lines 313-339). -/
def block_update (cur_block : Nat) : Prog Unit := do
  write_block cur_block
  match (← load cur_block).prev_block with
  | some prev => do
      write_block prev
      let nxt := (← load cur_block).next_block
      store prev (fun c => { c with next_block := nxt })
      write_unblock prev
  | none => Prog.pure ()
  match (← load cur_block).next_block with
  | some nxt => do
      write_block nxt
      let prv := (← load cur_block).prev_block
      store nxt (fun c => { c with prev_block := prv })
      write_unblock nxt
  | none => do
      write_block (← deref (← getState).tail)
      match (← load cur_block).prev_block with
      | some prev => set_tail (some prev)
      | none => Prog.pure ()
      write_unblock (← deref (← getState).tail)
  if (← getState).share_cache.head ≠ some cur_block then
    write_block (← deref (← getState).share_cache.head)
    let h := (← getState).share_cache.head
    store cur_block (fun c => { c with next_block := h })
    set_head (some cur_block)
    write_unblock (← deref (← getState).share_cache.head)
  write_unblock cur_block

/-- The function `access_block` (lines 305-311). -/
def access_block (cur_block : Nat) : Prog Unit := do
  read_lock cur_block
  let b ← load cur_block
  rio_writen_client b.object b.block_size
  read_unlock cur_block
  block_update cur_block

/-- Record socket activity. -/
def net_event (e : NetEvent) : Prog Unit := fun s =>
  (Outcome.ret (), { s with net := s.net ++ [e] })

/-- What the origin side of a request (lines 166-183 of `handle_get`) leaves behind:
the bytes relayed to the client, the contents of `buf_object` and the value of `size`. -/
structure OriginReply where
  relayed : List Nat
  buf_object : List Nat
  size : Nat
deriving DecidableEq, Repr

/-- The insert step of `handle_get` (lines 184-186): `save_block` is called only for
`size < MAX_OBJECT_SIZE && size > 0`. -/
def handle_get_save (cap fuel : Nat) (url : String) (buf_object : List Nat) (size : Nat) :
    Prog Unit :=
  if size < MAX_OBJECT_SIZE ∧ size > 0 then save_block cap fuel url buf_object size
  else Prog.pure ()

/-- The function `handle_get` from line 146 on, that is for an accepted request line
`GET url HTTP/1.x`. The origin side (`parse_url`, `build_header`, `open_clientfd` and
the relay loop) is the parameter `origin`: `none` when the connection fails, else what
the relay loop leaves behind. Lines 180-181 copy `size` bytes of the array `buf_object`,
which has `MAX_OBJECT_SIZE` bytes, into a scratch array: with a larger `size` the read
goes beyond the array and the call ends with a fault. The prints are left out. -/
def handle_get (cap fuel : Nat) (url : String) (origin : Option OriginReply) : Prog Unit := do
  match (← find_block fuel url) with
  | some cur_block => access_block cur_block
  | none => do
      net_event (NetEvent.origin_connect url)
      match origin with
      | none => Prog.pure ()
      | some r => do
          net_event (NetEvent.client_write r.relayed)
          if MAX_OBJECT_SIZE < r.size then
            fault
          else do
            handle_get_save cap fuel url r.buf_object r.size
            print_list fuel

/-- A cache operation of one thread: a whole request (`handle_get`), or the
`save_block` call of a request whose lookup missed earlier. -/
inductive CacheOp where
  | request (url : String) (origin : Option OriginReply)
  | save (url : String) (obj : List Nat) (size : Nat)
deriving DecidableEq, Repr

/-- Run one operation to its end or to the point where its thread waits. -/
def run_op (cap fuel : Nat) (op : CacheOp) : Prog Unit :=
  match op with
  | CacheOp.request url origin => handle_get cap fuel url origin
  | CacheOp.save url obj size => save_block cap fuel url obj size

/-- Run operations one after the other; the flag says that every one of them returned. -/
def run_ops (cap fuel : Nat) : List CacheOp → ProxyState → Bool × ProxyState
  | [], s => (true, s)
  | op :: ops, s =>
      match run_op cap fuel op s with
      | (Outcome.ret _, s1) => run_ops cap fuel ops s1
      | (_, s1) => (false, (run_ops cap fuel ops s1).2)

/-- An origin reply for a response of `n` bytes. -/
def reply (n : Nat) : Option OriginReply :=
  some { relayed := List.replicate n 0, buf_object := List.replicate n 0, size := n }

/-- The state after running `ops` from the empty cache with the real `MAX_CACHE_SIZE`. -/
def state_after (ops : List CacheOp) : ProxyState :=
  (run_ops MAX_CACHE_SIZE 100 ops init_cache).2

/-- Every operation of `ops`, run from the empty cache, returned. -/
def all_returned (ops : List CacheOp) : Bool :=
  (run_ops MAX_CACHE_SIZE 100 ops init_cache).1

/-- The entry at address `p` is stored: allocated and its body not freed by an eviction. -/
def is_stored (s : ProxyState) (p : Nat) : Bool :=
  match s.heap[p]? with
  | some b => b.object.isSome
  | none => false

/-- Addresses of the entries currently stored, in order of insertion. -/
def stored_blocks (s : ProxyState) : List Nat :=
  (List.range s.heap.length).filter (is_stored s)

/-- Sum of `block_size` over the entries currently stored. -/
def stored_size (s : ProxyState) : Nat :=
  ((s.heap.filter (fun b => b.object.isSome)).map (fun b => b.block_size)).sum

/-- The field `next_block` of the block at `p`. -/
def next_of (s : ProxyState) (p : Nat) : Option Nat :=
  match s.heap[p]? with
  | some b => b.next_block
  | none => none

/-- The field `prev_block` of the block at `p`. -/
def prev_of (s : ProxyState) (p : Nat) : Option Nat :=
  match s.heap[p]? with
  | some b => b.prev_block
  | none => none

/-- The addresses met by following `next_block` from `p`, the first `fuel` of them. -/
def next_walk (s : ProxyState) : Nat → Option Nat → List Nat
  | 0, _ => []
  | _, none => []
  | fuel + 1, some p => p :: next_walk s fuel (next_of s p)

/-- The addresses met by following `prev_block` from `p`, the first `fuel` of them. -/
def prev_walk (s : ProxyState) : Nat → Option Nat → List Nat
  | 0, _ => []
  | _, none => []
  | fuel + 1, some p => p :: prev_walk s fuel (prev_of s p)

/-- Position in `ops` of the last request for `url`. -/
def last_use (ops : List CacheOp) (url : String) : Option Nat :=
  ((ops.enum.filter (fun x =>
      match x.2 with
      | CacheOp.request u _ => u = url
      | CacheOp.save u _ _ => u = url)).map (fun x => x.1)).getLast?

/-- Requests after which `share_cache.size` exceeds `MAX_CACHE_SIZE`: a 1-byte entry A,
an entry B, a hit on B (the head), nine more entries, then L. Every body but the first
has `MAX_OBJECT_SIZE - 1` bytes. -/
def overfull_requests : List CacheOp :=
  [CacheOp.request "A" (reply 1), CacheOp.request "B" (reply 102399),
   CacheOp.request "B" none,
   CacheOp.request "C" (reply 102399), CacheOp.request "D" (reply 102399),
   CacheOp.request "E" (reply 102399), CacheOp.request "F" (reply 102399),
   CacheOp.request "G" (reply 102399), CacheOp.request "H" (reply 102399),
   CacheOp.request "I" (reply 102399), CacheOp.request "J" (reply 102399),
   CacheOp.request "K" (reply 102399), CacheOp.request "L" (reply 102399)]

/-- The requests `overfull_requests` followed by a request for a new URL M. -/
def mru_evicted_requests : List CacheOp :=
  overfull_requests ++ [CacheOp.request "M" (reply 102399)]

/-- The eviction scenario of the specification: A, B and C of 40 bytes each. -/
def scenario_40_40_40 : List CacheOp :=
  [CacheOp.request "A" (reply 40), CacheOp.request "B" (reply 40),
   CacheOp.request "C" (reply 40)]

/-- The state after the eviction scenario with the capacity taken as 100 bytes. -/
def scenario_state : ProxyState :=
  (run_ops 100 100 scenario_40_40_40 init_cache).2

/-- Eleven entries of `MAX_OBJECT_SIZE - 1` bytes: the eleventh evicts the first. -/
def eleven_requests : List CacheOp :=
  [CacheOp.request "U0" (reply 102399), CacheOp.request "U1" (reply 102399),
   CacheOp.request "U2" (reply 102399), CacheOp.request "U3" (reply 102399),
   CacheOp.request "U4" (reply 102399), CacheOp.request "U5" (reply 102399),
   CacheOp.request "U6" (reply 102399), CacheOp.request "U7" (reply 102399),
   CacheOp.request "U8" (reply 102399), CacheOp.request "U9" (reply 102399),
   CacheOp.request "U10" (reply 102399)]

/-- Two entries and a hit on the newer one. -/
def head_hit_requests : List CacheOp :=
  [CacheOp.request "A" (reply 10), CacheOp.request "B" (reply 10), CacheOp.request "B" none]

/-- Three entries A, B, C, a hit on C (the head) and a hit on B. -/
def cycle_requests : List CacheOp :=
  [CacheOp.request "A" (reply 10), CacheOp.request "B" (reply 10),
   CacheOp.request "C" (reply 10), CacheOp.request "C" none, CacheOp.request "B" none]

/-- Entries U0 (1 byte), U1, U2, a hit on U2, entries U3 to U11 (U11 evicts U0 and U1)
and U12 (1 byte). -/
def recount_prefix : List CacheOp :=
  [CacheOp.request "U0" (reply 1), CacheOp.request "U1" (reply 102399),
   CacheOp.request "U2" (reply 102399), CacheOp.request "U2" none,
   CacheOp.request "U3" (reply 102399), CacheOp.request "U4" (reply 102399),
   CacheOp.request "U5" (reply 102399), CacheOp.request "U6" (reply 102399),
   CacheOp.request "U7" (reply 102399), CacheOp.request "U8" (reply 102399),
   CacheOp.request "U9" (reply 102399), CacheOp.request "U10" (reply 102399),
   CacheOp.request "U11" (reply 102399), CacheOp.request "U12" (reply 1)]

/-- After `recount_prefix`: a request for the evicted U0, which `find_block` still
finds, and then the `save_block` of a thread that looked U13 up before that request. -/
def recount_ops : List CacheOp :=
  recount_prefix ++
    [CacheOp.request "U0" none, CacheOp.save "U13" (List.replicate 102399 0) 102399]



/-! ## C strings, `parse_url` and `build_header` -/

/-- The function `isspace` of the C locale. -/
def isspace (c : Char) : Bool :=
  c = ' ' || c = Char.ofNat 9 || c = Char.ofNat 10 || c = Char.ofNat 11 || c = Char.ofNat 12 ||
    c = Char.ofNat 13

/-- The function `strstr`: the offset of the first occurrence of `needle` in `hay`. -/
def strstr {α : Type} [DecidableEq α] (hay needle : List α) : Option Nat :=
  if needle.isPrefixOf hay then some 0
  else
    match hay with
    | [] => none
    | _ :: t => (strstr t needle).map (fun i => i + 1)

/-- A `%s` conversion of `sscanf`: white space is skipped, then the characters up to
the next white space are the token; `none` at the end of the input. The result is the
token and the rest of the input. -/
def scan_s (input : List Char) : Option (List Char × List Char) :=
  match input.dropWhile isspace with
  | [] => none
  | c :: t => some ((c :: t).span (fun x => !isspace x))

/-- The value of a run of decimal digits. -/
def digits_value (ds : List Char) : Nat :=
  ds.foldl (fun v c => 10 * v + (c.toNat - 48)) 0

/-- The `long` that `strtol` yields for the number `v`: a number beyond the range of
`long` gives the end of the range. -/
def to_long (v : Int) : Int := max (-(2 ^ 63)) (min v (2 ^ 63 - 1))

/-- The conversion of a `long` to `int`: modulo `2 ^ 32`, into the range from `-2 ^ 31`
to `2 ^ 31 - 1`. -/
def to_int (v : Int) : Int := (v + 2 ^ 31) % 2 ^ 32 - 2 ^ 31

/-- An integer in decimal at the start of `input` (after white space and an optional
sign), as `%d` and `atoi` read it: the value and the rest, `none` when no digit is
there. The value is an `int`: the number written, read by `strtol` and converted. -/
def scan_int (input : List Char) : Option (Int × List Char) :=
  let s := input.dropWhile isspace
  let neg := s.head? = some '-'
  let body := if s.head? = some '-' ∨ s.head? = some '+' then s.tail else s
  let ds := body.takeWhile Char.isDigit
  if ds = [] then none
  else some (to_int (to_long (if neg then - (digits_value ds : Int) else (digits_value ds : Int))),
             body.dropWhile Char.isDigit)

/-- The function `atoi`. -/
def atoi (input : List Char) : Int :=
  match scan_int input with
  | some (v, _) => v
  | none => 0

/-- The result of `parse_url`: the arrays `hostname` and `path` and `*port`. -/
structure UrlParts where
  hostname : List Char
  path : List Char
  port : Int
deriving DecidableEq, Repr

/-- The constant `DEFPORT` (line 10). -/
def DEFPORT : Int := 80

/-- The constant `default_path` (line 60). -/
def default_path : List Char := "/index.html".toList

/-- The function `parse_url` (lines 341-373). `hostname` and `path` are the caller's
arrays as they are on entry; what the function does not assign keeps its value. -/
def parse_url (url hostname path : List Char) : UrlParts :=
  let u := cstr url
  let temp := match strstr u "//".toList with
    | some i => u.drop (i + 2)
    | none => u
  match strstr temp ":".toList with
  | some j =>
      let before := temp.take j
      let hostname1 := match scan_s before with
        | some (tok, _) => put_cstr hostname tok
        | none => hostname
      let hostname2 := put_chars hostname1 before
      let after := temp.drop (j + 1)
      match strstr temp "/".toList with
      | some _ =>
          match scan_int after with
          | some (n, rest) =>
              match scan_s rest with
              | some (tok, _) => { hostname := hostname2, path := put_cstr path tok, port := n }
              | none => { hostname := hostname2, path := path, port := n }
          | none => { hostname := hostname2, path := path, port := DEFPORT }
      | none =>
          { hostname := hostname2, path := put_cstr path default_path, port := atoi after }
  | none =>
      match strstr temp "/".toList with
      | none => { hostname := hostname, path := put_cstr path default_path, port := DEFPORT }
      | some k =>
          let path1 := match scan_s (temp.drop k) with
            | some (tok, _) => put_cstr path tok
            | none => path
          let hostname1 := match scan_s (temp.take k) with
            | some (tok, _) => put_cstr hostname tok
            | none => hostname
          { hostname := hostname1, path := path1, port := DEFPORT }

/-- What the caller of `parse_url` reads: the strings in `hostname` and `path`, and the port. -/
def url_parts (url hostname path : List Char) : List Char × List Char × Int :=
  (cstr (parse_url url hostname path).hostname, cstr (parse_url url hostname path).path,
    (parse_url url hostname path).port)


/-- The decimal numeral of `n`. -/
def dec (n : Nat) : List Char :=
  if n = 0 then ['0'] else (Nat.digits 10 n).reverse.map (fun d => Char.ofNat (d + 48))

/-- The `User-Agent` line the proxy sends (`header_user_agent`). -/
def header_user_agent : List Char :=
  "User-Agent: Mozilla/5.0 (X11; Linux x86_64; rv:45.0) Gecko/20100101 Firefox/45.0\r\n".toList

/-- The `Connection` line the proxy sends (`header_connection`). -/
def header_connection : List Char := "Connection: close\r\n".toList

/-- The `Proxy-Connection` line the proxy sends (`header_proxy_connection`). -/
def header_proxy_connection : List Char := "Proxy-Connection: close\r\n".toList

/-- The text `sprintf(host, header_host, hostname)` writes, `header_host` being
`"Host: %s\r\n"`. -/
def header_host (hostname : List Char) : List Char :=
  "Host: ".toList ++ hostname ++ "\r\n".toList

/-- The key `host_key`. -/
def host_key : List Char := "Host".toList

/-- The key `user_agent_key`. -/
def user_agent_key : List Char := "User-Agent".toList

/-- The key `connection_key`. -/
def connection_key : List Char := "Connection".toList

/-- The key `proxy_connection_key`. -/
def proxy_connection_key : List Char := "Proxy-Connection".toList

/-- The text `get_str`. -/
def get_str : List Char := "GET ".toList

/-- The text `header_end`. -/
def header_end : List Char := "\r\n".toList

/-- The `while` loop of `build_header` (lines 383 to 400). `rio` is the list of lines
`rio_readlineb` has still to deliver, each as the bytes it puts in `buf`; an empty
element stands for a call that returns 0 (end of input), as does the end of the list.
`host` and `remain` are the strings held in the two local arrays: `strcpy(host, buf)`
replaces the one, `strcat(remain, buf)` adds to the other. The result is their value when
the loop is left. -/
def build_header_loop : List (List Char) → List Char → List Char → List Char × List Char
  | [], host, remain => (host, remain)
  | buf :: rio, host, remain =>
      if buf = [] then (host, remain)
      else if cstr buf = header_end then (host, remain)
      else if strstr (cstr buf) host_key ≠ none then build_header_loop rio (cstr buf) remain
      else if strstr (cstr buf) user_agent_key ≠ none then build_header_loop rio host remain
      else if strstr (cstr buf) connection_key ≠ none then build_header_loop rio host remain
      else if strstr (cstr buf) proxy_connection_key ≠ none then
        build_header_loop rio host remain
      else build_header_loop rio host (remain ++ cstr buf)

/-- The function `build_header` (lines 375 to 405): the string it leaves in `header`, for
the strings `hostname` and `path` and the lines `rio` of the client still to be read.
`host` and `remain` are the two local arrays as they are when the function is entered:
the program does not initialise them, and it reads them with `strcat(remain, buf)` (line
393) and `strlen(host)` (line 397). -/
def build_header (host remain hostname path : List Char) (rio : List (List Char)) :
    List Char :=
  let request := get_str ++ path ++ " HTTP/1.0".toList ++ header_end
  let host1 := (build_header_loop rio (cstr host) (cstr remain)).1
  let remain1 := (build_header_loop rio (cstr host) (cstr remain)).2
  let host2 := if host1 = [] then header_host hostname else host1
  request ++ host2 ++ header_connection ++ header_proxy_connection ++ header_user_agent ++
    remain1 ++ header_end

/-! ## The request line and the relay loop of `handle_get` -/

/-- The call `sscanf(buf, "%s %s HTTP/1.%c", request, url, &version)` of line 136 on
the string `input`: `some (request, url, version)` when it returns 3, `none` when it
returns less. A blank in the format skips white space, as does `%s`; `%c` takes the next
character of the string, whatever it is. -/
def scan_request (input : List Char) : Option (List Char × List Char × Char) :=
  match scan_s input with
  | none => none
  | some (request, r1) =>
      match scan_s r1 with
      | none => none
      | some (url, r2) =>
          if "HTTP/1.".toList.isPrefixOf (r2.dropWhile isspace) then
            match (r2.dropWhile isspace).drop 7 with
            | [] => none
            | version :: _ => some (request, url, version)
          else none

/-- The text `sprintf(portStr, "%d", port)` writes. -/
def dec_int (v : Int) : List Char :=
  if v < 0 then '-' :: dec v.natAbs else dec v.toNat

/-- The bytes of a string. -/
def bytes (s : List Char) : List Nat := s.map Char.toNat

/-- The C string held by an array of bytes: the bytes before the first 0. -/
def cstr_bytes (buf : List Nat) : List Nat := buf.takeWhile (fun b => b ≠ 0)

/-- The array `buf` after `rio_readlineb` has put `line` and a terminating 0 at its
start. -/
def put_line (buf line : List Nat) : List Nat := line ++ 0 :: buf.drop (line.length + 1)

/-- The array `dst` after `memcpy(dst, src, n)` with `src` the `n` bytes `chunk`. -/
def memcpy (dst chunk : List Nat) : List Nat := chunk ++ dst.drop chunk.length

/-- The key `length_key`. -/
def length_key : List Nat := bytes "Content-Length".toList

/-- The conversion of an `int` to `size_t`. -/
def to_size_t (v : Int) : Nat := (v % (SIZE_MOD : Int)).toNat

/-- The variables of the relay loop of `handle_get` (lines 166-179): the array `buf`,
`size`, the array `buf_object`, and the bytes written to the client so far. -/
structure RelayState where
  buf : List Nat
  size : Nat
  buf_object : List Nat
  sent : List Nat
deriving DecidableEq, Repr

/-- One turn of the relay loop (lines 168-178), `chunk` being the `n` bytes that
`rio_readlineb` delivers. -/
def relay_step (st : RelayState) (chunk : List Nat) : RelayState :=
  let buf := put_line st.buf chunk
  let size :=
    match strstr (cstr_bytes buf) length_key with
    | some i => to_size_t (atoi ((cstr_bytes (buf.drop (i + 16))).map Char.ofNat))
    | none => st.size
  let buf_object := if size < MAX_OBJECT_SIZE then memcpy st.buf_object chunk else st.buf_object
  { buf := buf, size := size, buf_object := buf_object, sent := st.sent ++ chunk }

/-- The relay loop (lines 168-179). `chunks` is what the calls of `rio_readlineb` on the
origin connection deliver, one element a call; an empty element stands for a call that
returns 0, as does the end of the list. -/
def relay_loop : List (List Nat) → RelayState → RelayState
  | [], st => st
  | chunk :: chunks, st => if chunk = [] then st else relay_loop chunks (relay_step st chunk)

/-- What the relay loop leaves behind when it starts with `buf` (which holds the
request line of the client) and reads `chunks`. The variable `size` and the array
`buf_object` are not initialised by the program: `size` and `buf_object` are what they
hold when the loop starts. -/
def origin_reply (buf : List Nat) (size : Nat) (buf_object : List Nat)
    (chunks : List (List Nat)) : OriginReply :=
  { relayed :=
      (relay_loop chunks { buf := buf, size := size, buf_object := buf_object, sent := [] }).sent,
    buf_object :=
      (relay_loop chunks
        { buf := buf, size := size, buf_object := buf_object, sent := [] }).buf_object,
    size :=
      (relay_loop chunks { buf := buf, size := size, buf_object := buf_object, sent := [] }).size }

/-- What the local variables of `handle_get` (line 127 to 131, `buf_object` of line 169)
and of the `build_header` it calls (`host` and `remain`, line 378) hold when the call
starts. The program does not initialise them. -/
structure Locals where
  buf : List Char
  hostname : List Char
  path : List Char
  size : Nat
  buf_object : List Nat
  host : List Char
  remain : List Char
deriving DecidableEq, Repr

/-- Local variables that hold zero bytes only. -/
def zero_locals : Locals :=
  { buf := [], hostname := [], path := [], size := 0, buf_object := [], host := [],
    remain := [] }

/-- The function `handle_get` (lines 125-191) as a whole. `mem` is what the local
variables hold when the call starts. `client` is what the calls of `rio_readlineb` on
the client connection deliver: the request line, then the header lines; an empty first
element, as an empty list, stands for a first call that returns 0, which leaves `buf` as
it was (the program does not look at what the call returns, line 134).
`origin hostname port header` is the origin server: `none` when
`open_clientfd(hostname, port)` fails, else what the calls of `rio_readlineb` on the
origin connection deliver after `header` has been sent. -/
def handle_get_request (cap fuel : Nat) (mem : Locals) (client : List (List Char))
    (origin : List Char → List Char → List Char → Option (List (List Nat))) : Prog Unit :=
  let buf := if client.headD [] = [] then mem.buf else put_cstr mem.buf (client.headD [])
  match scan_request (cstr buf) with
  | none => Prog.pure ()
  | some (request, url, version) =>
      if version ≠ '0' ∧ version ≠ '1' then Prog.pure ()
      else if request ≠ "GET".toList then Prog.pure ()
      else
        let parts := parse_url (put_cstr [] url) mem.hostname mem.path
        let client_header :=
          build_header mem.host mem.remain (cstr parts.hostname) (cstr parts.path) client.tail
        handle_get cap fuel (String.mk url)
          ((origin (cstr parts.hostname) (dec_int parts.port) client_header).map
            (origin_reply (bytes buf) mem.size mem.buf_object))

/-! ## Definitions used to state and prove the claims -/

/-- The cache that holds the single entry `(url, obj, size)`, with memory that holds
zero bytes only. -/
def single_entry (url : String) (obj : List Nat) (size : Nat) : ProxyState :=
  { heap := [{ object := some (first_bytes size obj), url := cstr url.toList, readcnt := 0,
               block_size := size, next_block := none, prev_block := none,
               read_mutex := 1, write_mutex := 1 }],
    share_cache := { head := some 0, size := size % SIZE_MOD, read_mutex := 1, write_mutex := 1 },
    tail := some 0,
    net := [],
    fresh := [] }

/-- Every run of `m`, whatever its outcome, relates the state before to the state after. -/
structure Keeps {α : Type} (R : ProxyState → ProxyState → Prop) (m : Prog α) : Prop where
  run : ∀ s, R s (m s).2

/-- A reflexive and transitive relation on states. -/
structure IsPre (R : ProxyState → ProxyState → Prop) : Prop where
  refl : ∀ s, R s s
  trans : ∀ a b c, R a b → R b c → R a c

/-- The state is the same. -/
def same_state (s s1 : ProxyState) : Prop := s1 = s

/-- The socket activity is the same. -/
def same_net (s s1 : ProxyState) : Prop := s1.net = s.net

/-- The stored data: URL (the C string held in the array `url`), body and size of
every block, in order of allocation. -/
def entries (s : ProxyState) : List (String × Option (List Nat) × Nat) :=
  s.heap.map (fun b => (String.mk (cstr b.url), b.object, b.block_size))

/-- A block of memory that holds the characters `old` where the array `url` of the block
lies, and zero bytes elsewhere. -/
def stale_block (old : List Char) : cache_block := { zero_block with url := old }

/-- The empty cache, with `blocks` as what the memory holds that the coming calls of
`malloc` return. -/
def init_cache_with (blocks : List cache_block) : ProxyState :=
  { init_cache with fresh := blocks }

/-- The call `save_block("http://example.com/page", "Hi", 2)` on the empty cache, the
block that `malloc` returns holding the characters `old` in its array `url`: how the call
ends and the state it leaves. -/
def page_saved_on (old : List Char) : Outcome Unit × ProxyState :=
  save_block MAX_CACHE_SIZE 100 "http://example.com/page" [72, 105] 2
    (init_cache_with [stale_block old])

/-- The eleven requests `eleven_requests` on the empty cache with the real
`MAX_CACHE_SIZE`, when the memory of the eleventh block, the one allocated after the
eviction of U0, holds the old bytes `xxxd`, an opening brace and the character 127 where
its array `url` lies: whether every request returned, and the state they leave. -/
def eleven_on_stale : Bool × ProxyState :=
  run_ops MAX_CACHE_SIZE 100 eleven_requests
    (init_cache_with (List.replicate 10 zero_block ++ [stale_block "xxxd\x7b\x7f".toList]))

/-- A character that may stand in a token of a C string: neither white space nor NUL. -/
def plain (c : Char) : Prop := isspace c = false ∧ c ≠ NUL

/-- A list that is empty or starts with a character that is no digit. -/
def no_digit_first (p : List Char) : Prop := ∀ c t, p = c :: t → c.isDigit = false

/-- A host as the claims take it: not empty, without `/`, `:`, white space or NUL. -/
def host_token (h : List Char) : Prop :=
  h ≠ [] ∧ ∀ c ∈ h, c ≠ '/' ∧ c ≠ ':' ∧ isspace c = false ∧ c ≠ NUL

/-- A path as the claims take it: it starts with `/` and has no `:`, no `//`, no white
space and no NUL. -/
def path_token (p : List Char) : Prop :=
  (∃ t, p = '/' :: t) ∧ (∀ c ∈ p, c ≠ ':' ∧ isspace c = false ∧ c ≠ NUL) ∧
    strstr p ['/', '/'] = none

/-- The lines of a text: it is cut after every line feed; a last piece without a line
feed is a line too. -/
def lines_of : List Char → List (List Char)
  | [] => []
  | c :: t =>
      if c = '\n' then [c] :: lines_of t
      else
        match lines_of t with
        | [] => [[c]]
        | l :: ls => (c :: l) :: ls

/-- A header line as the client sends it: some text without line feed and without NUL,
then carriage return and line feed. The text may be empty, which is the line that ends
the header block. -/
def crlf_line (l : List Char) : Prop :=
  ∃ content : List Char, l = content ++ header_end ∧ '\n' ∉ content ∧ NUL ∉ content

/-- A line of text that is not empty: text without line feed, not empty, then carriage
return and line feed. -/
def text_line (l : List Char) : Prop :=
  ∃ content : List Char, l = content ++ header_end ∧ '\n' ∉ content ∧ content ≠ []

/-- A request line with the three fields `METHOD URL HTTP/1.x`: white space (maybe
none), the method, white space, the URL, white space, the text `HTTP/1.`, the character
`x`, and whatever follows. Method and URL are not empty and have neither white space nor
NUL in them. -/
def request_line (line method url : List Char) (x : Char) : Prop :=
  ∃ w0 w1 w2 rest : List Char,
    line = w0 ++ (method ++ (w1 ++ (url ++ (w2 ++ ("HTTP/1.".toList ++ x :: rest))))) ∧
    (∀ c ∈ w0, isspace c = true) ∧ (∀ c ∈ w1, isspace c = true) ∧
    (∀ c ∈ w2, isspace c = true) ∧ w1 ≠ [] ∧ w2 ≠ [] ∧ method ≠ [] ∧ url ≠ [] ∧
    (∀ c ∈ method, plain c) ∧ (∀ c ∈ url, plain c) ∧ x ≠ NUL

/-- A client request for `http://example.com/page` without header lines. -/
def page_request : List (List Char) :=
  ["GET http://example.com/page HTTP/1.1\r\n".toList, "\r\n".toList]

/-- An origin that serves `chunks` at `example.com`, port 80, and nothing elsewhere. -/
def example_origin (chunks : List (List Nat)) :
    List Char → List Char → List Char → Option (List (List Nat)) :=
  fun hostname port _ =>
    if hostname = "example.com".toList ∧ port = "80".toList then some chunks else none

/-- A response of 51 bytes: status line, `Content-Length: 12`, the empty line, and a
body of two lines. -/
def two_line_response : List (List Nat) :=
  [bytes "HTTP/1.0 200 OK\r\n".toList, bytes "Content-Length: 12\r\n".toList,
   bytes "\r\n".toList, bytes "hello\n".toList, bytes "world\n".toList]

/-- A response of 19 bytes: a status line and the empty line. -/
def empty_page_response : List (List Nat) :=
  [bytes "HTTP/1.0 200 OK\r\n".toList, bytes "\r\n".toList]

/-- The local variables `mem`, with the request line of an earlier request for
`http://example.com/page` in the array `buf`. -/
def earlier_request_in_buf (mem : Locals) : Locals :=
  { mem with buf := put_cstr mem.buf "GET http://example.com/page HTTP/1.1\r\n".toList }

/-- A response that declares 200000 bytes and of which 43 bytes arrive. -/
def cut_short_response : List (List Nat) :=
  [bytes "HTTP/1.0 200 OK\r\n".toList, bytes "Content-Length: 200000\r\n".toList,
   bytes "\r\n".toList]

/-- The state after the request `page_request` is handled on the empty cache, the origin
answering with `chunks`; memory and local variables hold zero bytes only. -/
def after_page_request (chunks : List (List Nat)) : ProxyState :=
  (handle_get_request MAX_CACHE_SIZE 100 zero_locals page_request (example_origin chunks)
    init_cache).2

/-- The example of the specification for an eviction that frees exactly the missing
amount: entries of 40 and 40 bytes, then an insert of 60 bytes, for a capacity of 100. -/
def exact_fit_small : List CacheOp :=
  [CacheOp.request "A" (reply 40), CacheOp.request "B" (reply 40),
   CacheOp.request "C" (reply 60)]

/-- Ten entries of 100000 bytes and one of 49000 bytes, which fill the cache to
`MAX_CACHE_SIZE` exactly, and then an entry of 100000 bytes, the size of the oldest. -/
def exact_fit_requests : List CacheOp :=
  [CacheOp.request "U0" (reply 100000), CacheOp.request "U1" (reply 100000),
   CacheOp.request "U2" (reply 100000), CacheOp.request "U3" (reply 100000),
   CacheOp.request "U4" (reply 100000), CacheOp.request "U5" (reply 100000),
   CacheOp.request "U6" (reply 100000), CacheOp.request "U7" (reply 100000),
   CacheOp.request "U8" (reply 100000), CacheOp.request "U9" (reply 100000),
   CacheOp.request "U10" (reply 49000), CacheOp.request "U11" (reply 100000)]

/-- What the lock protocol cares about in the entry at address `p`: whether the body is
there (`object != NULL`), `readcnt`, and the two semaphores `read_mutex` and
`write_mutex`. -/
def lock_view (s : ProxyState) (p : Nat) : Option (Bool × Int × Nat × Nat) :=
  (s.heap[p]?).map (fun b => (b.object.isSome, b.readcnt, b.read_mutex, b.write_mutex))

/-- Two threads on the entry of U1. Thread 1 handles a request for U1: `find_block`,
then the `read_lock` of `access_block`. Thread 2 then runs the `save_block` of a request
for U11 whose lookup missed earlier. Thread 1 then reads the entry, as `access_block`
does for `rio_writen`. The result is the `object` field that thread 1 reads. -/
def reader_then_evictor : Prog (Option (List Nat)) := do
  match (← find_block 100 "U1") with
  | none => fault
  | some p => do
      read_lock p
      save_block MAX_CACHE_SIZE 100 "U11" (List.replicate 102399 0) 102399
      let b ← load p
      Prog.pure b.object

/-- Thread 1 as in `reader_then_evictor` up to its `read_lock`, then a `write_block` of
another thread on the same entry. -/
def reader_then_writer : Prog Unit := do
  match (← find_block 100 "U1") with
  | none => fault
  | some p => do
      read_lock p
      write_block p

end ProxyPlay

namespace DataPlay

/-!
# DataPlay.c : bit-level puzzles

An `int` or `unsigned` of the C source is its 32-bit pattern, a natural number below
`2 ^ 32`; `toInt32` reads a pattern as a two's complement number. Arithmetic wraps
modulo `2 ^ 32`, and a right shift of an `int` is arithmetic, as the file assumes
(lines 64-68). Shift counts are below 32 wherever the functions are used.
-/

/-- The pattern of `a + b`. -/
def add32 (a b : Nat) : Nat := (a + b) % 2 ^ 32

/-- The pattern of `a - b`. -/
def sub32 (a b : Nat) : Nat := (a + (2 ^ 32 - b % 2 ^ 32)) % 2 ^ 32

/-- The pattern of `-a`. -/
def neg32 (a : Nat) : Nat := (2 ^ 32 - a % 2 ^ 32) % 2 ^ 32

/-- The pattern of `a * b`. -/
def mul32 (a b : Nat) : Nat := (a * b) % 2 ^ 32

/-- The pattern of `~a`. -/
def not32 (a : Nat) : Nat := 2 ^ 32 - 1 - a % 2 ^ 32

/-- The pattern of `a << n`. -/
def shl32 (a n : Nat) : Nat := (a * 2 ^ n) % 2 ^ 32

/-- The pattern of `a >> n` for an `unsigned` `a`: zeros come in from the left. -/
def shr32 (a n : Nat) : Nat := a / 2 ^ n

/-- The pattern of `a >> n` for an `int` `a`: copies of the sign bit come in from the
left. -/
def sar32 (a n : Nat) : Nat :=
  if a < 2 ^ 31 then a / 2 ^ n else a / 2 ^ n + (2 ^ 32 - 2 ^ (32 - n))

/-- The value of `!a`. -/
def lnot (a : Nat) : Nat := if a = 0 then 1 else 0

/-- The two's complement number with the pattern `a`. -/
def toInt32 (a : Nat) : Int := if a < 2 ^ 31 then (a : Int) else (a : Int) - 2 ^ 32

/-- The function `ezThreeFourths` (lines 234-243). -/
def ezThreeFourths (x : Nat) : Nat :=
  let x3 := add32 (shl32 x 1) x
  let bias := 3
  let sign := sar32 x3 31
  let r := add32 (sign &&& sar32 (add32 x3 bias) 2) (not32 sign &&& sar32 x3 2)
  r

/-- The function `bitReverse` (lines 285-313). -/
def bitReverse (x : Nat) : Nat :=
  let tmin := shl32 1 31
  let mask16 := shl32 0xff 8 ||| 0xff
  let mask8 := shl32 mask16 8 ^^^ mask16
  let mask4 := shl32 mask8 4 ^^^ mask8
  let mask2 := shl32 mask4 2 ^^^ mask4
  let mask1 := shl32 mask2 1 ^^^ mask2
  let mask1 := not32 mask1
  let mask2 := not32 mask2
  let mask4 := not32 mask4
  let mask8 := not32 mask8
  let mask16 := not32 mask16
  let tmp := (shl32 x 16 &&& mask16) ||| (sar32 (x &&& mask16) 16 &&& not32 mask16)
  let tmp := (shl32 tmp 8 &&& mask8) ||| (sar32 (tmp &&& mask8) 8 &&& not32 (sar32 tmin 7))
  let tmp := (shl32 tmp 4 &&& mask4) ||| (sar32 (tmp &&& mask4) 4 &&& not32 (sar32 tmin 3))
  let tmp := (shl32 tmp 2 &&& mask2) ||| (sar32 (tmp &&& mask2) 2 &&& not32 (sar32 tmin 1))
  let tmp := (shl32 tmp 1 &&& mask1) ||| (sar32 (tmp &&& mask1) 1 &&& not32 tmin)
  tmp

/-- The function `float_f2i` (lines 346-367). The comparisons of `e`, an `int`, are
on the two's complement number. -/
def float_f2i (uf : Nat) : Nat :=
  let nan := 0x80000000
  let s := uf &&& shl32 1 31
  let exp := shr32 uf 23 &&& 0xff
  let frac := uf &&& not32 (shl32 (add32 (shl32 0xff 1) 1) 23)
  let bias := 127
  let e := sub32 exp bias
  if exp = 0xff ∨ toInt32 e ≥ 31 then nan
  else if lnot exp ≠ 0 ∨ toInt32 e < 0 then 0
  else
    let s := sar32 s 31
    let frac := frac ||| shl32 1 23
    let frac := if toInt32 e < 23 then sar32 frac (sub32 23 e) else shl32 frac (sub32 e 23)
    add32 (neg32 frac &&& s) (frac &&& not32 s)

/-- The function `float_twice` (lines 380-396). -/
def float_twice (uf : Nat) : Nat :=
  let s := shl32 (shr32 uf 31) 31
  let exp := shr32 uf 23 &&& 0xff
  let frac := uf &&& not32 (shl32 (add32 (shl32 0xff 1) 1) 23)
  if exp = 255 then uf
  else if lnot exp ≠ 0 then
    let frac := shl32 frac 1
    let exp := sar32 (frac &&& shl32 1 31) 31
    s ||| shl32 exp 23 ||| frac
  else
    if exp ≠ 255 then
      let exp := add32 exp 1
      let frac := mul32 (lnot (lnot (exp ^^^ 255))) frac
      s ||| shl32 exp 23 ||| frac
    else s ||| shl32 exp 23 ||| frac

/-! ## Definitions used to state and prove the claims -/

/-- The sign bit of a single-precision pattern. -/
def sign_bit (uf : Nat) : Nat := uf / 2 ^ 31 % 2

/-- The exponent field of a single-precision pattern. -/
def exp_field (uf : Nat) : Nat := uf / 2 ^ 23 % 2 ^ 8

/-- The fraction field of a single-precision pattern. -/
def frac_field (uf : Nat) : Nat := uf % 2 ^ 23

/-- The magnitude of a pattern with an exponent field other than 255, times `2 ^ 150`:
`frac * 2` for the exponent field 0 and `(2 ^ 23 + frac) * 2 ^ exp` otherwise. -/
def scaled_magnitude (uf : Nat) : Nat :=
  if exp_field uf = 0 then frac_field uf * 2 else (2 ^ 23 + frac_field uf) * 2 ^ exp_field uf

/-- The magnitude of the number that a pattern with an exponent field other than 255
encodes as an IEEE-754 single: `0.frac * 2 ^ (-126)` for the exponent field 0 and
`1.frac * 2 ^ (exp - 127)` otherwise. -/
def float_magnitude (uf : Nat) : ℚ := (scaled_magnitude uf : ℚ) / ((2 ^ 150 : ℕ) : ℚ)

/-- The number that a pattern with an exponent field other than 255 encodes. -/
def float_real (uf : Nat) : ℚ :=
  if sign_bit uf = 1 then - float_magnitude uf else float_magnitude uf

/-- Rounding toward zero. -/
def trunc (q : ℚ) : Int := if 0 ≤ q then ⌊q⌋ else ⌈q⌉

/-- One step of `bitReverse`: the blocks of `n` bits of `t` are exchanged in pairs, `hi`
being the mask of the upper block of every pair and `lo` the mask that clears the `n`
highest bits. -/
def swap_blocks (t n hi lo : Nat) : Nat :=
  (shl32 t n &&& hi) ||| (sar32 (t &&& hi) n &&& lo)

/-- The magnitude that `float_f2i` computes for an exponent field from 127 to 157: the
significand `1.frac`, as the integer `2 ^ 23 + frac`, shifted right by `150 - exp` or
left by `exp - 150` places. -/
def shifted_significand (uf : Nat) : Nat :=
  if exp_field uf < 150 then (2 ^ 23 + frac_field uf) / 2 ^ (150 - exp_field uf)
  else (2 ^ 23 + frac_field uf) * 2 ^ (exp_field uf - 150)

end DataPlay

namespace LRUcache

/-!
# LRUcache.c : the cache simulator

The simulator keeps, for every set, an array of `E` lines with a valid bit, a tag and
the time of the last access. An array is a list, and an access past its end ends the
call with `none`. The parameters `s`, `E`, `b`, the counters and the time stamps are
natural numbers: `1 << s` is `2 ^ s`, which holds for `s` up to 30, and the time stamp
stays below `2 ^ 31` for a trace of fewer lines. A tag is the value of
`addr >> (s + b)`; the conversion to `long` does not identify two of them. The fields
`address` and `block` of a line are never read and are left out.

The command line of `main` is the list of what the successive calls of `getopt`
deliver, the option letter and `optarg`; `atoi` is the one of `ProxyPlay`. The locals
`para.s`, `para.E` and `para.b` have no value (`none`) until an option assigns one.
-/

/-- The struct `cache_parameter` (lines 16-24). -/
structure cache_parameter where
  s : Nat
  E : Nat
  b : Nat
  hit_count : Nat
  miss_count : Nat
  eviction_count : Nat
deriving DecidableEq, Repr

/-- The struct `cache_line` (lines 27-33). -/
structure cache_line where
  valid : Nat
  tag : Nat
  access_time : Nat
deriving DecidableEq, Repr

/-- The function `init_cache` (lines 54-74): `2 ^ s` sets of `E` lines, all invalid. -/
def init_cache (input_para : cache_parameter) : List (List cache_line) :=
  List.replicate (2 ^ input_para.s)
    (List.replicate input_para.E { valid := 0, tag := 0, access_time := 0 })

/-- The function `get_set` (lines 77-80). -/
def get_set (addr : Nat) (para : cache_parameter) : Nat :=
  (addr >>> para.b) &&& (2 ^ para.s - 1)

/-- The function `get_tag` (lines 83-85). -/
def get_tag (addr : Nat) (para : cache_parameter) : Nat :=
  addr >>> (para.s + para.b)

/-- The first loop of `visit_cache` (lines 112-124), from index `i` on with `n` indices
to go: the set with the access time of the line that has the tag updated, or `none`
inside when no valid line has the tag. -/
def hit_loop (cur_set : List cache_line) (tag_num cnt : Nat) :
    Nat → Nat → Option (Option (List cache_line))
  | 0, _ => some none
  | n + 1, i =>
      match cur_set[i]? with
      | none => none
      | some cur_line =>
          if cur_line.valid = 1 ∧ cur_line.tag = tag_num then
            some (some (cur_set.set i { cur_line with access_time := cnt }))
          else hit_loop cur_set tag_num cnt n (i + 1)

/-- The second loop of `visit_cache` (lines 128-141): the set with the first invalid
line filled, or `none` inside when every line is valid. -/
def fill_loop (cur_set : List cache_line) (tag_num cnt : Nat) :
    Nat → Nat → Option (Option (List cache_line))
  | 0, _ => some none
  | n + 1, i =>
      match cur_set[i]? with
      | none => none
      | some cur_line =>
          if cur_line.valid = 0 then
            some (some (cur_set.set i { valid := 1, tag := tag_num, access_time := cnt }))
          else fill_loop cur_set tag_num cnt n (i + 1)

/-- The loop of `LRU_earliest` (lines 164-169), from index `i` on with `n` indices to
go. -/
def LRU_earliest_loop (cur_set : List cache_line) : Nat → Nat → Nat → Nat → Option Nat
  | 0, _, _, idx => some idx
  | n + 1, i, min_time, idx =>
      match cur_set[i]? with
      | none => none
      | some line =>
          if line.access_time < min_time then
            LRU_earliest_loop cur_set n (i + 1) line.access_time i
          else LRU_earliest_loop cur_set n (i + 1) min_time idx

/-- The function `LRU_earliest` (lines 161-171). -/
def LRU_earliest (para : cache_parameter) (cur_set : List cache_line) : Option Nat :=
  match cur_set[0]? with
  | none => none
  | some line => LRU_earliest_loop cur_set (para.E - 1) 1 line.access_time 0

/-- The function `visit_cache` (lines 107-158): the counters and the cache after the
access, or `none` when an index is out of range. -/
def visit_cache (para : cache_parameter) (cur_cache : List (List cache_line)) (addr cnt : Nat) :
    Option (cache_parameter × List (List cache_line)) :=
  let set_num := get_set addr para
  let tag_num := get_tag addr para
  match cur_cache[set_num]? with
  | none => none
  | some cur_set =>
      match hit_loop cur_set tag_num cnt para.E 0 with
      | none => none
      | some (some new_set) =>
          some ({ para with hit_count := para.hit_count + 1 }, cur_cache.set set_num new_set)
      | some none =>
          let para := { para with miss_count := para.miss_count + 1 }
          match fill_loop cur_set tag_num cnt para.E 0 with
          | none => none
          | some (some new_set) => some (para, cur_cache.set set_num new_set)
          | some none =>
              let para := { para with eviction_count := para.eviction_count + 1 }
              match LRU_earliest para cur_set with
              | none => none
              | some evict_idx =>
                  if evict_idx < cur_set.length then
                    some (para, cur_cache.set set_num
                      (cur_set.set evict_idx
                        { valid := 1, tag := tag_num, access_time := cnt }))
                  else none

/-- A line of the trace file as `fscanf` reads it (line 217): operation, address,
size. -/
structure trace_line where
  opt : Char
  addr : Nat
  size : Int
deriving DecidableEq, Repr

/-- The loop of `main` over the trace (lines 216-230): `L` and `S` visit the address
once, `M` twice, and `cnt` grows by one with every line. -/
def trace_loop : List trace_line → Nat → cache_parameter → List (List cache_line) →
    Option (cache_parameter × List (List cache_line))
  | [], _, para, new_cache => some (para, new_cache)
  | l :: rest, cnt, para, new_cache =>
      if l.opt = 'L' ∨ l.opt = 'S' then
        match visit_cache para new_cache l.addr cnt with
        | none => none
        | some (para, new_cache) => trace_loop rest (cnt + 1) para new_cache
      else if l.opt = 'M' then
        match visit_cache para new_cache l.addr cnt with
        | none => none
        | some (para, new_cache) =>
            match visit_cache para new_cache l.addr cnt with
            | none => none
            | some (para, new_cache) => trace_loop rest (cnt + 1) para new_cache
      else trace_loop rest (cnt + 1) para new_cache

/-- The simulation that `main` runs for the parameters `s`, `E`, `b` and a trace
(lines 175-178 and 208-230): the counters at the end. -/
def simulate (s E b : Nat) (trace : List trace_line) : Option cache_parameter :=
  let para : cache_parameter :=
    { s := s, E := E, b := b, hit_count := 0, miss_count := 0, eviction_count := 0 }
  (trace_loop trace 1 para (init_cache para)).map (fun r => r.1)

/-- The locals of `main` that the options set (lines 174-181): `v`, the parameters
`para.s`, `para.E` and `para.b`, which have no value until one is assigned, and
`trace_file`, which starts as `NULL`. -/
structure options where
  v : Int
  s : Option Int
  E : Option Int
  b : Option Int
  trace_file : Option (List Char)
deriving DecidableEq, Repr

/-- What a call of `getopt` with the option string `"s:E:b:t:v"` delivers: the option
letter `c` (`'?'` for anything else) and the argument `optarg` of the option. -/
structure getopt_result where
  c : Char
  optarg : List Char
deriving DecidableEq, Repr

/-- The statements from the label `case 't'` to the `break` (lines 193-196). -/
def from_case_t (optarg : List Char) (o : options) : options :=
  { o with trace_file := some optarg }

/-- The statements from the label `case 'b'` on (lines 191-196): no `break` follows line
192, so those of `case 't'` are run as well. -/
def from_case_b (optarg : List Char) (o : options) : options :=
  from_case_t optarg { o with b := some (ProxyPlay.atoi optarg) }

/-- The statements from the label `case 'E'` on (lines 189-196). -/
def from_case_E (optarg : List Char) (o : options) : options :=
  from_case_b optarg { o with E := some (ProxyPlay.atoi optarg) }

/-- The statements from the label `case 's'` on (lines 187-196). -/
def from_case_s (optarg : List Char) (o : options) : options :=
  from_case_E optarg { o with s := some (ProxyPlay.atoi optarg) }

/-- The `switch` of lines 183-197. -/
def option_switch (c : Char) (optarg : List Char) (o : options) : options :=
  if c = 'v' then { o with v := 1 }
  else if c = 's' then from_case_s optarg o
  else if c = 'E' then from_case_E optarg o
  else if c = 'b' then from_case_b optarg o
  else if c = 't' then from_case_t optarg o
  else o

/-- The loop of lines 182-198 over what the successive calls of `getopt` deliver, up to
the call that returns -1. -/
def option_loop : List getopt_result → options → options
  | [], o => o
  | r :: rest, o => option_loop rest (option_switch r.c r.optarg o)

/-- The locals of `main` after the option loop, for a command line (lines 174-198). -/
def parse_options (args : List getopt_result) : options :=
  option_loop args { v := 0, s := none, E := none, b := none, trace_file := none }

/-- The test of line 199, which makes `main` print `err input`; `none` when it reads a
parameter that has no value. -/
def err_input (o : options) : Option Bool :=
  match o.s, o.E, o.b with
  | some s, some E, some b => some (s == 0 || E == 0 || b == 0 || o.trace_file.isNone)
  | _, _, _ => none

/-! ## Definitions used to state and prove the claims -/

/-- The reference cache: for every set the tags it holds, the most recently accessed
first, and the three counts. -/
structure lru_cache where
  tags : Nat → List Nat
  hits : Nat
  misses : Nat
  evictions : Nat

/-- An access of the reference cache with `2 ^ s` sets of at most `E` tags: the set
index is `(addr >> b) mod 2 ^ s` and the tag `addr >> (s + b)`. A tag that is in the set
is a hit. A tag that is not is a miss; in a full set the least recently accessed tag is
evicted. The tag comes to stand first. -/
def lru_access (s E b : Nat) (c : lru_cache) (addr : Nat) : lru_cache :=
  let index := addr / 2 ^ b % 2 ^ s
  let tag := addr / 2 ^ (s + b)
  let set := c.tags index
  if tag ∈ set then
    { c with tags := Function.update c.tags index (tag :: set.erase tag), hits := c.hits + 1 }
  else if set.length < E then
    { c with tags := Function.update c.tags index (tag :: set), misses := c.misses + 1 }
  else
    { c with tags := Function.update c.tags index (tag :: set.dropLast),
             misses := c.misses + 1, evictions := c.evictions + 1 }

/-- The reference cache run over a trace: `L` and `S` access the address once, `M`
twice. -/
def lru_run (s E b : Nat) : List trace_line → lru_cache → lru_cache
  | [], c => c
  | l :: rest, c =>
      if l.opt = 'L' ∨ l.opt = 'S' then lru_run s E b rest (lru_access s E b c l.addr)
      else if l.opt = 'M' then
        lru_run s E b rest (lru_access s E b (lru_access s E b c l.addr) l.addr)
      else lru_run s E b rest c

/-- The counts of the reference cache after a trace, from empty sets. -/
def lru_counts (s E b : Nat) (trace : List trace_line) : Nat × Nat × Nat :=
  let c := lru_run s E b trace { tags := fun _ => [], hits := 0, misses := 0, evictions := 0 }
  (c.hits, c.misses, c.evictions)

/-- The tag of line `i` of a set (0 past the end). -/
def tag_at (lines : List cache_line) (i : Nat) : Nat :=
  match lines[i]? with
  | some l => l.tag
  | none => 0

/-- The access time of line `i` of a set (0 past the end). -/
def time_at (lines : List cache_line) (i : Nat) : Nat :=
  match lines[i]? with
  | some l => l.access_time
  | none => 0

/-- How a set of the simulator stands for a set of the reference cache: `idxs` lists the
indices of the valid lines, the most recently accessed first; their tags are the
tags of the reference set, in that order, and the access times fall along the list. -/
structure set_rel (E : Nat) (lines : List cache_line) (L : List Nat) (idxs : List Nat) :
    Prop where
  len : lines.length = E
  nodup : idxs.Nodup
  valid_iff : ∀ i : Nat, i ∈ idxs ↔ ∃ l : cache_line, lines[i]? = some l ∧ l.valid = 1
  bits : ∀ (i : Nat) (l : cache_line), lines[i]? = some l → l.valid = 0 ∨ l.valid = 1
  tags : L = idxs.map (tag_at lines)
  tags_nodup : L.Nodup
  order : idxs.Pairwise (fun i j => time_at lines j < time_at lines i)

/-- How the simulator stands for the reference cache before the trace line with the
time stamp `cnt`: the counters agree, there are `2 ^ s` sets, and every set stands for
the reference set of its index, with access times below `cnt`. -/
structure cache_rel (s E b cnt : Nat) (para : cache_parameter)
    (cur_cache : List (List cache_line)) (c : lru_cache) : Prop where
  para_s : para.s = s
  para_E : para.E = E
  para_b : para.b = b
  hits : para.hit_count = c.hits
  misses : para.miss_count = c.misses
  evictions : para.eviction_count = c.evictions
  len : cur_cache.length = 2 ^ s
  sets : ∀ (k : Nat) (lines : List cache_line), cur_cache[k]? = some lines →
    ∃ idxs, set_rel E lines (c.tags k) idxs ∧ ∀ i ∈ idxs, time_at lines i < cnt

/-- A set of the simulator right after an access to the tag `u` at the time `cnt`: it
stands for the reference set, the line of `u` is the most recent one and has the time
`cnt`, and no line has a later time. -/
def visited (E : Nat) (lines : List cache_line) (L idxs : List Nat) (u cnt : Nat) : Prop :=
  set_rel E lines L idxs ∧ (∀ i ∈ idxs, time_at lines i ≤ cnt) ∧
    ∃ j rest, idxs = j :: rest ∧ tag_at lines j = u ∧ time_at lines j = cnt

/-- How the simulator stands for the reference cache right after an access to `addr` at
the time `cnt`: as in `cache_rel`, but the set of `addr` is `visited`. -/
structure cache_visited (s E b cnt addr : Nat) (para : cache_parameter)
    (cur_cache : List (List cache_line)) (c : lru_cache) : Prop where
  para_s : para.s = s
  para_E : para.E = E
  para_b : para.b = b
  hits : para.hit_count = c.hits
  misses : para.miss_count = c.misses
  evictions : para.eviction_count = c.evictions
  len : cur_cache.length = 2 ^ s
  sets : ∀ (k : Nat) (lines : List cache_line), cur_cache[k]? = some lines →
    k ≠ addr / 2 ^ b % 2 ^ s →
    ∃ idxs, set_rel E lines (c.tags k) idxs ∧ ∀ i ∈ idxs, time_at lines i < cnt
  set : ∀ lines : List cache_line, cur_cache[addr / 2 ^ b % 2 ^ s]? = some lines →
    ∃ idxs, visited E lines (c.tags (addr / 2 ^ b % 2 ^ s)) idxs (addr / 2 ^ (s + b)) cnt

/-- A trace for two sets of two lines and blocks of two bytes: the third line evicts the
tag of the first, and the last one misses on it. -/
def sample_trace : List trace_line :=
  [{ opt := 'L', addr := 0, size := 1 }, { opt := 'S', addr := 4, size := 1 },
   { opt := 'M', addr := 8, size := 1 }, { opt := 'I', addr := 2, size := 1 },
   { opt := 'L', addr := 2, size := 1 }, { opt := 'L', addr := 4, size := 1 },
   { opt := 'L', addr := 0, size := 1 }]

/-- The command line with the options `-s`, `-E`, `-b` and `-t` in the order `order`,
each with its own argument. -/
def command_line (order : List Char) (s E b t : List Char) : List getopt_result :=
  order.map (fun c =>
    { c := c, optarg := if c = 's' then s else if c = 'E' then E else if c = 'b' then b else t })

/-- The parameters are those given with their own flags. -/
def as_given (s E b t : List Char) (o : options) : Bool :=
  decide (o.s = some (ProxyPlay.atoi s) ∧ o.E = some (ProxyPlay.atoi E) ∧
    o.b = some (ProxyPlay.atoi b) ∧ o.trace_file = some t)

end LRUcache

namespace CacheBlockOpt

/-!
# CacheBlockOpt.c : the matrix transpose

The arrays `A` (`N` rows of `M` entries), `B` (`M` rows of `N` entries) and `tmp` are
lists over a type `α` of values, which the code only copies. Every access is checked
against the bounds of its array, in every dimension, and an access out of bounds ends
the call with `none`; the indices of the accesses to `tmp` are kept in `log`. The locals
`diag`, `set_num` and `idx` of `transpose_submit` are declared without a value: they are
`none` until assigned, and reading one that is `none` ends the call with `none`. The
loop variables are natural numbers, since they start at 0 and only grow; the index
expressions are computed in `Int`, with the truncating `/` and `%` of C. A loop has a
fuel, the number of iterations it may take, and a loop that runs out of it gives `none`.

The functions take the three statements that touch the arrays, `B[j1][i1] = A[i1][j1]`,
`tmp[k] = A[i1][j1]` and `B[r][c] = tmp[k]`, from a record `Ops`; `list_ops` is the
record of these statements on the lists.
-/

/-- The arrays of a call and the indices at which `tmp` was read or written, the
latest first. -/
structure Arrays (α : Type) where
  A : List (List α)
  B : List (List α)
  tmp : List α
  log : List Int

/-- The entry `X[r][c]` of a two-dimensional array. -/
def get2 {α : Type} (X : List (List α)) (r c : Int) : Option α :=
  if 0 ≤ r ∧ 0 ≤ c then
    match X[r.toNat]? with
    | none => none
    | some row => row[c.toNat]?
  else none

/-- The assignment `X[r][c] = v` to a two-dimensional array. -/
def set2 {α : Type} (X : List (List α)) (r c : Int) (v : α) : Option (List (List α)) :=
  if 0 ≤ r ∧ 0 ≤ c then
    match X[r.toNat]? with
    | none => none
    | some row =>
        if c.toNat < row.length then some (X.set r.toNat (row.set c.toNat v)) else none
  else none

/-- The entry `tmp[k]`. -/
def get1 {α : Type} (tmp : List α) (k : Int) : Option α :=
  if 0 ≤ k then tmp[k.toNat]? else none

/-- The assignment `tmp[k] = v`. -/
def set1 {α : Type} (tmp : List α) (k : Int) (v : α) : Option (List α) :=
  if 0 ≤ k ∧ k.toNat < tmp.length then some (tmp.set k.toNat v) else none

/-- The statement `B[j1][i1] = A[i1][j1]` (lines 66, 94, 128, 159). -/
def copy_A_B {α : Type} (i1 j1 : Int) (m : Arrays α) : Option (Arrays α) :=
  match get2 m.A i1 j1 with
  | none => none
  | some v =>
      match set2 m.B j1 i1 v with
      | none => none
      | some B => some { m with B := B }

/-- The statement `tmp[k] = A[i1][j1]` (lines 75, 103, 106, 126, 135, 168, 237). -/
def copy_A_tmp {α : Type} (k i1 j1 : Int) (m : Arrays α) : Option (Arrays α) :=
  match get2 m.A i1 j1 with
  | none => none
  | some v =>
      match set1 m.tmp k v with
      | none => none
      | some tmp => some { m with tmp := tmp, log := k :: m.log }

/-- The statement `B[r][c] = tmp[k]` (lines 79, 111, 116, 140, 145, 172, 238). -/
def copy_tmp_B {α : Type} (r c k : Int) (m : Arrays α) : Option (Arrays α) :=
  match get1 m.tmp k with
  | none => none
  | some v =>
      match set2 m.B r c v with
      | none => none
      | some B => some { m with B := B, log := k :: m.log }

/-- The three statements that touch the arrays, on a memory of type `μ`. -/
structure Ops (μ : Type) where
  copy_A_B : Int → Int → μ → Option μ
  copy_A_tmp : Int → Int → Int → μ → Option μ
  copy_tmp_B : Int → Int → Int → μ → Option μ

/-- The statements on the arrays as lists. -/
def list_ops (α : Type) : Ops (Arrays α) :=
  { copy_A_B := copy_A_B, copy_A_tmp := copy_A_tmp, copy_tmp_B := copy_tmp_B }

/-- The memory and the locals of lines 54-56. -/
structure State (μ : Type) where
  mem : μ
  diag : Option Int
  set_num : Option Int
  idx : Option Int

/-- The state at the entry of `transpose_submit`. -/
def entry {μ : Type} (mem : μ) : State μ :=
  { mem := mem, diag := none, set_num := none, idx := none }

/-- A statement on the memory as a statement on the state. -/
def on_mem {μ : Type} (p : μ → Option μ) (st : State μ) : Option (State μ) :=
  match p st.mem with
  | none => none
  | some mem => some { st with mem := mem }

/-- The loop `for (i = start; cond i; i += step) body`, with at most `fuel`
iterations. -/
def for_loop {σ : Type} (cond : Nat → Bool) (step : Nat) (body : Nat → σ → Option σ) :
    Nat → Nat → σ → Option σ
  | 0, _, _ => none
  | fuel + 1, i, st =>
      if cond i then
        match body i st with
        | none => none
        | some st => for_loop cond step body fuel (i + step) st
      else some st

/-- Line 48: `int s = 5, b = 6`. -/
def s : Int := 5

/-- Line 48. -/
def b : Int := 6

/-- Line 49: `int B_cache = 1 << b`. -/
def B_cache : Int := 2 ^ b.toNat

/-- Line 50: `int S = 1 << s`. -/
def S : Int := 2 ^ s.toNat

/-- Line 51: `int cache_size = B_cache * S`. -/
def cache_size : Int := B_cache * S

/-- Line 52: `int type_size = 8`. -/
def type_size : Int := 8

/-- The value of `set_num` after `matri_pos = i * M * type_size + j * type_size` and
`set_num = (matri_pos % cache_size) / B_cache` (lines 71-72, 97-98, 123-124, 131-132,
164-165). -/
def set_num_of (M i j : Nat) : Int :=
  let matri_pos : Int := i * M * type_size + j * type_size
  Int.tdiv (Int.tmod matri_pos cache_size) B_cache

/-- The statement of lines 65-76 and of lines 158-169. -/
def cell_diag {μ : Type} (ops : Ops μ) (M i j i1 j1 : Nat) (st : State μ) :
    Option (State μ) :=
  if i1 ≠ j1 ∨ i ≠ j then on_mem (ops.copy_A_B i1 j1) st
  else
    let diag : Int := i1
    let set_num : Int := set_num_of M i j
    let idx : Int := (set_num + 1) * type_size + j1 - j
    on_mem (ops.copy_A_tmp idx i1 j1)
      { st with diag := some diag, set_num := some set_num, idx := some idx }

/-- The statement `B[diag][diag] = tmp[idx]` (lines 79, 111, 140, 172). -/
def put_diag {μ : Type} (ops : Ops μ) (st : State μ) : Option (State μ) :=
  match st.diag, st.idx with
  | some diag, some idx => on_mem (ops.copy_tmp_B diag diag idx) st
  | _, _ => none

/-- The branch `M == 32 && N == 32` (lines 59-84). -/
def transpose_32 {μ : Type} (ops : Ops μ) (M N : Nat) (st : State μ) : Option (State μ) :=
  let block_size := 8
  for_loop (fun i => i < N) block_size (fun i =>
    for_loop (fun j => j < M) block_size (fun j =>
      for_loop (fun i1 => i1 < i + block_size) 1 (fun i1 st =>
        match for_loop (fun j1 => j1 < j + block_size) 1 (cell_diag ops M i j i1)
            (block_size + 1) j st with
        | none => none
        | some st => if i = j then put_diag ops st else some st)
        (block_size + 1) i)
      (M + 1) 0)
    (N + 1) 0 st

/-- The statement of lines 93-108, in the upper half of a block. -/
def cell_upper {μ : Type} (ops : Ops μ) (M i j i1 j1 : Nat) (block_size : Int)
    (st : State μ) : Option (State μ) :=
  if i1 ≠ j1 ∧ (j1 : Int) < j + Int.tdiv block_size 2 then on_mem (ops.copy_A_B i1 j1) st
  else
    let set_num : Int := set_num_of M i j
    let st := { st with set_num := some set_num }
    if i1 = j1 then
      let idx : Int := (set_num + 1) * type_size + j1 - j
      on_mem (ops.copy_A_tmp idx i1 j1) { st with idx := some idx, diag := some i1 }
    else
      let idx2 : Int := (set_num + 2 + i1 - i) * type_size
      on_mem (ops.copy_A_tmp (idx2 + j1 - (j + Int.tdiv block_size 2)) i1 j1) st

/-- The statement of lines 110-112 and 139-141. -/
def put_diag_if {μ : Type} (ops : Ops μ) (i j : Nat) (st : State μ) : Option (State μ) :=
  if i = j then
    match st.diag with
    | none => none
    | some diag => if diag ≥ 0 then put_diag ops st else some st
  else some st

/-- The statement of line 116. -/
def unload_upper {μ : Type} (ops : Ops μ) (i j k l : Nat) (block_size : Int)
    (st : State μ) : Option (State μ) :=
  match st.set_num with
  | none => none
  | some set_num =>
      on_mem (ops.copy_tmp_B (j + k + Int.tdiv block_size 2) (i + l)
        ((set_num + 2 + l) * type_size + k)) st

/-- The statement of lines 121-137, in the lower half of a block. -/
def cell_lower {μ : Type} (ops : Ops μ) (M i j i1 j1 : Nat) (block_size : Int)
    (st : State μ) : Option (State μ) :=
  if (j1 : Int) < j + Int.tdiv block_size 2 then
    let set_num : Int := set_num_of M i j
    let idx2 : Int := (set_num + 2 + i1 - i - Int.tdiv block_size 2) * type_size
    on_mem (ops.copy_A_tmp (j1 - j + idx2) i1 j1) { st with set_num := some set_num }
  else
    if j1 ≠ i1 then on_mem (ops.copy_A_B i1 j1) st
    else
      let set_num : Int := set_num_of M i j
      let idx : Int := (set_num + 1) * type_size + j1 - j
      on_mem (ops.copy_A_tmp idx i1 j1)
        { st with set_num := some set_num, diag := some i1, idx := some idx }

/-- The statement of line 145. -/
def unload_lower {μ : Type} (ops : Ops μ) (i j k l : Nat) (block_size : Int)
    (st : State μ) : Option (State μ) :=
  match st.set_num with
  | none => none
  | some set_num =>
      on_mem (ops.copy_tmp_B (k + j) (i + l + Int.tdiv block_size 2)
        ((set_num + 2 + l) * type_size + k)) st

/-- The body of the loop over `j` in the branch `M == 64 && N == 64` (lines 90-147). -/
def block_64 {μ : Type} (ops : Ops μ) (M i j : Nat) (st : State μ) : Option (State μ) :=
  let block_size := 8
  match for_loop (fun i1 => i1 < i + block_size / 2) 1 (fun i1 st =>
      match for_loop (fun j1 => j1 < j + block_size) 1
          (fun j1 => cell_upper ops M i j i1 j1 block_size) (block_size + 1) j st with
      | none => none
      | some st => put_diag_if ops i j st) (block_size + 1) i st with
  | none => none
  | some st =>
  match for_loop (fun k => k < block_size / 2) 1 (fun k =>
      for_loop (fun l => l < block_size / 2) 1
        (fun l => unload_upper ops i j k l block_size) (block_size + 1) 0)
      (block_size + 1) 0 st with
  | none => none
  | some st =>
  match for_loop (fun i1 => i1 < i + block_size) 1 (fun i1 st =>
      match for_loop (fun j1 => j1 < j + block_size) 1
          (fun j1 => cell_lower ops M i j i1 j1 block_size) (block_size + 1) j st with
      | none => none
      | some st => put_diag_if ops i j st) (block_size + 1) (i + block_size / 2) st with
  | none => none
  | some st =>
  for_loop (fun k => k < block_size / 2) 1 (fun k =>
      for_loop (fun l => l < block_size / 2) 1
        (fun l => unload_lower ops i j k l block_size) (block_size + 1) 0)
      (block_size + 1) 0 st

/-- The branch `M == 64 && N == 64` (lines 86-150). -/
def transpose_64 {μ : Type} (ops : Ops μ) (M N : Nat) (st : State μ) : Option (State μ) :=
  let block_size := 8
  for_loop (fun i => i < N) block_size (fun i =>
    for_loop (fun j => j < M) block_size (block_64 ops M i) (M + 1) 0)
    (N + 1) 0 { st with diag := some (-1) }

/-- The branch `M == 63 && N == 65` (lines 152-177). -/
def transpose_63_65 {μ : Type} (ops : Ops μ) (M N : Nat) (st : State μ) :
    Option (State μ) :=
  let block_size := 4
  for_loop (fun i => i < N) block_size (fun i =>
    for_loop (fun j => j < M) block_size (fun j =>
      for_loop (fun i1 => i1 < i + block_size && i1 < N) 1 (fun i1 st =>
        match for_loop (fun j1 => j1 < j + block_size && j1 < M) 1 (cell_diag ops M i j i1)
            (block_size + 1) j st with
        | none => none
        | some st => if i = j then put_diag ops st else some st)
        (block_size + 1) i)
      (M + 1) 0)
    (N + 1) 0 st

/-- The function `trans_tmp` (lines 226-243). -/
def trans_tmp {μ : Type} (ops : Ops μ) (M N : Nat) (mem : μ) : Option μ :=
  for_loop (fun i => i < N) 1 (fun i =>
    for_loop (fun j => j < M) 1 (fun j mem =>
      let di : Int := (i % 2 : Nat)
      let dj : Int := (j % 2 : Nat)
      match ops.copy_A_tmp (2 * di + dj) i j mem with
      | none => none
      | some mem => ops.copy_tmp_B j i (2 * di + dj) mem)
      (M + 1) 0)
    (N + 1) 0 mem

/-- The function `transpose_submit` (lines 41-181): the memory at the return. -/
def transpose_submit {μ : Type} (ops : Ops μ) (M N : Nat) (mem : μ) : Option μ :=
  if M = 32 ∧ N = 32 then (transpose_32 ops M N (entry mem)).map (fun st => st.mem)
  else if M = 64 ∧ N = 64 then (transpose_64 ops M N (entry mem)).map (fun st => st.mem)
  else if M = 63 ∧ N = 65 then (transpose_63_65 ops M N (entry mem)).map (fun st => st.mem)
  else trans_tmp ops M N mem

/-- The function `is_transpose` (lines 268-280); `ne` is the comparison `!=` of the
values. The state of the loops is the value returned so far, if any. -/
def is_transpose {α : Type} (ne : α → α → Bool) (M N : Nat) (A B : List (List α)) :
    Option Bool :=
  (for_loop (fun i => i < N) 1 (fun i (r : Option Bool) =>
    for_loop (fun j => j < M) 1 (fun j (r : Option Bool) =>
      match r with
      | some v => some (some v)
      | none =>
          match get2 A i j, get2 B j i with
          | some x, some y => if ne x y then some (some false) else some none
          | _, _ => none)
      (M + 1) 0 r)
    (N + 1) 0 none).map (fun r => r.getD true)

/-! ## Definitions used to state and prove the claims -/

/-- The entry `X[r][c]` for natural indices. -/
def at2 {α : Type} (X : List (List α)) (r c : Nat) : Option α :=
  match X[r]? with
  | none => none
  | some row => row[c]?

/-- The array `X` has `n` rows of `m` entries. -/
def dims {α : Type} (X : List (List α)) (n m : Nat) : Prop :=
  X.length = n ∧ ∀ row ∈ X, row.length = m

/-- The `n` by `m` array whose entry at `(r, c)` is `f r c`. -/
def table {α : Type} (n m : Nat) (f : Nat → Nat → α) : List (List α) :=
  (List.range n).map (fun r => (List.range m).map (fun c => f r c))

/-- The base of the numbers that stand for arrays. -/
def K : Nat := 65536

/-- The entry `k` of the array that the number `mem` stands for. -/
def digit (mem k : Nat) : Nat := mem / K ^ k % K

/-- The number that stands for the array `mem` with `v` at `k`. -/
def put (mem k v : Nat) : Nat := mem % K ^ k + K ^ k * (v + K * (mem / K ^ (k + 1)))

/-- The number that stands for the array of `n` entries with `f k` at `k`. -/
def enc (f : Nat → Nat) : Nat → Nat
  | 0 => 0
  | n + 1 => enc f n + K ^ n * f n

/-- The arrays `B` and `tmp` as numbers whose entries are names of the values at the
entry of the call: entry `j * N + i` of `B` stands for `B[j][i]`. -/
structure Enc where
  B : Nat
  tmp : Nat
  log : List Int
deriving DecidableEq

/-- The statements on the arrays as numbers; the array `A`, which is only read, is the
number `A`, with `A[i][j]` at `i * M + j`. -/
def enc_ops (M N A : Nat) : Ops Enc :=
  { copy_A_B := fun i1 j1 e =>
      if 0 ≤ i1 ∧ 0 ≤ j1 ∧ i1.toNat < N ∧ j1.toNat < M then
        some { e with B := put e.B (j1.toNat * N + i1.toNat)
                            (digit A (i1.toNat * M + j1.toNat)) }
      else none,
    copy_A_tmp := fun k i1 j1 e =>
      if 0 ≤ i1 ∧ 0 ≤ j1 ∧ i1.toNat < N ∧ j1.toNat < M ∧ 0 ≤ k ∧ k.toNat < 256 then
        some { e with tmp := put e.tmp k.toNat (digit A (i1.toNat * M + j1.toNat)),
                      log := k :: e.log }
      else none,
    copy_tmp_B := fun r c k e =>
      if 0 ≤ k ∧ k.toNat < 256 ∧ 0 ≤ r ∧ 0 ≤ c ∧ r.toNat < M ∧ c.toNat < N then
        some { e with B := put e.B (r.toNat * N + c.toNat) (digit e.tmp k.toNat),
                      log := k :: e.log }
      else none }

/-- The array `A` with every value replaced by its name: `A[i][j]` has the name
`i * M + j`. -/
def named_A (M N : Nat) : Nat := enc (fun k => k) (N * M)

/-- The arrays `B` and `tmp` at the entry with every value replaced by its name:
`B[j][i]` has the name `N * M + j * N + i` and `tmp[k]` the name `2 * (N * M) + k`. -/
def named (M N : Nat) : Enc :=
  { B := enc (fun k => N * M + k) (M * N), tmp := enc (fun k => 2 * (N * M) + k) 256,
    log := [] }

/-- What the run on names has to give: it ends, `B[j][i]` holds the name of `A[i][j]`,
and every index of an access to `tmp` is in `0..255`. -/
def named_ok (M N : Nat) (r : Option (State Enc)) : Bool :=
  match r with
  | none => false
  | some st =>
      decide (st.mem.B = enc (fun k => k % N * M + k / N) (M * N)) &&
        st.mem.log.all (fun k => decide (0 ≤ k ∧ k < 256))

/-- A run of `p` that ends is followed by a run of `q` that ends, from related states to
related states. -/
def Sim {σ τ : Type} (R : σ → τ → Prop) (p : σ → Option σ) (q : τ → Option τ) : Prop :=
  ∀ e a e2, R e a → p e = some e2 → ∃ a2, q a = some a2 ∧ R e2 a2

/-- The statements of `o2` follow those of `o1`. -/
structure OpsSim {μ ν : Type} (R : μ → ν → Prop) (o1 : Ops μ) (o2 : Ops ν) : Prop where
  a_b : ∀ i1 j1, Sim R (o1.copy_A_B i1 j1) (o2.copy_A_B i1 j1)
  a_tmp : ∀ k i1 j1, Sim R (o1.copy_A_tmp k i1 j1) (o2.copy_A_tmp k i1 j1)
  tmp_b : ∀ r c k, Sim R (o1.copy_tmp_B r c k) (o2.copy_tmp_B r c k)

/-- Related memories and the same locals. -/
def StRel {μ ν : Type} (R : μ → ν → Prop) (s : State μ) (t : State ν) : Prop :=
  R s.mem t.mem ∧ s.diag = t.diag ∧ s.set_num = t.set_num ∧ s.idx = t.idx

/-- How the numbers stand for the arrays: every entry of the arrays is the value `f c`
of the name `c` at its place in the numbers. -/
def Stands {α : Type} (f : Nat → α) (M N A : Nat) (e : Enc) (a : Arrays α) : Prop :=
  a.A = table N M (fun i j => f (digit A (i * M + j))) ∧
  a.B = table M N (fun j i => f (digit e.B (j * N + i))) ∧
  a.tmp = (List.range 256).map (fun k => f (digit e.tmp k)) ∧
  a.log = e.log

/-- The value that a name stands for, for given arrays at the entry. -/
def value_of {α : Type} (M N : Nat) (A B : List (List α)) (tmp : List α) (d : α)
    (c : Nat) : α :=
  if c < N * M then (at2 A (c / M) (c % M)).getD d
  else if c < 2 * (N * M) then (at2 B ((c - N * M) / N) ((c - N * M) % N)).getD d
  else (tmp[c - 2 * (N * M)]?).getD d

/-- The memory `m` holds `A` as it was and in `B` the transpose of `A`: `B[j][i]` is
`A[i][j]` for `i < N` and `j < M`, and `is_transpose` returns true for every comparison
`ne` that finds no value of `A` different from itself. -/
def transposed {α : Type} (M N : Nat) (A : List (List α)) (m : Arrays α) : Prop :=
  m.A = A ∧
  (∀ i j : Nat, i < N → j < M → ∃ v, get2 A i j = some v ∧ get2 m.B j i = some v) ∧
  ∀ ne : α → α → Bool, (∀ row ∈ A, ∀ v ∈ row, ne v v = false) →
    is_transpose ne M N m.A m.B = some true

/-- A 3 by 2 array. -/
def sample_A : List (List Nat) := [[1, 2], [3, 4], [5, 6]]

/-- The memory of a call for `sample_A`. -/
def sample_mem : Arrays Nat :=
  { A := sample_A, B := [[0, 0, 0], [0, 0, 0]], tmp := List.replicate 256 0, log := [] }

/-- What holds in `trans_tmp` before the entry `A[i][j]` is copied. -/
def tmp_inv {α : Type} (M N : Nat) (A : List (List α)) (i j : Nat) (m : Arrays α) : Prop :=
  m.A = A ∧ dims m.B M N ∧ m.tmp.length = 256 ∧ (∀ k ∈ m.log, 0 ≤ k ∧ k < 4) ∧
    ∀ i2 j2, i2 < N → j2 < M → (i2 < i ∨ (i2 = i ∧ j2 < j)) → at2 m.B j2 i2 = at2 A i2 j2

end CacheBlockOpt

namespace ProxyPlay

/-! ## Fuel -/

/-- Sequencing in `Prog` is `Prog.bind`. -/
theorem bind_apply {α β : Type} (m : Prog α) (f : α → Prog β) (s : ProxyState) :
    (m >>= f) s = Prog.bind m f s := rfl

/-- More fuel does not change a lookup that did not run out of fuel. -/
theorem find_block_loop_succ (url : String) (fuel : Nat) :
    ∀ (p : Option Nat) (s : ProxyState),
      (find_block_loop url fuel p s).1 ≠ Outcome.nofuel →
      find_block_loop url (fuel + 1) p s = find_block_loop url fuel p s := by
  induction fuel with
  | zero =>
      intro p s h
      cases p with
      | none => rfl
      | some p => exact absurd rfl h
  | succ n ih =>
      intro p s h
      cases p with
      | none => rfl
      | some p =>
          rw [find_block_loop] at h ⊢
          rw [find_block_loop]
          simp only [bind_apply, Prog.bind] at h ⊢
          split <;> try rfl
          rename_i a s1 heq
          rw [heq] at h
          simp only at h
          split <;> try rfl
          rename_i b s2 heq2
          rw [heq2] at h
          simp only at h
          split
          · rfl
          · rename_i hne
            rw [if_neg hne] at h
            simp only [bind_apply, Prog.bind] at h ⊢
            split <;> try rfl
            rename_i a3 s3 heq3
            rw [heq3] at h
            simp only at h
            split <;> try rfl
            rename_i b4 s4 heq4
            rw [heq4] at h
            simp only at h
            exact ih _ _ h

/-- A lookup that did not run out of fuel gives the same result with any larger fuel. -/
theorem find_block_loop_mono (url : String) (fuel extra : Nat) (p : Option Nat)
    (s : ProxyState) (h : (find_block_loop url fuel p s).1 ≠ Outcome.nofuel) :
    find_block_loop url (fuel + extra) p s = find_block_loop url fuel p s := by
  induction extra with
  | zero => rfl
  | succ k ih =>
      have h1 : (find_block_loop url (fuel + k) p s).1 ≠ Outcome.nofuel := by rw [ih]; exact h
      rw [← Nat.add_assoc, find_block_loop_succ url (fuel + k) p s h1, ih]

/-- The function `find_block` is its loop started at `share_cache.head`. -/
theorem find_block_eq (fuel : Nat) (url : String) (s : ProxyState) :
    find_block fuel url s = find_block_loop url fuel s.share_cache.head s := rfl

/-- A lookup that waits, given some fuel, does not return whatever the fuel. -/
theorem find_block_never_returns (url : String) (s : ProxyState) (fuel0 : Nat)
    (h : (find_block fuel0 url s).1 = Outcome.blocked) (fuel : Nat) (r : Option Nat) :
    (find_block fuel url s).1 ≠ Outcome.ret r := by
  intro hret
  rw [find_block_eq] at h hret
  rcases Nat.le_total fuel fuel0 with hle | hle
  · obtain ⟨k, rfl⟩ := Nat.exists_eq_add_of_le hle
    have hne : (find_block_loop url fuel s.share_cache.head s).1 ≠ Outcome.nofuel := by
      rw [hret]; exact fun hc => Outcome.noConfusion hc
    rw [find_block_loop_mono url fuel k _ s hne, hret] at h
    exact Outcome.noConfusion h
  · obtain ⟨k, rfl⟩ := Nat.exists_eq_add_of_le hle
    have hne : (find_block_loop url fuel0 s.share_cache.head s).1 ≠ Outcome.nofuel := by
      rw [h]; exact fun hc => Outcome.noConfusion hc
    rw [find_block_loop_mono url fuel0 k _ s hne, h] at hret
    exact Outcome.noConfusion hret

/-! ## Blocks, locks and the empty cache -/

/-- Reading a block that is there. -/
theorem load_some {s : ProxyState} {p : Nat} {b : cache_block} (h : s.heap[p]? = some b) :
    load p s = (Outcome.ret b, s) := by
  simp [load, h]

/-- Updating a block that is there. -/
theorem store_some {s : ProxyState} {p : Nat} {b : cache_block} (f : cache_block → cache_block)
    (h : s.heap[p]? = some b) :
    store p f s = (Outcome.ret (), { s with heap := s.heap.set p (f b) }) := by
  simp [store, h]

/-- The block just written is the one read back. -/
theorem getElem?_set_same {l : List cache_block} {p : Nat} {b : cache_block} (c : cache_block)
    (h : l[p]? = some b) : (l.set p c)[p]? = some c := by
  have hlt : p < l.length := by
    rcases Nat.lt_or_ge p l.length with h1 | h1
    · exact h1
    · rw [List.getElem?_eq_none h1] at h; exact Option.noConfusion h
  simp [List.getElem?_set, hlt]

/-- Writing back the block that is there changes nothing. -/
theorem set_same {l : List cache_block} {p : Nat} {b : cache_block}
    (h : l[p]? = some b) : l.set p b = l := by
  apply List.ext_getElem?
  intro i
  by_cases hi : p = i
  · subst hi
    rw [getElem?_set_same b h, h]
  · simp [List.getElem?_set, hi]

/-- An address that holds a block is below the heap's length. -/
theorem lt_length_of_getElem? {l : List cache_block} {p : Nat} {b : cache_block}
    (h : l[p]? = some b) : p < l.length := by
  rcases Nat.lt_or_ge p l.length with h1 | h1
  · exact h1
  · rw [List.getElem?_eq_none h1] at h; exact Option.noConfusion h

/-- The function `read_lock` on a block nobody holds. -/
theorem read_lock_free {s : ProxyState} {p : Nat} {b : cache_block} (h : s.heap[p]? = some b)
    (hr : b.read_mutex = 1) (hc : b.readcnt = 0) (hw : b.write_mutex = 1) :
    read_lock p s =
      (Outcome.ret (), { s with heap := s.heap.set p { b with readcnt := 1, write_mutex := 0 } }) := by
  have hlt := lt_length_of_getElem? h
  simp [read_lock, P_read_mutex, P_write_mutex, V_read_mutex, bind_apply, Prog.bind, load, store,
    h, hr, hc, hw, List.getElem?_set_self hlt, List.set_set, Prog.pure, pure]

/-- The function `read_unlock` by the only reader of a block. -/
theorem read_unlock_last {s : ProxyState} {p : Nat} {b : cache_block} (h : s.heap[p]? = some b)
    (hr : b.read_mutex = 1) (hc : b.readcnt = 1) :
    read_unlock p s =
      (Outcome.ret (),
        { s with heap := s.heap.set p { b with readcnt := 0, write_mutex := b.write_mutex + 1 } }) := by
  have hlt := lt_length_of_getElem? h
  simp [read_unlock, P_read_mutex, V_write_mutex, V_read_mutex, bind_apply, Prog.bind, load, store,
    h, hr, hc, List.getElem?_set_self hlt, List.set_set, Prog.pure, pure]

/-- On the empty cache `cache_evict` returns at once. -/
theorem cache_evict_init (fuel size : Nat) :
    cache_evict fuel size init_cache = (Outcome.ret (), init_cache) := by
  simp [cache_evict, bind_apply, Prog.bind, getState, init_cache, Prog.pure]

/-- Inserting into the empty cache, with memory that holds zero bytes only, gives the
cache with that single entry. -/
theorem save_block_init (cap fuel : Nat) (url : String) (obj : List Nat) (size : Nat) :
    save_block cap (fuel + 1) url obj size init_cache =
      (Outcome.ret (), single_entry url obj size) := by
  unfold save_block
  simp only [bind_apply, Prog.bind, getState]
  split
  · simp only [bind_apply, Prog.bind, cache_evict_init]
    simp [malloc_block, store, getState, init_cache, set_head, set_tail,
      P_cache_write_mutex, V_cache_write_mutex, set_size, single_entry, bind_apply, Prog.bind,
      Prog.pure, pure, print_list, print_list_next, print_list_prev, load, zero_block,
      put_chars]
  · simp [malloc_block, store, getState, init_cache, set_head, set_tail, P_cache_write_mutex,
      V_cache_write_mutex, set_size, single_entry, bind_apply, Prog.bind, Prog.pure, pure,
      print_list, print_list_next, print_list_prev, load, zero_block, put_chars]

/-- On the empty cache `cache_evict` returns at once, whatever the memory holds. -/
theorem cache_evict_init_with (fuel size : Nat) (blocks : List cache_block) :
    cache_evict fuel size (init_cache_with blocks) = (Outcome.ret (), init_cache_with blocks) := by
  simp [cache_evict, bind_apply, Prog.bind, getState, init_cache, init_cache_with, Prog.pure]

/-- The key that `save_block` leaves in the empty cache: the URL followed by what the
memory of the new block held behind it, up to the first NUL. -/
theorem save_block_stored_key (cap fuel : Nat) (url : String) (obj : List Nat) (size : Nat)
    (old : List Char) :
    (save_block cap (fuel + 1) url obj size (init_cache_with [stale_block old])).1 =
      Outcome.ret () ∧
    entries (save_block cap (fuel + 1) url obj size (init_cache_with [stale_block old])).2 =
      [(String.mk (cstr (cstr url.toList ++ old.drop (cstr url.toList).length)),
        some (first_bytes size obj), size)] := by
  unfold save_block
  simp only [bind_apply, Prog.bind, getState]
  split
  · simp only [bind_apply, Prog.bind, cache_evict_init_with]
    simp [malloc_block, store, getState, init_cache, init_cache_with, stale_block, set_head,
      set_tail, P_cache_write_mutex, V_cache_write_mutex, set_size, bind_apply, Prog.bind,
      Prog.pure, pure, print_list, print_list_next, print_list_prev, load, zero_block,
      put_chars, entries]
  · simp [malloc_block, store, getState, init_cache, init_cache_with, stale_block, set_head,
      set_tail, P_cache_write_mutex, V_cache_write_mutex, set_size, bind_apply, Prog.bind,
      Prog.pure, pure, print_list, print_list_next, print_list_prev, load, zero_block,
      put_chars, entries]

/-! ## What the cache operations leave untouched -/

theorem keeps_bind {α β : Type} {R : ProxyState → ProxyState → Prop} (hR : IsPre R)
    {m : Prog α} {f : α → Prog β} (hm : Keeps R m) (hf : ∀ a, Keeps R (f a)) :
    Keeps R (m >>= f) := by
  constructor
  intro s
  have h1 := hm.run s
  rw [bind_apply]
  unfold Prog.bind
  split
  · rename_i a s1 heq
    rw [heq] at h1
    exact hR.trans _ _ _ h1 ((hf a).run s1)
  · rename_i s1 heq; rw [heq] at h1; exact h1
  · rename_i s1 heq; rw [heq] at h1; exact h1
  · rename_i s1 heq; rw [heq] at h1; exact h1

theorem keeps_pure {α : Type} {R : ProxyState → ProxyState → Prop} (hR : IsPre R) (a : α) :
    Keeps R (Prog.pure a) := ⟨fun s => hR.refl s⟩

theorem keeps_pure' {α : Type} {R : ProxyState → ProxyState → Prop} (hR : IsPre R) (a : α) :
    Keeps R (pure a : Prog α) := ⟨fun s => hR.refl s⟩

theorem keeps_block {α : Type} {R : ProxyState → ProxyState → Prop} (hR : IsPre R) :
    Keeps R (block : Prog α) := ⟨fun s => hR.refl s⟩

theorem keeps_fault {α : Type} {R : ProxyState → ProxyState → Prop} (hR : IsPre R) :
    Keeps R (fault : Prog α) := ⟨fun s => hR.refl s⟩

theorem keeps_nofuel {α : Type} {R : ProxyState → ProxyState → Prop} (hR : IsPre R) :
    Keeps R (nofuel : Prog α) := ⟨fun s => hR.refl s⟩

theorem keeps_getState {R : ProxyState → ProxyState → Prop} (hR : IsPre R) :
    Keeps R getState := ⟨fun s => hR.refl s⟩

theorem keeps_load {R : ProxyState → ProxyState → Prop} (hR : IsPre R) (p : Nat) :
    Keeps R (load p) := by
  constructor
  intro s
  unfold load
  split <;> exact hR.refl s

theorem keeps_deref {R : ProxyState → ProxyState → Prop} (hR : IsPre R) (p : Option Nat) :
    Keeps R (deref p) := by
  constructor
  intro s
  unfold deref
  split <;> exact hR.refl s

theorem same_net_pre : IsPre same_net :=
  ⟨fun _ => rfl, fun _ _ _ h1 h2 => h2.trans h1⟩

theorem net_store (p : Nat) (f : cache_block → cache_block) : Keeps same_net (store p f) := by
  constructor
  intro s
  unfold store
  split <;> rfl

theorem net_set_head (p : Option Nat) : Keeps same_net (set_head p) := ⟨fun _ => rfl⟩

theorem net_set_tail (p : Option Nat) : Keeps same_net (set_tail p) := ⟨fun _ => rfl⟩

theorem net_P_write_mutex (p : Nat) : Keeps same_net (P_write_mutex p) := by
  unfold P_write_mutex
  refine keeps_bind same_net_pre (keeps_load same_net_pre p) ?_
  intro b
  split
  · exact keeps_block same_net_pre
  · exact net_store p _

theorem net_P_read_mutex (p : Nat) : Keeps same_net (P_read_mutex p) := by
  unfold P_read_mutex
  refine keeps_bind same_net_pre (keeps_load same_net_pre p) ?_
  intro b
  split
  · exact keeps_block same_net_pre
  · exact net_store p _

theorem net_read_lock (p : Nat) : Keeps same_net (read_lock p) := by
  unfold read_lock
  repeat' first
    | apply keeps_bind same_net_pre
    | intro _
    | exact keeps_pure same_net_pre _
    | exact keeps_pure' same_net_pre _
    | exact keeps_load same_net_pre _
    | exact keeps_block same_net_pre
    | exact net_store _ _
    | exact net_P_read_mutex _
    | exact net_P_write_mutex _
    | exact net_store _ _
    | split

theorem net_read_unlock (p : Nat) : Keeps same_net (read_unlock p) := by
  unfold read_unlock V_write_mutex V_read_mutex
  repeat' first
    | apply keeps_bind same_net_pre
    | intro _
    | exact keeps_pure same_net_pre _
    | exact keeps_pure' same_net_pre _
    | exact keeps_load same_net_pre _
    | exact keeps_block same_net_pre
    | exact net_store _ _
    | exact net_P_read_mutex _
    | exact net_P_write_mutex _
    | split

theorem net_block_update (p : Nat) : Keeps same_net (block_update p) := by
  unfold block_update write_block write_unblock V_write_mutex
  repeat' first
    | apply keeps_bind same_net_pre
    | intro _
    | exact keeps_pure same_net_pre _
    | exact keeps_pure' same_net_pre _
    | exact keeps_load same_net_pre _
    | exact keeps_block same_net_pre
    | exact keeps_getState same_net_pre
    | exact keeps_deref same_net_pre _
    | exact net_store _ _
    | exact net_set_head _
    | exact net_set_tail _
    | exact net_P_write_mutex _
    | split

theorem same_state_pre : IsPre same_state :=
  ⟨fun _ => rfl, fun _ _ _ h1 h2 => h2.trans h1⟩

theorem state_print_list_next (fuel : Nat) :
    ∀ p, Keeps same_state (print_list_next fuel p) := by
  induction fuel with
  | zero =>
      intro p
      cases p with
      | none => exact keeps_pure same_state_pre _
      | some p => exact keeps_nofuel same_state_pre
  | succ n ih =>
      intro p
      cases p with
      | none => exact keeps_pure same_state_pre _
      | some p =>
          rw [print_list_next]
          exact keeps_bind same_state_pre (keeps_load same_state_pre p) (fun b => ih _)

theorem state_print_list_prev (fuel : Nat) :
    ∀ p, Keeps same_state (print_list_prev fuel p) := by
  induction fuel with
  | zero =>
      intro p
      cases p with
      | none => exact keeps_pure same_state_pre _
      | some p => exact keeps_nofuel same_state_pre
  | succ n ih =>
      intro p
      cases p with
      | none => exact keeps_pure same_state_pre _
      | some p =>
          rw [print_list_prev]
          exact keeps_bind same_state_pre (keeps_load same_state_pre p) (fun b => ih _)

/-- The function `print_list` changes nothing. -/
theorem state_print_list (fuel : Nat) : Keeps same_state (print_list fuel) := by
  unfold print_list
  repeat' first
    | exact keeps_getState same_state_pre
    | exact state_print_list_next _ _
    | exact state_print_list_prev _ _
    | apply keeps_bind same_state_pre
    | intro _

/-! ## C strings and `parse_url` -/

theorem cstr_eq_self {s : List Char} (h : ∀ c ∈ s, c ≠ NUL) : cstr s = s := by
  unfold cstr
  rw [List.takeWhile_eq_self_iff]
  intro c hc
  simpa using h c hc

theorem cstr_append_nul {s : List Char} (h : ∀ c ∈ s, c ≠ NUL) (t : List Char) :
    cstr (s ++ NUL :: t) = s := by
  unfold cstr
  induction s with
  | nil => simp [List.takeWhile]
  | cons a s ih =>
      have ha : a ≠ NUL := h a (List.mem_cons_self _ _)
      simp only [List.cons_append, List.takeWhile_cons, ha, ne_eq, not_false_eq_true,
        decide_True, if_true]
      rw [ih (fun c hc => h c (List.mem_cons_of_mem _ hc))]

theorem cstr_put_cstr {s : List Char} (h : ∀ c ∈ s, c ≠ NUL) (buf : List Char) :
    cstr (put_cstr buf s) = s := cstr_append_nul h _

theorem put_chars_put_cstr (buf s : List Char) : put_chars (put_cstr buf s) s = put_cstr buf s := by
  unfold put_chars put_cstr
  rw [List.drop_left]

theorem strstr_char_none {α : Type} [DecidableEq α] (c : α) :
    ∀ l : List α, c ∉ l → strstr l [c] = none := by
  intro l
  induction l with
  | nil => intro _; simp [strstr, List.isPrefixOf]
  | cons a l ih =>
      intro h
      have ha : c ≠ a := fun e => h (e ▸ List.mem_cons_self _ _)
      have hl : c ∉ l := fun e => h (List.mem_cons_of_mem _ e)
      rw [strstr]
      simp [List.isPrefixOf, ha, ih hl]

theorem strstr_char_first {α : Type} [DecidableEq α] (c : α) (r : List α) :
    ∀ h : List α, c ∉ h → strstr (h ++ c :: r) [c] = some h.length := by
  intro h
  induction h with
  | nil => intro _; simp [strstr, List.isPrefixOf]
  | cons a l ih =>
      intro hn
      have ha : c ≠ a := fun e => hn (e ▸ List.mem_cons_self _ _)
      have hl : c ∉ l := fun e => hn (List.mem_cons_of_mem _ e)
      rw [List.cons_append, strstr]
      simp [List.isPrefixOf, ha, ih hl]

theorem strstr_char_some {α : Type} [DecidableEq α] (c : α) :
    ∀ l : List α, c ∈ l → ∃ k, strstr l [c] = some k := by
  intro l
  induction l with
  | nil => intro h; exact absurd h (List.not_mem_nil _)
  | cons a l ih =>
      intro h
      by_cases ha : c = a
      · subst ha
        exact ⟨0, by simp [strstr, List.isPrefixOf]⟩
      · have hl : c ∈ l := by
          rcases List.mem_cons.mp h with e | e
          · exact absurd e ha
          · exact e
        obtain ⟨k, hk⟩ := ih hl
        exact ⟨k + 1, by rw [strstr]; simp [List.isPrefixOf, ha, hk]⟩

theorem strstr_pair_skip {α : Type} [DecidableEq α] (c : α) (p : List α) :
    ∀ h : List α, c ∉ h → strstr p [c, c] = none → strstr (h ++ p) [c, c] = none := by
  intro h
  induction h with
  | nil => intro _ hp; simpa using hp
  | cons a l ih =>
      intro hn hp
      have ha : c ≠ a := fun e => hn (e ▸ List.mem_cons_self _ _)
      have hl : c ∉ l := fun e => hn (List.mem_cons_of_mem _ e)
      rw [List.cons_append, strstr]
      simp [List.isPrefixOf, ha, ih hl hp]

theorem dropWhile_isspace_plain {c : Char} {t : List Char} (hc : isspace c = false) :
    (c :: t).dropWhile isspace = c :: t := by
  simp [List.dropWhile, hc]

theorem span_plain (tok : List Char) (h : ∀ c ∈ tok, isspace c = false) :
    tok.span (fun x => !isspace x) = (tok, []) := by
  rw [List.span_eq_take_drop]
  have h1 : tok.takeWhile (fun x => !isspace x) = tok := by
    rw [List.takeWhile_eq_self_iff]
    intro c hc
    simp [h c hc]
  have h2 : tok.dropWhile (fun x => !isspace x) = [] := by
    rw [List.dropWhile_eq_nil_iff]
    intro c hc
    simp [h c hc]
  rw [h1, h2]

/-- A `%s` conversion on a non-empty string without white space reads all of it. -/
theorem scan_s_token {tok : List Char} (hne : tok ≠ []) (h : ∀ c ∈ tok, isspace c = false) :
    scan_s tok = some (tok, []) := by
  cases tok with
  | nil => exact absurd rfl hne
  | cons c t =>
      unfold scan_s
      rw [dropWhile_isspace_plain (h c (List.mem_cons_self _ _))]
      simp only []
      rw [span_plain (c :: t) h]

theorem digit_char (d : Nat) (hd : d < 10) :
    (Char.ofNat (d + 48)).isDigit = true ∧ (Char.ofNat (d + 48)).toNat - 48 = d ∧
      isspace (Char.ofNat (d + 48)) = false ∧ Char.ofNat (d + 48) ≠ '-' ∧
      Char.ofNat (d + 48) ≠ '+' := by
  interval_cases d <;> decide

theorem dec_ne_nil (n : Nat) : dec n ≠ [] := by
  unfold dec
  split
  · simp
  · rename_i h
    simp [Nat.digits_ne_nil_iff_ne_zero, h]

theorem dec_digits (n : Nat) : ∀ c ∈ dec n, c.isDigit = true ∧ isspace c = false ∧
    c ≠ '-' ∧ c ≠ '+' := by
  intro c hc
  unfold dec at hc
  split at hc
  · simp at hc
    subst hc
    decide
  · simp only [List.mem_map, List.mem_reverse] at hc
    obtain ⟨d, hd, rfl⟩ := hc
    have := digit_char d (Nat.digits_lt_base (by norm_num) hd)
    exact ⟨this.1, this.2.2.1, this.2.2.2.1, this.2.2.2.2⟩

theorem digits_value_dec (n : Nat) : digits_value (dec n) = n := by
  unfold dec digits_value
  split
  · rename_i h
    subst h
    decide
  · rw [List.foldl_map, List.foldl_reverse]
    have key : ∀ L : List Nat, (∀ d ∈ L, d < 10) →
        List.foldr (fun d v => 10 * v + ((Char.ofNat (d + 48)).toNat - 48)) 0 L =
          Nat.ofDigits 10 L := by
      intro L
      induction L with
      | nil => intro _; rfl
      | cons a L ih =>
          intro hL
          rw [List.foldr_cons, ih (fun d hd => hL d (List.mem_cons_of_mem _ hd)),
            (digit_char a (hL a (List.mem_cons_self _ _))).2.1, Nat.ofDigits_cons]
          ring
    rw [key _ (fun d hd => Nat.digits_lt_base (by norm_num) hd), Nat.ofDigits_digits]

theorem takeWhile_digit_stop {p : List Char} (hp : no_digit_first p) :
    p.takeWhile Char.isDigit = [] ∧ p.dropWhile Char.isDigit = p := by
  cases p with
  | nil => exact ⟨rfl, rfl⟩
  | cons c t =>
      have hc := hp c t rfl
      simp [List.takeWhile, List.dropWhile, hc]

/-- A number that fits an `int` is read as it is written. -/
theorem to_int_to_long_small {n : Nat} (h : n < 2 ^ 31) : to_int (to_long (n : Int)) = (n : Int) := by
  unfold to_int to_long
  omega

/-- Reading an integer from a decimal numeral followed by something that is no digit. -/
theorem scan_int_dec (n : Nat) {p : List Char} (hp : no_digit_first p) :
    scan_int (dec n ++ p) = some (to_int (to_long (n : Int)), p) := by
  have hd := dec_digits n
  obtain ⟨c, t, hct⟩ := List.exists_cons_of_ne_nil (dec_ne_nil n)
  have hc := hd c (by rw [hct]; exact List.mem_cons_self _ _)
  have hdrop : (dec n ++ p).dropWhile isspace = dec n ++ p := by
    rw [hct, List.cons_append]
    exact dropWhile_isspace_plain hc.2.1
  have hhead : (dec n ++ p).head? = some c := by rw [hct]; rfl
  have htake : (dec n ++ p).takeWhile Char.isDigit = dec n := by
    rw [List.takeWhile_append_of_pos (fun a ha => (hd a ha).1), (takeWhile_digit_stop hp).1,
      List.append_nil]
  have hdropd : (dec n ++ p).dropWhile Char.isDigit = p := by
    rw [List.dropWhile_append_of_pos (fun a ha => (hd a ha).1), (takeWhile_digit_stop hp).2]
  unfold scan_int
  simp only [hdrop, hhead, Option.some.injEq, hc.2.2.1, hc.2.2.2, or_self, if_false, htake,
    dec_ne_nil n, hdropd, digits_value_dec]

theorem atoi_dec (n : Nat) : atoi (dec n) = to_int (to_long (n : Int)) := by
  have h := scan_int_dec n (p := []) (fun c t h => List.noConfusion h)
  rw [List.append_nil] at h
  unfold atoi
  rw [h]

theorem toList_dslash : "//".toList = ['/', '/'] := rfl

theorem toList_colon : ":".toList = [':'] := rfl

theorem toList_slash : "/".toList = ['/'] := rfl

/-- A URL without scheme and port: host and path are read, the port is the default. -/
theorem parse_url_host_path {h p : List Char} (hh : host_token h) (hp : path_token p)
    (hn pa : List Char) :
    parse_url (h ++ p) hn pa =
      { hostname := put_cstr hn h, path := put_cstr pa p, port := 80 } := by
  obtain ⟨⟨t, rfl⟩, hpc, hps⟩ := hp
  have hnul : ∀ c ∈ h ++ '/' :: t, c ≠ NUL := by
    intro c hc
    rcases List.mem_append.mp hc with h1 | h1
    · exact (hh.2 c h1).2.2.2
    · exact (hpc c h1).2.2
  have h1 : strstr (h ++ '/' :: t) ['/', '/'] = none :=
    strstr_pair_skip '/' _ h (fun hc => (hh.2 _ hc).1 rfl) hps
  have h2 : strstr (h ++ '/' :: t) [':'] = none := by
    apply strstr_char_none
    intro hc
    rcases List.mem_append.mp hc with h1 | h1
    · exact (hh.2 _ h1).2.1 rfl
    · exact (hpc _ h1).1 rfl
  have h3 : strstr (h ++ '/' :: t) ['/'] = some h.length :=
    strstr_char_first '/' t h (fun hc => (hh.2 _ hc).1 rfl)
  have h4 : scan_s ('/' :: t) = some ('/' :: t, []) :=
    scan_s_token (List.cons_ne_nil _ _) (fun c hc => (hpc c hc).2.1)
  have h5 : scan_s h = some (h, []) := scan_s_token hh.1 (fun c hc => (hh.2 c hc).2.2.1)
  unfold parse_url
  simp only [cstr_eq_self hnul, toList_dslash, toList_colon, toList_slash, h1, h2, h3,
    List.drop_left, List.take_left, h4, h5, DEFPORT]

theorem toList_http (x : List Char) :
    "http://".toList ++ x = 'h' :: 't' :: 't' :: 'p' :: ':' :: '/' :: '/' :: x := rfl

theorem strstr_http (x : List Char) : strstr ("http://".toList ++ x) ['/', '/'] = some 5 := by
  rw [toList_http]
  simp [strstr, List.isPrefixOf]

/-- The scheme prefix is skipped: `http://` in front of a string without `//` changes
nothing. -/
theorem parse_url_scheme {x : List Char} (hnul : ∀ c ∈ x, c ≠ NUL)
    (hx : strstr x ['/', '/'] = none) (hn pa : List Char) :
    parse_url ("http://".toList ++ x) hn pa = parse_url x hn pa := by
  have hnul2 : ∀ c ∈ "http://".toList ++ x, c ≠ NUL := by
    intro c hc
    rcases List.mem_append.mp hc with h1 | h1
    · have hall : ∀ a ∈ "http://".toList, a ≠ NUL := by decide
      exact hall c h1
    · exact hnul c h1
  have hdrop : ("http://".toList ++ x).drop (5 + 2) = x := by
    rw [toList_http]; rfl
  unfold parse_url
  simp only [cstr_eq_self hnul, cstr_eq_self hnul2, toList_dslash, strstr_http, hx, hdrop]

theorem host_token_no_nul {h : List Char} (hh : host_token h) : ∀ c ∈ h, c ≠ NUL :=
  fun c hc => (hh.2 c hc).2.2.2

theorem host_token_no_slash {h : List Char} (hh : host_token h) : '/' ∉ h :=
  fun hc => (hh.2 _ hc).1 rfl

theorem host_token_no_colon {h : List Char} (hh : host_token h) : ':' ∉ h :=
  fun hc => (hh.2 _ hc).2.1 rfl

theorem dec_no_slash (n : Nat) : '/' ∉ dec n := by
  intro hc
  have := (dec_digits n _ hc).1
  revert this
  decide

theorem dec_no_nul (n : Nat) : ∀ c ∈ dec n, c ≠ NUL := by
  intro c hc h
  have := (dec_digits n _ hc).1
  rw [h] at this
  revert this
  decide

/-- A URL without scheme, with port and path. -/
theorem parse_url_host_port_path {h p : List Char} (hh : host_token h) (hp : path_token p)
    (n : Nat) (hn pa : List Char) :
    parse_url (h ++ ':' :: (dec n ++ p)) hn pa =
      { hostname := put_cstr hn h, path := put_cstr pa p,
        port := to_int (to_long (n : Int)) } := by
  obtain ⟨⟨t, rfl⟩, hpc, hps⟩ := hp
  have hnul : ∀ c ∈ h ++ ':' :: (dec n ++ '/' :: t), c ≠ NUL := by
    intro c hc
    rcases List.mem_append.mp hc with h1 | h1
    · exact host_token_no_nul hh c h1
    · rcases List.mem_cons.mp h1 with h2 | h2
      · rw [h2]; decide
      · rcases List.mem_append.mp h2 with h3 | h3
        · exact dec_no_nul n c h3
        · exact (hpc c h3).2.2
  have h1 : strstr (h ++ ':' :: (dec n ++ '/' :: t)) ['/', '/'] = none := by
    have := strstr_pair_skip '/' ('/' :: t) (h ++ ':' :: dec n) (by
      intro hc
      rcases List.mem_append.mp hc with h1 | h1
      · exact host_token_no_slash hh h1
      · rcases List.mem_cons.mp h1 with h2 | h2
        · revert h2; decide
        · exact dec_no_slash n h2) hps
    simpa using this
  have h2 : strstr (h ++ ':' :: (dec n ++ '/' :: t)) [':'] = some h.length :=
    strstr_char_first ':' _ h (host_token_no_colon hh)
  have h3 : ∃ k, strstr (h ++ ':' :: (dec n ++ '/' :: t)) ['/'] = some k :=
    strstr_char_some '/' _ (by simp)
  obtain ⟨k, hk⟩ := h3
  have h4 : scan_s ('/' :: t) = some ('/' :: t, []) :=
    scan_s_token (List.cons_ne_nil _ _) (fun c hc => (hpc c hc).2.1)
  have h5 : scan_s h = some (h, []) := scan_s_token hh.1 (fun c hc => (hh.2 c hc).2.2.1)
  have h6 : scan_int (dec n ++ '/' :: t) = some (to_int (to_long (n : Int)), '/' :: t) :=
    scan_int_dec n (fun c t2 e => by
      have : c = '/' := (List.cons.inj e).1.symm
      rw [this]; decide)
  have hdrop : (h ++ ':' :: (dec n ++ '/' :: t)).drop (h.length + 1) = dec n ++ '/' :: t := by
    rw [← List.drop_drop, List.drop_left]; rfl
  unfold parse_url
  simp only [cstr_eq_self hnul, toList_dslash, toList_colon, toList_slash, h1, h2, hk,
    List.take_left, hdrop, h5, h6, h4, put_chars_put_cstr]

/-- A URL that is a host alone: `hostname` is not assigned. -/
theorem parse_url_host_alone {h : List Char} (hh : host_token h) (hn pa : List Char) :
    parse_url h hn pa = { hostname := hn, path := put_cstr pa default_path, port := 80 } := by
  have h1 : strstr h [':'] = none := strstr_char_none ':' h (host_token_no_colon hh)
  have h2 : strstr h ['/'] = none := strstr_char_none '/' h (host_token_no_slash hh)
  have h3 : strstr h ['/', '/'] = none := by
    have := strstr_pair_skip '/' [] h (host_token_no_slash hh) (by decide)
    simpa using this
  unfold parse_url
  simp only [cstr_eq_self (host_token_no_nul hh), toList_dslash, toList_colon, toList_slash,
    h1, h2, h3, DEFPORT]

/-- A URL that is a host and a port, without a path. -/
theorem parse_url_host_port {h : List Char} (hh : host_token h) (n : Nat)
    (hn pa : List Char) :
    parse_url (h ++ ':' :: dec n) hn pa =
      { hostname := put_cstr hn h, path := put_cstr pa default_path,
        port := to_int (to_long (n : Int)) } := by
  have hnul : ∀ c ∈ h ++ ':' :: dec n, c ≠ NUL := by
    intro c hc
    rcases List.mem_append.mp hc with h1 | h1
    · exact host_token_no_nul hh c h1
    · rcases List.mem_cons.mp h1 with h2 | h2
      · rw [h2]; decide
      · exact dec_no_nul n c h2
  have hns : '/' ∉ h ++ ':' :: dec n := by
    intro hc
    rcases List.mem_append.mp hc with h1 | h1
    · exact host_token_no_slash hh h1
    · rcases List.mem_cons.mp h1 with h2 | h2
      · revert h2; decide
      · exact dec_no_slash n h2
  have h1 : strstr (h ++ ':' :: dec n) ['/', '/'] = none := by
    have := strstr_pair_skip '/' [] _ hns (by decide)
    simpa using this
  have h2 : strstr (h ++ ':' :: dec n) [':'] = some h.length :=
    strstr_char_first ':' _ h (host_token_no_colon hh)
  have h3 : strstr (h ++ ':' :: dec n) ['/'] = none := strstr_char_none '/' _ hns
  have h5 : scan_s h = some (h, []) := scan_s_token hh.1 (fun c hc => (hh.2 c hc).2.2.1)
  have hdrop : (h ++ ':' :: dec n).drop (h.length + 1) = dec n := by
    rw [← List.drop_drop, List.drop_left]; rfl
  unfold parse_url
  simp only [cstr_eq_self hnul, toList_dslash, toList_colon, toList_slash, h1, h2, h3,
    List.take_left, hdrop, h5, atoi_dec, put_chars_put_cstr]

theorem path_token_no_nul {p : List Char} (hp : path_token p) : ∀ c ∈ p, c ≠ NUL :=
  fun c hc => (hp.2.1 c hc).2.2

theorem no_nul_append {a b : List Char} (ha : ∀ c ∈ a, c ≠ NUL) (hb : ∀ c ∈ b, c ≠ NUL) :
    ∀ c ∈ a ++ b, c ≠ NUL := by
  intro c hc
  rcases List.mem_append.mp hc with h1 | h1
  · exact ha c h1
  · exact hb c h1

theorem no_dslash_host_path {h p : List Char} (hh : host_token h) (hp : path_token p) :
    strstr (h ++ p) ['/', '/'] = none :=
  strstr_pair_skip '/' p h (host_token_no_slash hh) hp.2.2

theorem no_dslash_host_port_path {h p : List Char} (hh : host_token h) (hp : path_token p)
    (n : Nat) : strstr (h ++ ':' :: (dec n ++ p)) ['/', '/'] = none := by
  have := strstr_pair_skip '/' p (h ++ ':' :: dec n) (by
    intro hc
    rcases List.mem_append.mp hc with h1 | h1
    · exact host_token_no_slash hh h1
    · rcases List.mem_cons.mp h1 with h2 | h2
      · revert h2; decide
      · exact dec_no_slash n h2) hp.2.2
  simpa using this

theorem url_parts_eq {url hn pa : List Char} {r : UrlParts} (h : parse_url url hn pa = r) :
    url_parts url hn pa = (cstr r.hostname, cstr r.path, r.port) := by
  unfold url_parts
  rw [h]

/-! ### The forwarded request header -/

theorem lines_of_line (content rest : List Char) (h : '\n' ∉ content) :
    lines_of (content ++ '\n' :: rest) = (content ++ ['\n']) :: lines_of rest := by
  induction content with
  | nil => simp [lines_of]
  | cons c t ih =>
    have hc : c ≠ '\n' := fun e => h (e ▸ List.mem_cons_self _ _)
    have ht : '\n' ∉ t := fun e => h (List.mem_cons_of_mem _ e)
    simp [lines_of, hc, ih ht]

theorem lines_of_text_line {l : List Char} (hl : text_line l) (rest : List Char) :
    lines_of (l ++ rest) = l :: lines_of rest := by
  obtain ⟨content, rfl, hn, _⟩ := hl
  have h1 : '\n' ∉ content ++ ['\r'] := by
    intro h
    rcases List.mem_append.mp h with h | h
    · exact hn h
    · revert h; decide
  have h2 := lines_of_line (content ++ ['\r']) rest h1
  have e1 : content ++ header_end ++ rest = (content ++ ['\r']) ++ '\n' :: rest := by
    simp [header_end]
  have e2 : content ++ header_end = (content ++ ['\r']) ++ ['\n'] := by
    simp [header_end]
  rw [e1, e2, h2]

theorem lines_of_join (rest : List Char) :
    ∀ G : List (List Char), (∀ l ∈ G, text_line l) →
      lines_of (G.flatten ++ rest) = G ++ lines_of rest := by
  intro G
  induction G with
  | nil => intro _; rfl
  | cons l G ih =>
    intro h
    rw [List.flatten_cons, List.append_assoc,
      lines_of_text_line (h l (List.mem_cons_self _ _)),
      ih (fun x hx => h x (List.mem_cons_of_mem _ hx))]
    rfl

theorem join_text_lines_suffix :
    ∀ G : List (List Char), G ≠ [] → (∀ l ∈ G, text_line l) → header_end <:+ G.flatten := by
  intro G
  induction G with
  | nil => intro h; exact absurd rfl h
  | cons l G ih =>
    intro _ h
    cases G with
    | nil =>
      obtain ⟨content, hl, _, _⟩ := h l (List.mem_cons_self _ _)
      exact ⟨content, by simp [hl]⟩
    | cons l2 G =>
      have := ih (List.cons_ne_nil _ _) (fun x hx => h x (List.mem_cons_of_mem _ hx))
      rw [List.flatten_cons]
      exact this.trans (List.suffix_append _ _)

theorem crlf_line_no_nul {l : List Char} (hl : crlf_line l) : ∀ c ∈ l, c ≠ NUL := by
  obtain ⟨content, rfl, _, hz⟩ := hl
  intro c hc e
  rcases List.mem_append.mp hc with h | h
  · exact hz (e ▸ h)
  · rw [e] at h; revert h; decide

theorem crlf_line_text_line {l : List Char} (hl : crlf_line l) (hne : l ≠ header_end) :
    text_line l := by
  obtain ⟨content, rfl, hn, _⟩ := hl
  refine ⟨content, rfl, hn, ?_⟩
  intro e
  apply hne
  rw [e]
  rfl

theorem crlf_line_ne_nil {l : List Char} (hl : crlf_line l) : l ≠ [] := by
  obtain ⟨content, rfl, _, _⟩ := hl
  simp [header_end]

/-- What the loop of `build_header` leaves in `host` and `remain`, when every line of the
client is a header line: `host` is as before or is a line of text, and `remain` has
gained lines of text. -/
theorem build_header_loop_spec :
    ∀ (rio : List (List Char)) (host remain : List Char), (∀ l ∈ rio, crlf_line l) →
      ((build_header_loop rio host remain).1 = host ∨
        text_line (build_header_loop rio host remain).1) ∧
      ∃ P : List (List Char), (build_header_loop rio host remain).2 = remain ++ P.flatten ∧
        ∀ l ∈ P, text_line l := by
  intro rio
  induction rio with
  | nil => intro host remain _; exact ⟨Or.inl rfl, [], by simp [build_header_loop], by simp⟩
  | cons buf rio ih =>
    intro host remain h
    have hb := h buf (List.mem_cons_self _ _)
    have hr : ∀ l ∈ rio, crlf_line l := fun x hx => h x (List.mem_cons_of_mem _ hx)
    have hc : cstr buf = buf := cstr_eq_self (crlf_line_no_nul hb)
    unfold build_header_loop
    rw [hc, if_neg (crlf_line_ne_nil hb)]
    split
    · exact ⟨Or.inl rfl, [], by simp, by simp⟩
    · rename_i hne
      have ht : text_line buf := crlf_line_text_line hb hne
      split
      · obtain ⟨h1, P, h2, h3⟩ := ih buf remain hr
        refine ⟨Or.inr ?_, P, h2, h3⟩
        rcases h1 with h1 | h1
        · rw [h1]; exact ht
        · exact h1
      · split
        · exact ih host remain hr
        · split
          · exact ih host remain hr
          · split
            · exact ih host remain hr
            · obtain ⟨h1, P, h2, h3⟩ := ih host (remain ++ buf) hr
              refine ⟨h1, buf :: P, ?_, ?_⟩
              · rw [h2, List.flatten_cons, List.append_assoc]
              · intro l hl
                rcases List.mem_cons.mp hl with e | e
                · rw [e]; exact ht
                · exact h3 l e

/-- When the arrays `host` and `remain` hold zero bytes on entry and no line of the
client has a NUL in it, the output of `build_header` is a sequence of lines of text, the
request line first, followed by the line that ends the header block. -/
theorem build_header_lines (hostname path : List Char) (rio : List (List Char))
    (hp : '\n' ∉ path) (hh : '\n' ∉ hostname) (hr : ∀ l ∈ rio, crlf_line l) :
    ∃ G : List (List Char),
      build_header [] [] hostname path rio =
        ((get_str ++ path ++ " HTTP/1.0".toList ++ header_end) :: G).flatten ++ header_end ∧
      ∀ l ∈ (get_str ++ path ++ " HTTP/1.0".toList ++ header_end) :: G, text_line l := by
  obtain ⟨h1, P, h2, h3⟩ := build_header_loop_spec rio [] [] hr
  have hreq : text_line (get_str ++ path ++ " HTTP/1.0".toList ++ header_end) := by
    refine ⟨get_str ++ path ++ " HTTP/1.0".toList, rfl, ?_, by simp [get_str]⟩
    intro h
    rcases List.mem_append.mp h with h | h
    · rcases List.mem_append.mp h with h | h
      · revert h; decide
      · exact hp h
    · revert h; decide
  have hhost : text_line (if (build_header_loop rio [] []).1 = [] then header_host hostname
      else (build_header_loop rio [] []).1) := by
    split
    · refine ⟨"Host: ".toList ++ hostname, rfl, ?_, by simp⟩
      intro h
      rcases List.mem_append.mp h with h | h
      · revert h; decide
      · exact hh h
    · rename_i hne
      rcases h1 with h1 | h1
      · exact absurd h1 hne
      · exact h1
  have hconn : text_line header_connection :=
    ⟨"Connection: close".toList, by decide, by decide, by decide⟩
  have hpconn : text_line header_proxy_connection :=
    ⟨"Proxy-Connection: close".toList, by decide, by decide, by decide⟩
  have hua : text_line header_user_agent :=
    ⟨"User-Agent: Mozilla/5.0 (X11; Linux x86_64; rv:45.0) Gecko/20100101 Firefox/45.0".toList,
      by decide, by decide, by decide⟩
  refine ⟨(if (build_header_loop rio [] []).1 = [] then header_host hostname
      else (build_header_loop rio [] []).1) :: header_connection :: header_proxy_connection ::
      header_user_agent :: P, ?_, ?_⟩
  · unfold build_header
    have hz : cstr [] = [] := rfl
    simp only [hz, h2, List.flatten_cons, List.nil_append, List.append_assoc]
  · intro l hl
    simp only [List.mem_cons] at hl
    rcases hl with e | e | e | e | e | e
    · rw [e]; exact hreq
    · rw [e]; exact hhost
    · rw [e]; exact hconn
    · rw [e]; exact hpconn
    · rw [e]; exact hua
    · exact h3 l e

/-! ## The request line -/

theorem dropWhile_isspace_append (ws rest : List Char) (h : ∀ c ∈ ws, isspace c = true) :
    (ws ++ rest).dropWhile isspace = rest.dropWhile isspace := by
  induction ws with
  | nil => rfl
  | cons c t ih =>
    have hc := h c (List.mem_cons_self _ _)
    simp only [List.cons_append, List.dropWhile_cons, hc, if_true]
    exact ih (fun x hx => h x (List.mem_cons_of_mem _ hx))

theorem span_token (tok rest : List Char) (h : ∀ c ∈ tok, isspace c = false)
    (hr : rest = [] ∨ ∃ c t, rest = c :: t ∧ isspace c = true) :
    (tok ++ rest).span (fun x => !isspace x) = (tok, rest) := by
  rw [List.span_eq_take_drop]
  induction tok with
  | nil =>
    rcases hr with hr | ⟨c, t, hr, hc⟩
    · rw [hr]; rfl
    · rw [hr]; simp [List.takeWhile, List.dropWhile, hc]
  | cons c t ih =>
    have hc := h c (List.mem_cons_self _ _)
    have := ih (fun x hx => h x (List.mem_cons_of_mem _ hx))
    simp only [Prod.mk.injEq] at this
    simp [List.takeWhile, List.dropWhile, hc, this.1, this.2]

/-- A `%s` conversion reads a token that is preceded by white space and followed by
white space or the end of the string. -/
theorem scan_s_reads (ws tok rest : List Char) (hw : ∀ c ∈ ws, isspace c = true)
    (hne : tok ≠ []) (h : ∀ c ∈ tok, isspace c = false)
    (hr : rest = [] ∨ ∃ c t, rest = c :: t ∧ isspace c = true) :
    scan_s (ws ++ (tok ++ rest)) = some (tok, rest) := by
  unfold scan_s
  rw [dropWhile_isspace_append ws _ hw]
  obtain ⟨c, t, rfl⟩ := List.exists_cons_of_ne_nil hne
  have hc := h c (List.mem_cons_self _ _)
  rw [List.cons_append, dropWhile_isspace_plain hc]
  show some ((c :: t ++ rest).span (fun x => !isspace x)) = some (c :: t, rest)
  rw [span_token _ _ h hr]

theorem dropWhile_head_false {p : Char → Bool} :
    ∀ {l : List Char} {c : Char} {t : List Char}, l.dropWhile p = c :: t → p c = false := by
  intro l
  induction l with
  | nil => intro c t h; exact List.noConfusion h
  | cons a l ih =>
    intro c t h
    rw [List.dropWhile_cons] at h
    split at h
    · exact ih h
    · rename_i hp
      injection h with h1 _
      rw [← h1]
      simpa using hp

/-- What a `%s` conversion that succeeds has read. -/
theorem scan_s_inv {input tok rest : List Char} (h : scan_s input = some (tok, rest)) :
    ∃ ws, input = ws ++ (tok ++ rest) ∧ (∀ c ∈ ws, isspace c = true) ∧ tok ≠ [] ∧
      (∀ c ∈ tok, isspace c = false) ∧
      (rest = [] ∨ ∃ c t, rest = c :: t ∧ isspace c = true) := by
  unfold scan_s at h
  split at h
  · exact Option.noConfusion h
  · rename_i c t heq
    have hc : isspace c = false := dropWhile_head_false heq
    rw [List.span_eq_take_drop] at h
    injection h with h
    injection h with h1 h2
    refine ⟨input.takeWhile isspace, ?_, ?_, ?_, ?_, ?_⟩
    · rw [← h1, ← h2, List.takeWhile_append_dropWhile, ← heq, List.takeWhile_append_dropWhile]
    · intro x hx
      exact (List.mem_takeWhile_imp hx)
    · rw [← h1]
      simp [List.takeWhile, hc]
    · intro x hx
      rw [← h1] at hx
      simpa using List.mem_takeWhile_imp hx
    · rw [← h2]
      cases hd : (c :: t).dropWhile (fun x => !isspace x) with
      | nil => exact Or.inl rfl
      | cons a l =>
        refine Or.inr ⟨a, l, rfl, ?_⟩
        simpa using dropWhile_head_false hd

theorem cstr_append {a : List Char} (h : ∀ c ∈ a, c ≠ NUL) (b : List Char) :
    cstr (a ++ b) = a ++ cstr b := by
  unfold cstr
  induction a with
  | nil => rfl
  | cons c t ih =>
    have hc := h c (List.mem_cons_self _ _)
    simp only [List.cons_append, List.takeWhile_cons, hc, decide_True, if_true, ne_eq,
      not_false_eq_true]
    rw [ih (fun x hx => h x (List.mem_cons_of_mem _ hx))]

/-- The string read back from an array into which `s` was written is `s` up to its
first NUL, whatever the array held. -/
theorem cstr_put_any (buf s : List Char) : cstr (put_cstr buf s) = cstr s := by
  have h : ∀ (s rest : List Char), cstr (s ++ NUL :: rest) = cstr s := by
    intro s rest
    unfold cstr
    induction s with
    | nil => simp [List.takeWhile]
    | cons c t ih =>
      simp only [List.cons_append, List.takeWhile_cons]
      split
      · rw [ih]
      · rfl
  unfold put_cstr
  exact h s _

theorem cstr_put_nil (s : List Char) : cstr (put_cstr [] s) = cstr s := cstr_put_any [] s

theorem cstr_no_nul (s : List Char) : ∀ c ∈ cstr s, c ≠ NUL := by
  intro c hc
  unfold cstr at hc
  simpa using List.mem_takeWhile_imp hc

theorem cstr_split (s : List Char) : s = cstr s ++ s.dropWhile (fun c => c ≠ NUL) := by
  unfold cstr
  rw [List.takeWhile_append_dropWhile]

theorem isspace_ne_nul {c : Char} (h : isspace c = true) : c ≠ NUL := by
  intro e
  rw [e] at h
  revert h
  decide

theorem isspace_nul_false : isspace NUL = false := by decide

theorem starts_with_space {w rest : List Char} (hne : w ≠ []) (hw : ∀ c ∈ w, isspace c = true) :
    w ++ rest = [] ∨ ∃ c t, w ++ rest = c :: t ∧ isspace c = true := by
  obtain ⟨c, t, rfl⟩ := List.exists_cons_of_ne_nil hne
  exact Or.inr ⟨c, t ++ rest, rfl, hw c (List.mem_cons_self _ _)⟩

/-- The conversion of line 136 reads the three fields of a request line. -/
theorem scan_request_reads {w0 w1 w2 method url tail : List Char} {x : Char}
    (h0 : ∀ c ∈ w0, isspace c = true) (h1 : ∀ c ∈ w1, isspace c = true)
    (h2 : ∀ c ∈ w2, isspace c = true) (n1 : w1 ≠ []) (n2 : w2 ≠ [])
    (nm : method ≠ []) (nu : url ≠ []) (hm : ∀ c ∈ method, isspace c = false)
    (hu : ∀ c ∈ url, isspace c = false) :
    scan_request (w0 ++ (method ++ (w1 ++ (url ++ (w2 ++ ("HTTP/1.".toList ++ x :: tail)))))) =
      some (method, url, x) := by
  unfold scan_request
  rw [scan_s_reads w0 method _ h0 nm hm (starts_with_space n1 h1)]
  simp only
  rw [scan_s_reads w1 url _ h1 nu hu (starts_with_space n2 h2)]
  simp only
  rw [dropWhile_isspace_append w2 _ h2]
  rfl

/-- What the conversion of line 136 has read when it succeeds on the string of `line`. -/
theorem scan_request_inv {line method url : List Char} {x : Char}
    (h : scan_request (cstr line) = some (method, url, x)) : request_line line method url x := by
  unfold scan_request at h
  split at h
  · exact Option.noConfusion h
  · rename_i request r1 hs1
    split at h
    · exact Option.noConfusion h
    · rename_i url1 r2 hs2
      split at h
      · rename_i hpre
        split at h
        · exact Option.noConfusion h
        · rename_i version tl hdrop
          injection h with h
          injection h with e1 h
          injection h with e2 e3
          subst e1 e2 e3
          obtain ⟨w0, hl0, hw0, nm, hm, hr1⟩ := scan_s_inv hs1
          obtain ⟨w1, hl1, hw1, nu, hu, hr2⟩ := scan_s_inv hs2
          obtain ⟨t, ht⟩ := List.isPrefixOf_iff_prefix.mp hpre
          have hr4 : t = version :: tl := by
            rw [← ht] at hdrop
            exact hdrop
          have hnul := cstr_no_nul line
          have hcl : cstr line = w0 ++ (request ++ (w1 ++ (url1 ++
              (r2.takeWhile isspace ++ ("HTTP/1.".toList ++ version :: tl))))) := by
            rw [hl0, hl1, ← hr4, ht, List.takeWhile_append_dropWhile]
          refine ⟨w0, w1, r2.takeWhile isspace, tl ++ line.dropWhile (fun c => c ≠ NUL),
            ?_, hw0, hw1, ?_, ?_, ?_, nm, nu, ?_, ?_, ?_⟩
          · have := cstr_split line
            rw [hcl] at this
            refine this.trans ?_
            simp only [List.append_assoc, List.cons_append]
          · intro c hc
            exact List.mem_takeWhile_imp hc
          · intro e
            subst e
            obtain ⟨c, t1, hct⟩ := List.exists_cons_of_ne_nil nu
            have hc : isspace c = false := hu c (by rw [hct]; exact List.mem_cons_self _ _)
            rcases hr1 with hr1 | ⟨a, l, hr1, ha⟩
            · rw [hr1, hct] at hl1
              exact List.noConfusion hl1
            · rw [hr1, hct] at hl1
              injection hl1 with hl1 _
              rw [hl1, hc] at ha
              exact Bool.noConfusion ha
          · intro e
            rcases hr2 with hr2 | ⟨a, l, hr2, ha⟩
            · rw [hr2] at ht
              exact List.noConfusion ht
            · rw [hr2] at e
              simp [List.takeWhile, ha] at e
          · intro c hc
            exact ⟨hm c hc, hnul c (by rw [hcl]; simp [hc])⟩
          · intro c hc
            exact ⟨hu c hc, hnul c (by rw [hcl]; simp [hc])⟩
          · exact hnul version (by rw [hcl]; simp)
      · exact Option.noConfusion h

/-- The conversion of line 136 succeeds on a request line with the three fields. -/
theorem scan_request_request_line {line method url : List Char} {x : Char}
    (h : request_line line method url x) : scan_request (cstr line) = some (method, url, x) := by
  obtain ⟨w0, w1, w2, rest, hl, h0, h1, h2, n1, n2, nm, nu, hm, hu, hx⟩ := h
  have hk : ∀ c ∈ "HTTP/1.".toList, c ≠ NUL := by decide
  have hx1 : ∀ c ∈ [x], c ≠ NUL := by
    intro c hc
    rw [List.mem_singleton.mp hc]
    exact hx
  have e : cstr line = w0 ++ (method ++ (w1 ++ (url ++ (w2 ++
      ("HTTP/1.".toList ++ x :: cstr rest))))) := by
    rw [hl, cstr_append (fun c hc => isspace_ne_nul (h0 c hc)),
      cstr_append (fun c hc => (hm c hc).2),
      cstr_append (fun c hc => isspace_ne_nul (h1 c hc)),
      cstr_append (fun c hc => (hu c hc).2),
      cstr_append (fun c hc => isspace_ne_nul (h2 c hc)),
      cstr_append hk]
    have := cstr_append hx1 rest
    rw [List.singleton_append] at this
    rw [this]
    rfl
  rw [e]
  exact scan_request_reads h0 h1 h2 n1 n2 nm nu (fun c hc => (hm c hc).1)
    (fun c hc => (hu c hc).1)

/-- A request line with the three fields is not empty. -/
theorem request_line_ne_nil {line method url : List Char} {x : Char}
    (h : request_line line method url x) : line ≠ [] := by
  obtain ⟨w0, w1, w2, rest, hl, _, _, _, _, _, nm, _⟩ := h
  intro e
  rw [e] at hl
  have h1 := congrArg List.length hl
  simp only [List.length_nil, List.length_append] at h1
  have h2 : 0 < method.length := List.length_pos.mpr nm
  omega

/-- A request that `handle_get` accepts goes on to the cache lookup, whatever the local
variables held. -/
theorem handle_get_request_accepts (cap fuel : Nat) (mem : Locals) (client : List (List Char))
    (origin : List Char → List Char → List Char → Option (List (List Nat)))
    {url : List Char} {x : Char} (h : request_line (client.headD []) "GET".toList url x)
    (hx : x = '0' ∨ x = '1') :
    ∃ o, handle_get_request cap fuel mem client origin =
      handle_get cap fuel (String.mk url) o := by
  have hs := scan_request_request_line h
  unfold handle_get_request
  simp only [if_neg (request_line_ne_nil h), cstr_put_any, hs]
  have hv : ¬ (x ≠ '0' ∧ x ≠ '1') := by
    rcases hx with hx | hx
    · exact fun h => h.1 hx
    · exact fun h => h.2 hx
  rw [if_neg hv, if_neg (not_not.mpr rfl)]
  exact ⟨_, rfl⟩

/-- A first line that `handle_get` does not accept: it returns and the state is as
before. The line is one that has been read; when none is read the array `buf` holds what
it held before. -/
theorem handle_get_request_rejects (cap fuel : Nat) (mem : Locals) (client : List (List Char))
    (origin : List Char → List Char → List Char → Option (List (List Nat)))
    (hline : client.headD [] ≠ [])
    (h : ¬ ∃ url x, request_line (client.headD []) "GET".toList url x ∧ (x = '0' ∨ x = '1'))
    (s : ProxyState) : handle_get_request cap fuel mem client origin s = (Outcome.ret (), s) := by
  unfold handle_get_request
  simp only [if_neg hline, cstr_put_any]
  cases hs : scan_request (cstr (client.headD [])) with
  | none => rfl
  | some r =>
    obtain ⟨request, url, version⟩ := r
    simp only
    by_cases hv : version ≠ '0' ∧ version ≠ '1'
    · rw [if_pos hv]; rfl
    · rw [if_neg hv]
      by_cases hr : request ≠ "GET".toList
      · rw [if_pos hr]; rfl
      · exfalso
        apply h
        have hr1 : request = "GET".toList := not_not.mp hr
        rw [hr1] at hs
        refine ⟨url, version, scan_request_inv hs, ?_⟩
        by_cases h0 : version = '0'
        · exact Or.inl h0
        · by_cases h1 : version = '1'
          · exact Or.inr h1
          · exact absurd ⟨h0, h1⟩ hv

/-! ## The relay loop -/

theorem net_V_write_mutex (p : Nat) : Keeps same_net (V_write_mutex p) := by
  unfold V_write_mutex
  exact net_store p _

theorem net_set_size (n : Nat) : Keeps same_net (set_size n) := ⟨fun _ => rfl⟩

theorem net_P_cache_write_mutex : Keeps same_net P_cache_write_mutex := by
  constructor
  intro s
  unfold P_cache_write_mutex
  split <;> rfl

theorem net_V_cache_write_mutex : Keeps same_net V_cache_write_mutex := ⟨fun _ => rfl⟩

theorem net_malloc_block : Keeps same_net malloc_block := ⟨fun _ => rfl⟩

theorem net_print_list (fuel : Nat) : Keeps same_net (print_list fuel) := by
  constructor
  intro s
  have h : (print_list fuel s).2 = s := (state_print_list fuel).run s
  unfold same_net
  rw [h]

theorem net_cache_evict_loop (size : Nat) (fuel : Nat) :
    ∀ cur evicted, Keeps same_net (cache_evict_loop size fuel cur evicted) := by
  induction fuel with
  | zero =>
      intro cur evicted
      cases cur with
      | none => exact keeps_pure same_net_pre _
      | some p =>
          rw [cache_evict_loop]
          split
          · exact keeps_nofuel same_net_pre
          · exact keeps_pure same_net_pre _
  | succ n ih =>
      intro cur evicted
      cases cur with
      | none => exact keeps_pure same_net_pre _
      | some p =>
          rw [cache_evict_loop]
          unfold write_block write_unblock
          repeat' first
            | exact ih _ _
            | exact keeps_pure same_net_pre _
            | exact keeps_pure' same_net_pre _
            | exact keeps_load same_net_pre _
            | exact net_store _ _
            | exact net_P_write_mutex _
            | exact net_V_write_mutex _
            | apply keeps_bind same_net_pre
            | intro _
            | split

theorem net_cache_evict (fuel size : Nat) : Keeps same_net (cache_evict fuel size) := by
  unfold cache_evict write_block write_unblock
  repeat' first
    | exact net_cache_evict_loop _ _ _ _
    | exact keeps_pure same_net_pre _
    | exact keeps_pure' same_net_pre _
    | exact keeps_getState same_net_pre
    | exact keeps_deref same_net_pre _
    | exact keeps_load same_net_pre _
    | exact net_store _ _
    | exact net_set_tail _
    | exact net_set_size _
    | exact net_P_write_mutex _
    | exact net_V_write_mutex _
    | exact net_P_cache_write_mutex
    | exact net_V_cache_write_mutex
    | apply keeps_bind same_net_pre
    | intro _
    | split

theorem net_save_block (cap fuel : Nat) (url : String) (obj : List Nat) (size : Nat) :
    Keeps same_net (save_block cap fuel url obj size) := by
  unfold save_block
  repeat' first
    | exact net_cache_evict _ _
    | exact net_print_list _
    | exact keeps_pure same_net_pre _
    | exact keeps_pure' same_net_pre _
    | exact keeps_getState same_net_pre
    | exact net_malloc_block
    | exact net_store _ _
    | exact net_set_head _
    | exact net_set_tail _
    | exact net_set_size _
    | exact net_P_cache_write_mutex
    | exact net_V_cache_write_mutex
    | apply keeps_bind same_net_pre
    | intro _
    | split

theorem net_handle_get_save (cap fuel : Nat) (url : String) (obj : List Nat) (size : Nat) :
    Keeps same_net (handle_get_save cap fuel url obj size) := by
  unfold handle_get_save
  split
  · exact net_save_block _ _ _ _ _
  · exact keeps_pure same_net_pre _

theorem relay_loop_sent :
    ∀ (chunks : List (List Nat)) (st : RelayState),
      (relay_loop chunks st).sent =
        st.sent ++ (chunks.takeWhile (fun c => c ≠ [])).flatten := by
  intro chunks
  induction chunks with
  | nil => intro st; simp [relay_loop]
  | cons c chunks ih =>
    intro st
    unfold relay_loop
    by_cases hc : c = []
    · simp [hc]
    · rw [if_neg hc, ih]
      simp [relay_step, hc, List.takeWhile]

/-- On a miss, what `handle_get` does on its sockets: it connects to the origin and
writes to the client what the relay loop has sent. -/
theorem handle_get_miss_net (cap fuel : Nat) (url : String) (r : OriginReply)
    (s s1 : ProxyState) (hmiss : find_block fuel url s = (Outcome.ret none, s1)) :
    (handle_get cap fuel url (some r) s).2.net =
      s1.net ++ [NetEvent.origin_connect url, NetEvent.client_write r.relayed] := by
  have hk : Keeps same_net (
      if MAX_OBJECT_SIZE < r.size then
        fault
      else do
        handle_get_save cap fuel url r.buf_object r.size
        print_list fuel) := by
    split
    · exact keeps_fault same_net_pre
    · exact keeps_bind same_net_pre (net_handle_get_save _ _ _ _ _) (fun _ => net_print_list _)
  have h := hk.run
    { s1 with net := s1.net ++ [NetEvent.origin_connect url] ++ [NetEvent.client_write r.relayed] }
  unfold same_net at h
  unfold handle_get
  simp only [bind_apply, Prog.bind, hmiss, net_event]
  simp only [bind_apply, Prog.bind] at h
  rw [h]
  simp

/-- C1 (size invariant). After the thirteen requests `overfull_requests`, every one of
which returned, `share_cache.size` is 1126389, more than `MAX_CACHE_SIZE`: the hit on
the head B cleared A's `prev_block`, so the eviction for L stopped after the 1-byte A. -/
theorem size_exceeds_MAX_CACHE_SIZE :
    all_returned overfull_requests = true ∧
    (state_after overfull_requests).share_cache.size = 1126389 ∧
    MAX_CACHE_SIZE < (state_after overfull_requests).share_cache.size := by
  decide!

/-- C2 (eviction order). The insert of M evicts exactly L, the entry used last before
it, while B to K, all used earlier, stay stored. -/
theorem most_recent_entry_evicted :
    all_returned mru_evicted_requests = true ∧
    stored_blocks (state_after overfull_requests) = [1, 2, 3, 4, 5, 6, 7, 8, 9, 10, 11] ∧
    stored_blocks (state_after mru_evicted_requests) = [1, 2, 3, 4, 5, 6, 7, 8, 9, 10, 12] ∧
    last_use overfull_requests "B" = some 2 ∧
    last_use overfull_requests "L" = some 12 := by
  decide!

/-- C3 (evicted entry gone). In the eviction scenario of the specification (capacity
100, A, B, C of 40 bytes) the total is 80 and A's body is freed, but A is still linked
behind B with its `write_mutex` left at 0: `find_block` finds B and C and, for A, waits
in `read_lock` whatever the fuel, so it never returns "no match". The same happens with
the real capacity after eleven entries. -/
theorem evicted_entry_still_linked :
    (run_ops 100 100 scenario_40_40_40 init_cache).1 = true ∧
    scenario_state.share_cache.size = 80 ∧
    stored_blocks scenario_state = [1, 2] ∧
    next_walk scenario_state 100 scenario_state.share_cache.head = [2, 1, 0] ∧
    (find_block 100 "B" scenario_state).1 = Outcome.ret (some 1) ∧
    (find_block 100 "C" scenario_state).1 = Outcome.ret (some 2) ∧
    (∀ fuel r, (find_block fuel "A" scenario_state).1 ≠ Outcome.ret r) ∧
    all_returned eleven_requests = true ∧
    is_stored (state_after eleven_requests) 0 = false ∧
    (∀ fuel r, (find_block fuel "U0" (state_after eleven_requests)).1 ≠ Outcome.ret r) := by
  refine ⟨by decide!, by decide!, by decide!, by decide!, by decide!, by decide!, ?_,
    by decide!, by decide!, ?_⟩
  · exact find_block_never_returns "A" scenario_state 100 (by decide!)
  · exact find_block_never_returns "U0" (state_after eleven_requests) 100 (by decide!)

/-- C4 (cache key exactness). The `memcpy` of line 225 copies the `strlen(url)`
characters of the URL and no NUL into a block that `malloc` (line 219) has not cleared:
the key that `save_block` stores in the empty cache is the URL followed by what the
memory held behind it, up to the first NUL. When that memory held
`http://example.org/news/` before, `save_block` of `http://example.com/page` returns and
leaves an entry whose key reads `http://example.com/page/`: `find_block` of that other
URL, of which the saved one is a proper prefix, returns the entry, and a request for it
is sent the body saved for `http://example.com/page`. -/
theorem lookup_of_other_url_hits :
    (∀ (cap fuel : Nat) (url : String) (obj : List Nat) (size : Nat) (old : List Char),
      entries (save_block cap (fuel + 1) url obj size (init_cache_with [stale_block old])).2 =
        [(String.mk (cstr (cstr url.toList ++ old.drop (cstr url.toList).length)),
          some (first_bytes size obj), size)]) ∧
    "http://example.com/page" ≠ "http://example.com/page/" ∧
    (page_saved_on "http://example.org/news/".toList).1 = Outcome.ret () ∧
    entries (page_saved_on "http://example.org/news/".toList).2 =
      [("http://example.com/page/", some [72, 105], 2)] ∧
    (find_block 100 "http://example.com/page/"
      (page_saved_on "http://example.org/news/".toList).2).1 = Outcome.ret (some 0) ∧
    (handle_get MAX_CACHE_SIZE 100 "http://example.com/page/" none
      (page_saved_on "http://example.org/news/".toList).2).2.net =
      [NetEvent.client_write [72, 105]] := by
  refine ⟨fun cap fuel url obj size old => (save_block_stored_key cap fuel url obj size old).2,
    ?_⟩
  decide!

/-- C5 (a hit is served from the store). Same defect as for C4: the key is stored
without a terminating NUL in memory that is not cleared. When the block that `malloc`
returns held the text of an old page, the cache has no entry for
`http://example.com/page`, `save_block` of that URL returns, and the key of the new entry
reads `http://example.com/pagepage</title></head>`: `find_block` of the saved URL
returns no match, and the request for it connects to the origin and relays the
origin's bytes instead of the stored body. With memory that holds zero bytes the same
request is a hit and the client is sent the stored body (the call then waits in
`block_update`, which locks the entry and then, as the tail, locks it again). After the
eleven requests `eleven_requests`, the eleventh block holding old bytes behind the key,
every request has returned, the key of U10 reads `U10d` followed by the two old
characters, and `find_block` of U10 does not return whatever the fuel: it passes the
entry of U10 and waits at the evicted entry of U0. -/
theorem saved_url_is_not_found :
    (find_block 100 "http://example.com/page"
      (init_cache_with [stale_block "<html><head><title>Old page</title></head>".toList])).1 =
      Outcome.ret none ∧
    (page_saved_on "<html><head><title>Old page</title></head>".toList).1 = Outcome.ret () ∧
    entries (page_saved_on "<html><head><title>Old page</title></head>".toList).2 =
      [("http://example.com/pagepage</title></head>", some [72, 105], 2)] ∧
    (find_block 100 "http://example.com/page"
      (page_saved_on "<html><head><title>Old page</title></head>".toList).2).1 =
      Outcome.ret none ∧
    (handle_get MAX_CACHE_SIZE 100 "http://example.com/page" (reply 2)
      (page_saved_on "<html><head><title>Old page</title></head>".toList).2).2.net =
      [NetEvent.origin_connect "http://example.com/page", NetEvent.client_write [0, 0]] ∧
    (find_block 100 "http://example.com/page" (page_saved_on []).2).1 =
      Outcome.ret (some 0) ∧
    (handle_get MAX_CACHE_SIZE 100 "http://example.com/page" (reply 2)
      (page_saved_on []).2).2.net = [NetEvent.client_write [72, 105]] ∧
    (handle_get MAX_CACHE_SIZE 100 "http://example.com/page" (reply 2)
      (page_saved_on []).2).1 = Outcome.blocked ∧
    eleven_on_stale.1 = true ∧
    (entries eleven_on_stale.2).map Prod.fst =
      ["U0", "U1", "U2", "U3", "U4", "U5", "U6", "U7", "U8", "U9", "U10d\x7b\x7f"] ∧
    stored_blocks eleven_on_stale.2 = [1, 2, 3, 4, 5, 6, 7, 8, 9, 10] ∧
    (∀ fuel r, (find_block fuel "U10" eleven_on_stale.2).1 ≠ Outcome.ret r) := by
  refine ⟨by decide!, by decide!, by decide!, by decide!, by decide!, by decide!, by decide!,
    by decide!, by decide!, by decide!, by decide!, ?_⟩
  exact find_block_never_returns "U10" eleven_on_stale.2 100 (by decide!)

/-- C6 (insert rejects bad sizes). The insert step of `handle_get`, the only caller of
`save_block`, leaves the whole state as it is when the size is 0 or above
`MAX_OBJECT_SIZE`: the total size, the number of entries and the result of every later
`find_block` are those of before. -/
theorem insert_rejects_bad_size (cap fuel fuel2 : Nat) (s : ProxyState) (url : String)
    (obj : List Nat) (size : Nat) (hbad : size = 0 ∨ MAX_OBJECT_SIZE < size) :
    handle_get_save cap fuel url obj size s = (Outcome.ret (), s) ∧
    (handle_get_save cap fuel url obj size s).2.share_cache.size = s.share_cache.size ∧
    (handle_get_save cap fuel url obj size s).2.heap.length = s.heap.length ∧
    find_block fuel2 url (handle_get_save cap fuel url obj size s).2 = find_block fuel2 url s := by
  have h : handle_get_save cap fuel url obj size s = (Outcome.ret (), s) := by
    unfold handle_get_save
    rw [if_neg]
    · rfl
    · rintro ⟨h1, h2⟩
      rcases hbad with h0 | h0
      · omega
      · omega
  rw [h]
  exact ⟨rfl, rfl, rfl, rfl⟩

/-- C6 at a concrete input: a body of `MAX_OBJECT_SIZE + 1` bytes offered to a cache
that holds one entry. -/
theorem insert_rejects_bad_size_witness :
    (102401 = 0 ∨ MAX_OBJECT_SIZE < 102401) ∧
    handle_get_save MAX_CACHE_SIZE 100 "http://a/" (List.replicate 102401 0) 102401
        (single_entry "http://b/" [1, 2, 3] 3) =
      (Outcome.ret (), single_entry "http://b/" [1, 2, 3] 3) :=
  ⟨Or.inr (by decide),
   (insert_rejects_bad_size MAX_CACHE_SIZE 100 100 (single_entry "http://b/" [1, 2, 3] 3)
      "http://a/" (List.replicate 102401 0) 102401 (Or.inr (by decide))).1⟩

/-- C8 (recency list well-formed). After two inserts and a hit on the head B, following
`next_block` from the head visits B and A, but following `prev_block` from `tail`
visits A only: the hit set A's `prev_block` to `NULL`. -/
theorem prev_chain_broken_by_head_hit :
    all_returned head_hit_requests = true ∧
    stored_blocks (state_after head_hit_requests) = [0, 1] ∧
    next_walk (state_after head_hit_requests) 100
      (state_after head_hit_requests).share_cache.head = [1, 0] ∧
    prev_walk (state_after head_hit_requests) 100 (state_after head_hit_requests).tail = [0] := by
  decide!

/-- C9 (lookup terminates). After three inserts, a hit on C and a hit on B, all of which
returned, the `next_block` chain from the head is the cycle B, C, B, C, ... which A is
not on, and `find_block` for the stored URL A does not return, whatever the fuel. -/
theorem lookup_never_returns_on_cycle :
    all_returned cycle_requests = true ∧
    stored_blocks (state_after cycle_requests) = [0, 1, 2] ∧
    (state_after cycle_requests).share_cache.head = some 1 ∧
    next_of (state_after cycle_requests) 1 = some 2 ∧
    next_of (state_after cycle_requests) 2 = some 1 ∧
    (∀ fuel r, (find_block fuel "A" (state_after cycle_requests)).1 ≠ Outcome.ret r) := by
  refine ⟨by decide!, by decide!, by decide!, by decide!, by decide!, ?_⟩
  exact find_block_never_returns "A" (state_after cycle_requests) 100 (by decide!)

/-- C10 (size accounting). After `recount_ops`, every one of which returned (the lookup
of U13 missed before the request for U0), `share_cache.size` is 1023991 while the
stored entries hold 1126390 bytes: the hit on the evicted U0 moved `tail` to the
evicted U1, whose size the next eviction subtracted a second time. -/
theorem size_differs_from_stored_sum :
    all_returned recount_ops = true ∧
    (find_block 100 "U13" (state_after recount_prefix)).1 = Outcome.ret none ∧
    stored_blocks (state_after recount_prefix) = [2, 3, 4, 5, 6, 7, 8, 9, 10, 11, 12] ∧
    (state_after recount_ops).share_cache.size = 1023991 ∧
    stored_size (state_after recount_ops) = 1126390 := by
  decide!

/-- C11 (a URL that has a path). For every host `h` and path `p` of the stated kind and
every port number `n`, written in decimal, `parse_url` yields host `h`, path `p` and
port 80 on `http://` + `h` + `p` and on `h` + `p`, and host `h`, path `p` and port `n`
on `http://` + `h` + `:` + `n` + `p` and on `h` + `:` + `n` + `p`, whatever the arrays
`hostname` and `path` held before. -/
theorem parse_url_with_path (h p : List Char) (n : Nat) (hostname path : List Char)
    (hh : host_token h) (hp : path_token p) (hn : n ≤ 65535) :
    url_parts ("http://".toList ++ (h ++ p)) hostname path = (h, p, 80) ∧
    url_parts (h ++ p) hostname path = (h, p, 80) ∧
    url_parts ("http://".toList ++ (h ++ ':' :: (dec n ++ p))) hostname path = (h, p, (n : Int)) ∧
    url_parts (h ++ ':' :: (dec n ++ p)) hostname path = (h, p, (n : Int)) ∧
    url_parts "/path:8080/resource".toList hostname path =
      ("/path".toList, "/resource".toList, 8080) := by
  have hhn := host_token_no_nul hh
  have hpn := path_token_no_nul hp
  have h1 := parse_url_host_path hh hp hostname path
  have h2 := parse_url_host_port_path hh hp n hostname path
  rw [to_int_to_long_small (by omega : n < 2 ^ 31)] at h2
  have hcolon : ∀ c ∈ ':' :: (dec n ++ p), c ≠ NUL := by
    intro c hc
    rcases List.mem_cons.mp hc with e | e
    · rw [e]; decide
    · exact no_nul_append (dec_no_nul n) hpn c e
  have e1 : url_parts (h ++ p) hostname path = (h, p, 80) := by
    rw [url_parts_eq h1]
    simp only [cstr_put_cstr hhn, cstr_put_cstr hpn]
  have e2 : url_parts (h ++ ':' :: (dec n ++ p)) hostname path = (h, p, (n : Int)) := by
    rw [url_parts_eq h2]
    simp only [cstr_put_cstr hhn, cstr_put_cstr hpn]
  refine ⟨?_, e1, ?_, e2, ?_⟩
  · unfold url_parts
    rw [parse_url_scheme (no_nul_append hhn hpn) (no_dslash_host_path hh hp)]
    exact e1
  · unfold url_parts
    rw [parse_url_scheme (no_nul_append hhn hcolon) (no_dslash_host_port_path hh hp n)]
    exact e2
  · rfl

/-- C11 at a concrete input: scenario A of the specification, and the same host with
port 8080. -/
theorem parse_url_with_path_witness :
    host_token "example.com".toList ∧ path_token "/page".toList ∧ 8080 ≤ 65535 ∧
    url_parts "http://example.com/page".toList [] [] =
      ("example.com".toList, "/page".toList, 80) ∧
    url_parts "http://example.com:8080/page".toList [] [] =
      ("example.com".toList, "/page".toList, 8080) :=
  ⟨by unfold host_token; decide, ⟨⟨_, rfl⟩, by decide, by decide⟩, by decide,
   (parse_url_with_path "example.com".toList "/page".toList 8080 [] []
      (by unfold host_token; decide) (⟨⟨_, rfl⟩, by decide, by decide⟩) (by decide)).1,
   by decide!⟩

/-- C12 (a URL without a path). For a URL that is a host alone, with or without
`http://`, `parse_url` sets the path to `/index.html` and the port to 80 but never
assigns `hostname`: the array keeps what it held on entry (`handle_get` passes it
uninitialised), so the host is not `h`. With a port, host and port are read, the port
as the `int` that `atoi` yields for the number written (the number itself when it is
below `2 ^ 31`). -/
theorem parse_url_host_alone_leaves_hostname :
    url_parts "http://example.com".toList [] [] = ([], "/index.html".toList, 80) ∧
    url_parts "example.com".toList [] [] = ([], "/index.html".toList, 80) ∧
    url_parts "http://example.com".toList "stale.org".toList [] =
      ("stale.org".toList, "/index.html".toList, 80) ∧
    (∀ h hostname path : List Char, host_token h →
      (parse_url ("http://".toList ++ h) hostname path).hostname = hostname ∧
      (parse_url h hostname path).hostname = hostname) ∧
    (∀ (h hostname path : List Char) (n : Nat), host_token h →
      url_parts ("http://".toList ++ (h ++ ':' :: dec n)) hostname path =
        (h, "/index.html".toList, to_int (to_long (n : Int))) ∧
      url_parts (h ++ ':' :: dec n) hostname path =
        (h, "/index.html".toList, to_int (to_long (n : Int)))) := by
  refine ⟨by decide!, by decide!, by decide!, ?_, ?_⟩
  · intro h hostname path hh
    have h3 : strstr h ['/', '/'] = none := by
      have := strstr_pair_skip '/' [] h (host_token_no_slash hh) (by decide)
      simpa using this
    rw [parse_url_scheme (host_token_no_nul hh) h3, parse_url_host_alone hh]
    exact ⟨rfl, rfl⟩
  · intro h hostname path n hh
    have hhn := host_token_no_nul hh
    have hdn : ∀ c ∈ default_path, c ≠ NUL := by decide
    have hcolon : ∀ c ∈ ':' :: dec n, c ≠ NUL := by
      intro c hc
      rcases List.mem_cons.mp hc with e | e
      · rw [e]; decide
      · exact dec_no_nul n c e
    have hds : strstr (h ++ ':' :: dec n) ['/', '/'] = none := by
      have := strstr_pair_skip '/' [] (h ++ ':' :: dec n) (by
        intro hc
        rcases List.mem_append.mp hc with h1 | h1
        · exact host_token_no_slash hh h1
        · rcases List.mem_cons.mp h1 with h2 | h2
          · revert h2; decide
          · exact dec_no_slash n h2) (by decide)
      simpa using this
    have e2 : url_parts (h ++ ':' :: dec n) hostname path =
        (h, "/index.html".toList, to_int (to_long (n : Int))) := by
      rw [url_parts_eq (parse_url_host_port hh n hostname path)]
      simp only [cstr_put_cstr hhn, cstr_put_cstr hdn]
      rfl
    refine ⟨?_, e2⟩
    unfold url_parts
    rw [parse_url_scheme (no_nul_append hhn hcolon) hds]
    exact e2

/-- C13 (the Host header). `build_header` takes for the Host line the last client line
that has the text `Host` anywhere in it, name or value. Here a client block without a
header named Host gets no `Host: example.com` line at all, and a client block with
`Host: example.com` loses that line to a later `X-Forwarded-Host` line. -/
theorem host_line_taken_from_other_header :
    lines_of (build_header [] [] "example.com".toList "/page".toList
        ["X-Forwarded-Host: proxy.local\r\n".toList, "\r\n".toList]) =
      ["GET /page HTTP/1.0\r\n".toList, "X-Forwarded-Host: proxy.local\r\n".toList,
       "Connection: close\r\n".toList, "Proxy-Connection: close\r\n".toList,
       header_user_agent, "\r\n".toList] ∧
    lines_of (build_header [] [] "example.com".toList "/page".toList
        ["Host: example.com\r\n".toList, "X-Forwarded-Host: proxy.local\r\n".toList,
         "\r\n".toList]) =
      ["GET /page HTTP/1.0\r\n".toList, "X-Forwarded-Host: proxy.local\r\n".toList,
       "Connection: close\r\n".toList, "Proxy-Connection: close\r\n".toList,
       header_user_agent, "\r\n".toList] ∧
    lines_of (build_header [] [] "example.com".toList "/page".toList ["\r\n".toList]) =
      ["GET /page HTTP/1.0\r\n".toList, "Host: example.com\r\n".toList,
       "Connection: close\r\n".toList, "Proxy-Connection: close\r\n".toList,
       header_user_agent, "\r\n".toList] := by
  decide!

/-- C14 (User-Agent, Connection and Proxy-Connection). A client `User-Agent` line whose
value has the text `Host` in it is taken for the Host line: the output has the client
line and the fixed line, two User-Agent lines, and the client `Host` line is lost. -/
theorem client_user_agent_line_forwarded :
    lines_of (build_header [] [] "example.com".toList "/page".toList
        ["Host: example.com\r\n".toList, "User-Agent: HostTracker/2.0\r\n".toList,
         "\r\n".toList]) =
      ["GET /page HTTP/1.0\r\n".toList, "User-Agent: HostTracker/2.0\r\n".toList,
       "Connection: close\r\n".toList, "Proxy-Connection: close\r\n".toList,
       "User-Agent: Mozilla/5.0 (X11; Linux x86_64; rv:45.0) Gecko/20100101 Firefox/45.0\r\n".toList,
       "\r\n".toList] := by
  decide!

/-- C15 (the other headers). A client line whose name is none of the four but whose
value has the text `Connection` in it is dropped: the `Cookie` line is not in the
output, the two lines around it are. -/
theorem other_header_line_dropped :
    lines_of (build_header [] [] "example.com".toList "/page".toList
        ["Host: example.com\r\n".toList, "Accept: text/html\r\n".toList,
         "Cookie: theme=dark; Connection-Id=7\r\n".toList, "Accept-Language: en\r\n".toList,
         "\r\n".toList]) =
      ["GET /page HTTP/1.0\r\n".toList, "Host: example.com\r\n".toList,
       "Connection: close\r\n".toList, "Proxy-Connection: close\r\n".toList,
       header_user_agent, "Accept: text/html\r\n".toList, "Accept-Language: en\r\n".toList,
       "\r\n".toList] := by
  decide!

/-- C16 (framing). `build_header` handles the client lines as C strings and reads its
arrays `host` and `remain` without having initialised them. For the client line
`A: b`, NUL, `c\r\n` the copy stops at the NUL: the output ends with the line `A: b\r\n`
and has no empty line at its end. When `remain` holds old bytes, they are forwarded:
here the output has an empty line before its end. When `host` holds `\r\n`, the Host
line of the output is that empty line. -/
theorem header_framing_broken :
    lines_of (build_header [] [] "example.com".toList "/page".toList
        ["A: b\x00c\r\n".toList, "\r\n".toList]) =
      ["GET /page HTTP/1.0\r\n".toList, "Host: example.com\r\n".toList,
       "Connection: close\r\n".toList, "Proxy-Connection: close\r\n".toList,
       header_user_agent, "A: b\r\n".toList] ∧
    ¬ ("\r\n\r\n".toList <:+ build_header [] [] "example.com".toList "/page".toList
        ["A: b\x00c\r\n".toList, "\r\n".toList]) ∧
    lines_of (build_header [] "X: old\r\n\r\nbody".toList "example.com".toList "/page".toList
        ["Accept: a\r\n".toList, "\r\n".toList]) =
      ["GET /page HTTP/1.0\r\n".toList, "Host: example.com\r\n".toList,
       "Connection: close\r\n".toList, "Proxy-Connection: close\r\n".toList,
       header_user_agent, "X: old\r\n".toList, "\r\n".toList, "bodyAccept: a\r\n".toList,
       "\r\n".toList] ∧
    lines_of (build_header "\r\n".toList [] "example.com".toList "/page".toList
        ["Accept: a\r\n".toList, "\r\n".toList]) =
      ["GET /page HTTP/1.0\r\n".toList, "\r\n".toList,
       "Connection: close\r\n".toList, "Proxy-Connection: close\r\n".toList,
       header_user_agent, "Accept: a\r\n".toList, "\r\n".toList] := by
  decide!

/-- C17 (request-line validation). The `%c` of line 136 reads one character after
`HTTP/1.` and nothing looks at what follows it: the request line
`GET http://example.com/page HTTP/1.10`, whose minor version is 10, is accepted like the
same line with `HTTP/1.1`, and the request goes to the origin; the line with `HTTP/1.2`
is refused and leaves the state as it is. The program does not look at what
`rio_readlineb` returns (line 134): when the client sends nothing, `buf` is parsed as it
is, so with the line of an earlier request still in it that request is handled again,
while with a `buf` of zero bytes the call returns at once. -/
theorem request_line_check_passes_bad_lines :
    scan_request "GET http://example.com/page HTTP/1.10\r\n".toList =
      some ("GET".toList, "http://example.com/page".toList, '1') ∧
    handle_get_request MAX_CACHE_SIZE 100 zero_locals
        ["GET http://example.com/page HTTP/1.10\r\n".toList, "\r\n".toList]
        (example_origin empty_page_response) init_cache =
      handle_get_request MAX_CACHE_SIZE 100 zero_locals
        ["GET http://example.com/page HTTP/1.1\r\n".toList, "\r\n".toList]
        (example_origin empty_page_response) init_cache ∧
    (handle_get_request MAX_CACHE_SIZE 100 zero_locals
        ["GET http://example.com/page HTTP/1.10\r\n".toList, "\r\n".toList]
        (example_origin empty_page_response) init_cache).2.net =
      [NetEvent.origin_connect "http://example.com/page",
       NetEvent.client_write (bytes "HTTP/1.0 200 OK\r\n\r\n".toList)] ∧
    handle_get_request MAX_CACHE_SIZE 100 zero_locals
        ["GET http://example.com/page HTTP/1.2\r\n".toList, "\r\n".toList]
        (example_origin empty_page_response) init_cache = (Outcome.ret (), init_cache) ∧
    handle_get_request MAX_CACHE_SIZE 100 zero_locals []
        (example_origin empty_page_response) init_cache = (Outcome.ret (), init_cache) ∧
    (handle_get_request MAX_CACHE_SIZE 100 (earlier_request_in_buf zero_locals) []
        (example_origin empty_page_response) init_cache).2.net =
      [NetEvent.origin_connect "http://example.com/page",
       NetEvent.client_write (bytes "HTTP/1.0 200 OK\r\n\r\n".toList)] := by
  decide!

/-- C18 (byte-for-byte relay). On a miss, whatever the chunks read from the origin are
(`chunks`, up to the first read that returns 0), whatever the request line left in
`buf` and whatever `size` and `buf_object` held before the loop, the relay loop sends
the client those chunks one after the other, and the socket activity of `handle_get`
is the connection to the origin followed by exactly these bytes; cached or not, and
whether the steps that follow the loop return or not. -/
theorem relay_is_byte_for_byte (cap fuel : Nat) (url : String) (buf : List Nat)
    (size : Nat) (buf_object : List Nat) (chunks : List (List Nat)) (s s1 : ProxyState)
    (hmiss : find_block fuel url s = (Outcome.ret none, s1)) :
    (origin_reply buf size buf_object chunks).relayed =
      (chunks.takeWhile (fun c => c ≠ [])).flatten ∧
    (handle_get cap fuel url (some (origin_reply buf size buf_object chunks)) s).2.net =
      s1.net ++ [NetEvent.origin_connect url,
        NetEvent.client_write (chunks.takeWhile (fun c => c ≠ [])).flatten] := by
  have h : (origin_reply buf size buf_object chunks).relayed =
      (chunks.takeWhile (fun c => c ≠ [])).flatten := by
    unfold origin_reply
    simp only
    rw [relay_loop_sent]
    exact List.nil_append _
  refine ⟨h, ?_⟩
  rw [handle_get_miss_net cap fuel url _ s s1 hmiss, h]

/-- C18 at a concrete input: the response `cut_short_response`, too large to cache by
its declared length, on the empty cache; and the whole request `page_request`. -/
theorem relay_is_byte_for_byte_witness :
    find_block 100 "http://example.com/page" init_cache = (Outcome.ret none, init_cache) ∧
    (handle_get MAX_CACHE_SIZE 100 "http://example.com/page"
        (some (origin_reply [] 0 [] cut_short_response)) init_cache).2.net =
      init_cache.net ++ [NetEvent.origin_connect "http://example.com/page",
        NetEvent.client_write
          (cut_short_response.takeWhile (fun c => c ≠ [])).flatten] ∧
    (after_page_request cut_short_response).net =
      [NetEvent.origin_connect "http://example.com/page",
       NetEvent.client_write
         (bytes "HTTP/1.0 200 OK\r\nContent-Length: 200000\r\n\r\n".toList)] :=
  ⟨by decide!,
   (relay_is_byte_for_byte MAX_CACHE_SIZE 100 "http://example.com/page" [] 0 []
      cut_short_response init_cache init_cache (by decide!)).2,
   by decide!⟩

/-- C19 (the cached copy). Every chunk is copied to the start of `buf_object`, and
`size` is the declared `Content-Length`: for the response `two_line_response`, of 51
bytes, the copy given to `save_block` is the 12 bytes `world\nt-Leng`, the last line
read followed by what is left of an earlier line. The first request returns and stores
these 12 bytes; the second request for the URL is a hit and sends them to the client. -/
theorem cached_copy_is_last_chunk :
    origin_reply (bytes (put_cstr [] "GET http://example.com/page HTTP/1.1\r\n".toList)) 0 []
        two_line_response =
      { relayed :=
          bytes "HTTP/1.0 200 OK\r\nContent-Length: 12\r\n\r\nhello\nworld\n".toList,
        buf_object := bytes "world\nt-Length: 12\r\n".toList,
        size := 12 } ∧
    (handle_get_request MAX_CACHE_SIZE 100 zero_locals page_request
        (example_origin two_line_response) init_cache).1 = Outcome.ret () ∧
    (after_page_request two_line_response).net =
      [NetEvent.origin_connect "http://example.com/page",
       NetEvent.client_write
         (bytes "HTTP/1.0 200 OK\r\nContent-Length: 12\r\n\r\nhello\nworld\n".toList)] ∧
    entries (after_page_request two_line_response) =
      [("http://example.com/page", some (bytes "world\nt-Leng".toList), 12)] ∧
    (handle_get_request MAX_CACHE_SIZE 100 zero_locals page_request
        (example_origin two_line_response) (after_page_request two_line_response)).2.net =
      (after_page_request two_line_response).net ++
        [NetEvent.client_write (bytes "world\nt-Leng".toList)] := by
  decide!

/-- C21 (read/write isolation). `cache_evict` locks the old tail and unlocks the new
one (lines 271-273), which leaves the write semaphore of the new tail at 2. After the
eleven requests `eleven_requests`, every one of which returns, this is the entry of U1.
A reader that holds a read handle on it (`readcnt = 1`) does not keep a writer out:
`write_block` on the entry returns, and the eviction of a second thread frees the body
while the handle is held, so the reader finds `object = NULL`. -/
theorem reader_sees_evicted_body :
    all_returned eleven_requests = true ∧
    (state_after eleven_requests).tail = some 1 ∧
    (find_block 100 "U1" (state_after eleven_requests)).1 = Outcome.ret (some 1) ∧
    lock_view (state_after eleven_requests) 1 = some (true, 0, 1, 2) ∧
    (reader_then_writer (state_after eleven_requests)).1 = Outcome.ret () ∧
    lock_view (reader_then_writer (state_after eleven_requests)).2 1 =
      some (true, 1, 1, 0) ∧
    (reader_then_evictor (state_after eleven_requests)).1 = Outcome.ret none ∧
    lock_view (reader_then_evictor (state_after eleven_requests)).2 1 =
      some (false, 1, 1, 0) := by
  decide!

/-- C28 (eviction frees no more than needed). The loop of `cache_evict` goes on while
`evicted <= size` (line 259), so it evicts one more entry when the entries evicted so
far free exactly the missing amount. With a capacity of 100, entries of 40 and 40 bytes
and an insert of 60 bytes, both entries are evicted and only the new one is stored.
With `MAX_CACHE_SIZE`, a cache filled to 1049000 bytes and an insert of 100000 bytes,
the size of the oldest entry, the two oldest entries are evicted. -/
theorem exact_fit_evicts_one_more :
    (run_ops 100 100 exact_fit_small init_cache).1 = true ∧
    stored_blocks (run_ops 100 100 exact_fit_small init_cache).2 = [2] ∧
    (run_ops 100 100 exact_fit_small init_cache).2.share_cache.size = 60 ∧
    all_returned exact_fit_requests = true ∧
    (state_after exact_fit_requests.dropLast).share_cache.size = 1049000 ∧
    stored_blocks (state_after exact_fit_requests.dropLast) =
      [0, 1, 2, 3, 4, 5, 6, 7, 8, 9, 10] ∧
    stored_blocks (state_after exact_fit_requests) = [2, 3, 4, 5, 6, 7, 8, 9, 10, 11] ∧
    (state_after exact_fit_requests).share_cache.size = 949000 := by
  decide!

/-- C29 (a colon in the path). `parse_url` takes the first colon after the scheme for
the port delimiter, wherever it stands. For `http://example.com/a:b` the host is
`example.com/a`, and `path` is not assigned: it keeps what the array held. For
`http://example.com/t:8080` the port is 8080 as well. -/
theorem colon_in_path_taken_for_port :
    url_parts "http://example.com/a:b".toList [] [] = ("example.com/a".toList, [], 80) ∧
    url_parts "http://example.com/a:b".toList [] "old".toList =
      ("example.com/a".toList, "old".toList, 80) ∧
    url_parts "http://h/a:b".toList [] [] = ("h/a".toList, [], 80) ∧
    url_parts "http://example.com/t:8080".toList [] [] =
      ("example.com/t".toList, [], 8080) := by
  decide!

end ProxyPlay

namespace DataPlay

/-! ## Words of 32 bits -/

theorem all_ones_and (y : Nat) : 4294967295 &&& y = y % 4294967296 := by
  have h := Nat.and_pow_two_sub_one_eq_mod y 32
  rw [Nat.and_comm] at h
  exact h

theorem and_all_ones (y : Nat) : y &&& 4294967295 = y % 4294967296 :=
  Nat.and_pow_two_sub_one_eq_mod y 32

theorem tdiv_four_neg (v : Int) (hv : v < 0) : Int.tdiv v 4 = -((-v) / 4) := by
  have h1 : v = -(-v) := by omega
  rw [h1, Int.neg_tdiv, Int.tdiv_eq_ediv (by omega) (by omega)]
  simp

theorem tdiv_four_nonneg (v : Int) (hv : 0 ≤ v) : Int.tdiv v 4 = v / 4 :=
  Int.tdiv_eq_ediv hv (by omega)

theorem sar32_low {a : Nat} (n : Nat) (h : a < 2147483648) : sar32 a n = a / 2 ^ n := by
  unfold sar32
  rw [if_pos (by norm_num; exact h)]

theorem sar32_high {a : Nat} (n : Nat) (h : 2147483648 ≤ a) :
    sar32 a n = a / 2 ^ n + (4294967296 - 2 ^ (32 - n)) := by
  unfold sar32
  rw [if_neg (by norm_num; exact h)]
  norm_num

theorem toInt32_low {a : Nat} (h : a < 2147483648) : toInt32 a = (a : Int) := by
  unfold toInt32
  rw [if_pos (by norm_num; exact h)]

theorem toInt32_high {a : Nat} (h : 2147483648 ≤ a) : toInt32 a = (a : Int) - 4294967296 := by
  unfold toInt32
  rw [if_neg (by norm_num; exact h)]
  norm_num

theorem add32_eq (a b : Nat) : add32 a b = (a + b) % 4294967296 := by
  unfold add32
  norm_num

theorem shl32_eq (a n : Nat) : shl32 a n = (a * 2 ^ n) % 4294967296 := by
  unfold shl32
  norm_num

theorem testBit_shl32 (a n j : Nat) (hj : j < 32) :
    (shl32 a n).testBit j = (decide (n ≤ j) && a.testBit (j - n)) := by
  unfold shl32
  rw [Nat.testBit_mod_two_pow, Nat.mul_comm, Nat.testBit_mul_pow_two]
  simp [hj]

theorem testBit_top {a : Nat} (h1 : 2147483648 ≤ a) (h2 : a < 4294967296) :
    a.testBit 31 = true := by
  rw [Nat.testBit_to_div_mod]
  apply decide_eq_true
  norm_num
  omega

theorem testBit_sar32 (a n j : Nat) (ha : a < 4294967296) (hn : n ≤ 31) (hj : j < 32) :
    (sar32 a n).testBit j = a.testBit (min (j + n) 31) := by
  by_cases h : a < 2147483648
  · rw [sar32_low n h, ← Nat.shiftRight_eq_div_pow, Nat.testBit_shiftRight]
    by_cases hjn : j + n ≤ 31
    · rw [Nat.min_eq_left hjn, Nat.add_comm]
    · rw [Nat.min_eq_right (by omega)]
      have h31 : a < 2 ^ 31 := by norm_num; exact h
      rw [Nat.testBit_lt_two_pow h31]
      apply Nat.testBit_lt_two_pow
      exact lt_of_lt_of_le h31 (Nat.pow_le_pow_right (by norm_num) (by omega))
  · have h' : 2147483648 ≤ a := by omega
    rw [sar32_high n h']
    have hlt : a / 2 ^ n < 2 ^ (32 - n) := by
      rw [Nat.div_lt_iff_lt_mul (Nat.pos_pow_of_pos n (by norm_num)), ← Nat.pow_add]
      have : 32 - n + n = 32 := by omega
      rw [this]
      norm_num
      exact ha
    have hsplit : a / 2 ^ n + (4294967296 - 2 ^ (32 - n)) =
        2 ^ (32 - n) * (2 ^ n - 1) + a / 2 ^ n := by
      have hp : 2 ^ (32 - n) * 2 ^ n = 4294967296 := by
        rw [← Nat.pow_add]
        have : 32 - n + n = 32 := by omega
        rw [this]
      have hpos : 1 ≤ 2 ^ n := Nat.one_le_two_pow
      rw [Nat.mul_sub, hp, Nat.mul_one]
      omega
    rw [hsplit, Nat.mul_add_lt_is_or hlt, Nat.testBit_or, Nat.testBit_mul_pow_two,
      Nat.testBit_two_pow_sub_one, ← Nat.shiftRight_eq_div_pow, Nat.testBit_shiftRight]
    by_cases hjn : j + n ≤ 31
    · rw [Nat.min_eq_left hjn, Nat.add_comm n j]
      have : ¬ (j ≥ 32 - n) := by omega
      simp [this]
    · rw [Nat.min_eq_right (by omega), testBit_top h' ha]
      have h1 : j ≥ 32 - n := by omega
      have h2 : j - (32 - n) < n := by omega
      simp [h1, h2]

theorem testBit_not32 (a j : Nat) (ha : a < 4294967296) (hj : j < 32) :
    (not32 a).testBit j = !a.testBit j := by
  unfold not32
  have e : 2 ^ 32 - 1 - a % 2 ^ 32 = 2 ^ 32 - (a + 1) := by
    have : a % 2 ^ 32 = a := Nat.mod_eq_of_lt (by norm_num; exact ha)
    rw [this]
    omega
  rw [e, Nat.testBit_two_pow_sub_succ (by norm_num; exact ha)]
  simp [hj]

theorem swap_blocks_lt (t n hi lo : Nat) (hhi : hi < 4294967296) (hlo : lo < 4294967296) :
    swap_blocks t n hi lo < 4294967296 := by
  unfold swap_blocks
  have e : (4294967296 : Nat) = 2 ^ 32 := by norm_num
  rw [e] at hhi hlo ⊢
  exact Nat.or_lt_two_pow (Nat.and_lt_two_pow _ hhi) (Nat.and_lt_two_pow _ hlo)

theorem swap_blocks_testBit (t n hi lo j : Nat) (hhi : hi < 4294967296) (hn : n ≤ 31)
    (hj : j < 32) :
    (swap_blocks t n hi lo).testBit j =
      ((decide (n ≤ j) && t.testBit (j - n) && hi.testBit j) ||
        (t.testBit (min (j + n) 31) && hi.testBit (min (j + n) 31) && lo.testBit j)) := by
  unfold swap_blocks
  have e : (4294967296 : Nat) = 2 ^ 32 := by norm_num
  have h1 : t &&& hi < 4294967296 := by
    rw [e] at hhi ⊢
    exact Nat.and_lt_two_pow _ hhi
  rw [Nat.testBit_or, Nat.testBit_and, Nat.testBit_and, testBit_shl32 _ _ _ hj,
    testBit_sar32 _ _ _ h1 hn hj, Nat.testBit_and]

theorem swap16 (t j : Nat) (hj : j < 32) :
    (swap_blocks t 16 0xFFFF0000 0x0000FFFF).testBit j = t.testBit (j ^^^ 16) := by
  have hhi : ∀ k, k < 32 → Nat.testBit 0xFFFF0000 k = decide (16 ≤ k) := by decide
  have hlo : ∀ k, k < 32 → Nat.testBit 0x0000FFFF k = decide (k < 16) := by decide
  rw [swap_blocks_testBit _ _ _ _ _ (by norm_num) (by norm_num) hj]
  interval_cases j <;> simp [hhi, hlo]

theorem swap8 (t j : Nat) (hj : j < 32) :
    (swap_blocks t 8 0xFF00FF00 0x00FFFFFF).testBit j = t.testBit (j ^^^ 8) := by
  have hhi : ∀ k, k < 32 → Nat.testBit 0xFF00FF00 k = decide (k / 8 % 2 = 1) := by decide
  have hlo : ∀ k, k < 32 → Nat.testBit 0x00FFFFFF k = decide (k < 24) := by decide
  rw [swap_blocks_testBit _ _ _ _ _ (by norm_num) (by norm_num) hj]
  interval_cases j <;> simp [hhi, hlo]

theorem swap4 (t j : Nat) (hj : j < 32) :
    (swap_blocks t 4 0xF0F0F0F0 0x0FFFFFFF).testBit j = t.testBit (j ^^^ 4) := by
  have hhi : ∀ k, k < 32 → Nat.testBit 0xF0F0F0F0 k = decide (k / 4 % 2 = 1) := by decide
  have hlo : ∀ k, k < 32 → Nat.testBit 0x0FFFFFFF k = decide (k < 28) := by decide
  rw [swap_blocks_testBit _ _ _ _ _ (by norm_num) (by norm_num) hj]
  interval_cases j <;> simp [hhi, hlo]

theorem swap2 (t j : Nat) (hj : j < 32) :
    (swap_blocks t 2 0xCCCCCCCC 0x3FFFFFFF).testBit j = t.testBit (j ^^^ 2) := by
  have hhi : ∀ k, k < 32 → Nat.testBit 0xCCCCCCCC k = decide (k / 2 % 2 = 1) := by decide
  have hlo : ∀ k, k < 32 → Nat.testBit 0x3FFFFFFF k = decide (k < 30) := by decide
  rw [swap_blocks_testBit _ _ _ _ _ (by norm_num) (by norm_num) hj]
  interval_cases j <;> simp [hhi, hlo]

theorem swap1 (t j : Nat) (hj : j < 32) :
    (swap_blocks t 1 0xAAAAAAAA 0x7FFFFFFF).testBit j = t.testBit (j ^^^ 1) := by
  have hhi : ∀ k, k < 32 → Nat.testBit 0xAAAAAAAA k = decide (k % 2 = 1) := by decide
  have hlo : ∀ k, k < 32 → Nat.testBit 0x7FFFFFFF k = decide (k < 31) := by decide
  rw [swap_blocks_testBit _ _ _ _ _ (by norm_num) (by norm_num) hj]
  interval_cases j <;> simp [hhi, hlo]

/-- The function `bitReverse` with its masks computed: five exchanges of blocks, of 16,
8, 4, 2 and 1 bits. -/
theorem bitReverse_eq (x : Nat) :
    bitReverse x =
      swap_blocks (swap_blocks (swap_blocks (swap_blocks
        (swap_blocks x 16 0xFFFF0000 0x0000FFFF) 8 0xFF00FF00 0x00FFFFFF)
        4 0xF0F0F0F0 0x0FFFFFFF) 2 0xCCCCCCCC 0x3FFFFFFF) 1 0xAAAAAAAA 0x7FFFFFFF := by
  rfl

theorem bitReverse_lt (x : Nat) : bitReverse x < 4294967296 := by
  rw [bitReverse_eq]
  exact swap_blocks_lt _ _ _ _ (by norm_num) (by norm_num)

theorem bitReverse_testBit (x j : Nat) (hj : j < 32) :
    (bitReverse x).testBit j = x.testBit (31 - j) := by
  have hidx : ∀ k, k < 32 → k ^^^ 1 < 32 ∧ (k ^^^ 1) ^^^ 2 < 32 ∧
      ((k ^^^ 1) ^^^ 2) ^^^ 4 < 32 ∧ (((k ^^^ 1) ^^^ 2) ^^^ 4) ^^^ 8 < 32 ∧
      ((((k ^^^ 1) ^^^ 2) ^^^ 4) ^^^ 8) ^^^ 16 = 31 - k := by decide
  obtain ⟨h1, h2, h4, h8, h16⟩ := hidx j hj
  rw [bitReverse_eq, swap1 _ _ hj, swap2 _ _ h1, swap4 _ _ h2, swap8 _ _ h4, swap16 _ _ h8,
    h16]

/-! ## The fields of a single-precision pattern -/

theorem field_exp (uf : Nat) : shr32 uf 23 &&& 0xff = exp_field uf := by
  unfold shr32 exp_field
  exact Nat.and_pow_two_sub_one_eq_mod _ 8

theorem field_frac (uf : Nat) :
    uf &&& not32 (shl32 (add32 (shl32 0xff 1) 1) 23) = frac_field uf := by
  have h : not32 (shl32 (add32 (shl32 0xff 1) 1) 23) = 2 ^ 23 - 1 := by decide
  rw [h]
  unfold frac_field
  exact Nat.and_pow_two_sub_one_eq_mod _ 23

theorem sign_bit_cases (uf : Nat) : sign_bit uf = 0 ∨ sign_bit uf = 1 := by
  unfold sign_bit
  omega

theorem exp_field_lt (uf : Nat) : exp_field uf < 256 := by
  unfold exp_field
  omega

theorem frac_field_lt (uf : Nat) : frac_field uf < 8388608 := by
  unfold frac_field
  omega

theorem fields_sum (uf : Nat) (h : uf < 4294967296) :
    uf = sign_bit uf * 2147483648 + exp_field uf * 8388608 + frac_field uf := by
  unfold sign_bit exp_field frac_field
  omega

theorem field_sign_and (uf : Nat) :
    uf &&& shl32 1 31 = sign_bit uf * 2147483648 := by
  have h1 : shl32 1 31 = 2 ^ 31 := by decide
  rw [h1, Nat.and_two_pow, Nat.testBit_to_div_mod]
  unfold sign_bit
  norm_num
  have h2 : uf / 2147483648 % 2 = 0 ∨ uf / 2147483648 % 2 = 1 := by omega
  rcases h2 with h2 | h2
  · simp [h2]
  · simp [h2]

theorem field_sign_shift (uf : Nat) (_h : uf < 4294967296) :
    shl32 (shr32 uf 31) 31 = sign_bit uf * 2147483648 := by
  unfold shl32 shr32 sign_bit
  omega

theorem or_eq_add (hi lo k : Nat) (h : lo < 2 ^ k) : 2 ^ k * hi ||| lo = 2 ^ k * hi + lo :=
  (Nat.mul_add_lt_is_or h hi).symm

theorem toInt32_sub32 (a b : Nat) (ha : a < 2147483648) (hb : b < 2147483648) :
    toInt32 (sub32 a b) = (a : Int) - (b : Int) := by
  unfold sub32
  norm_num
  have hb' : b % 4294967296 = b := by omega
  rw [hb']
  by_cases h : b ≤ a
  · have e : (a + (4294967296 - b)) % 4294967296 = a - b := by omega
    rw [e, toInt32_low (by omega)]
    omega
  · have e : (a + (4294967296 - b)) % 4294967296 = a + 4294967296 - b := by omega
    rw [e, toInt32_high (by omega)]
    omega

theorem sub32_of_le (a b : Nat) (h : b ≤ a) (ha : a < 4294967296) : sub32 a b = a - b := by
  unfold sub32
  norm_num
  omega

theorem shifted_significand_lt (uf : Nat) (h : exp_field uf < 158) :
    shifted_significand uf < 2147483648 := by
  unfold shifted_significand
  have hf := frac_field_lt uf
  split
  · have : (2 ^ 23 + frac_field uf) / 2 ^ (150 - exp_field uf) ≤ 2 ^ 23 + frac_field uf :=
      Nat.div_le_self _ _
    norm_num at this ⊢
    omega
  · have hp : 2 ^ (exp_field uf - 150) ≤ 2 ^ 7 :=
      Nat.pow_le_pow_right (by norm_num) (by omega)
    have : (2 ^ 23 + frac_field uf) * 2 ^ (exp_field uf - 150) ≤
        (2 ^ 23 + frac_field uf) * 2 ^ 7 := Nat.mul_le_mul_left _ hp
    refine lt_of_le_of_lt this ?_
    norm_num
    omega

/-- The function `float_f2i` by cases on the exponent field. -/
theorem float_f2i_eq (uf : Nat) :
    float_f2i uf =
      if exp_field uf = 255 ∨ 158 ≤ exp_field uf then 2147483648
      else if exp_field uf < 127 then 0
      else if sign_bit uf = 1 then neg32 (shifted_significand uf)
      else shifted_significand uf := by
  have hE := exp_field_lt uf
  have hF := frac_field_lt uf
  have he : toInt32 (sub32 (exp_field uf) 127) = (exp_field uf : Int) - 127 := by
    have := toInt32_sub32 (exp_field uf) 127 (by omega) (by norm_num)
    simpa using this
  unfold float_f2i
  simp only [field_exp, field_frac, field_sign_and, he]
  by_cases h1 : exp_field uf = 255 ∨ 158 ≤ exp_field uf
  · rw [if_pos h1, if_pos]
    rcases h1 with h1 | h1
    · exact Or.inl h1
    · exact Or.inr (by omega)
  · rw [if_neg h1, if_neg (by omega)]
    by_cases h2 : exp_field uf < 127
    · rw [if_pos h2, if_pos]
      right
      omega
    · have h3 : lnot (exp_field uf) = 0 := by
        unfold lnot
        rw [if_neg (by omega)]
      rw [if_neg h2, if_neg (by rw [h3]; omega)]
      have hor : frac_field uf ||| shl32 1 23 = 8388608 + frac_field uf := by
        have h4 : shl32 1 23 = 2 ^ 23 * 1 := by decide
        rw [h4, Nat.or_comm, or_eq_add 1 (frac_field uf) 23 (by norm_num; exact hF)]
        norm_num
      have hm : (if (exp_field uf : Int) - 127 < 23 then
            sar32 (frac_field uf ||| shl32 1 23) (sub32 23 (sub32 (exp_field uf) 127))
          else shl32 (frac_field uf ||| shl32 1 23) (sub32 (sub32 (exp_field uf) 127) 23)) =
          shifted_significand uf := by
        unfold shifted_significand
        rw [hor, sub32_of_le (exp_field uf) 127 (by omega) (by omega)]
        by_cases h5 : exp_field uf < 150
        · rw [if_pos (by omega), if_pos h5, sub32_of_le _ _ (by omega) (by norm_num),
            sar32_low _ (by omega)]
          have : 23 - (exp_field uf - 127) = 150 - exp_field uf := by omega
          rw [this]
          norm_num
        · rw [if_neg (by omega), if_neg h5, sub32_of_le _ _ (by omega) (by omega), shl32_eq]
          have : exp_field uf - 127 - 23 = exp_field uf - 150 := by omega
          rw [this]
          have hlt := shifted_significand_lt uf (by omega)
          unfold shifted_significand at hlt
          rw [if_neg h5] at hlt
          norm_num at hlt ⊢
          omega
      rw [hm]
      have hlt := shifted_significand_lt uf (by omega)
      rcases sign_bit_cases uf with hs | hs
      · have e1 : sar32 (sign_bit uf * 2147483648) 31 = 0 := by rw [hs]; decide
        have e2 : not32 0 = 4294967295 := by decide
        rw [e1, e2, Nat.and_zero, and_all_ones, if_neg (by omega), add32_eq]
        omega
      · have e1 : sar32 (sign_bit uf * 2147483648) 31 = 4294967295 := by rw [hs]; decide
        have e2 : not32 4294967295 = 0 := by decide
        have e3 : neg32 (shifted_significand uf) < 4294967296 := by
          unfold neg32
          norm_num
          omega
        rw [e1, e2, Nat.and_zero, and_all_ones, if_pos hs, add32_eq]
        omega

theorem trunc_nonneg (q : ℚ) (hq : 0 ≤ q) : trunc q = ⌊q⌋ := by
  unfold trunc
  rw [if_pos hq]

theorem trunc_neg (q : ℚ) (hq : 0 ≤ q) : trunc (-q) = -⌊q⌋ := by
  unfold trunc
  by_cases h : q = 0
  · simp [h]
  · have hlt : ¬ (0 ≤ -q) := by
      intro h0
      apply h
      linarith
    rw [if_neg hlt, Int.ceil_neg]

theorem float_magnitude_nonneg (uf : Nat) : 0 ≤ float_magnitude uf := by
  unfold float_magnitude
  positivity

theorem floor_float_magnitude (uf : Nat) :
    ⌊float_magnitude uf⌋ = ((scaled_magnitude uf / 2 ^ 150 : ℕ) : ℤ) := by
  unfold float_magnitude
  rw [Rat.floor_natCast_div_natCast]
  norm_cast

theorem two_pow_150 (e : Nat) (h : e ≤ 150) : 2 ^ 150 = 2 ^ (150 - e) * 2 ^ e := by
  rw [← Nat.pow_add]
  congr 1
  omega

/-- The whole part of the magnitude, for an exponent field from 127 on. -/
theorem scaled_magnitude_div (uf : Nat) (h : 127 ≤ exp_field uf) :
    scaled_magnitude uf / 2 ^ 150 = shifted_significand uf := by
  unfold scaled_magnitude shifted_significand
  rw [if_neg (by omega)]
  by_cases h5 : exp_field uf < 150
  · rw [if_pos h5]
    have e := two_pow_150 (exp_field uf) (by omega)
    rw [e]
    exact Nat.mul_div_mul_right _ _ (Nat.pos_pow_of_pos _ (by norm_num))
  · rw [if_neg h5]
    have e : 2 ^ exp_field uf = 2 ^ (exp_field uf - 150) * 2 ^ 150 := by
      rw [← Nat.pow_add]
      congr 1
      omega
    rw [e, ← Nat.mul_assoc]
    exact Nat.mul_div_cancel _ (Nat.pos_pow_of_pos _ (by norm_num))

/-- A magnitude below 1: the exponent field is below 127. -/
theorem scaled_magnitude_small (uf : Nat) (h : exp_field uf < 127) :
    scaled_magnitude uf / 2 ^ 150 = 0 := by
  apply Nat.div_eq_of_lt
  unfold scaled_magnitude
  have hF := frac_field_lt uf
  split
  · have : (2 : Nat) ^ 24 ≤ 2 ^ 150 := Nat.pow_le_pow_right (by norm_num) (by norm_num)
    have h24 : (2 : Nat) ^ 24 = 16777216 := by norm_num
    omega
  · have h1 : (2 ^ 23 + frac_field uf) * 2 ^ exp_field uf < 2 ^ 24 * 2 ^ exp_field uf := by
      apply Nat.mul_lt_mul_of_pos_right
      · norm_num
        omega
      · exact Nat.pos_pow_of_pos _ (by norm_num)
    have h2 : 2 ^ 24 * 2 ^ exp_field uf ≤ 2 ^ 150 := by
      rw [← Nat.pow_add]
      exact Nat.pow_le_pow_right (by norm_num) (by omega)
    exact lt_of_lt_of_le h1 h2

/-- A magnitude of `2 ^ 31` or more: the exponent field is 158 or more. -/
theorem float_magnitude_large (uf : Nat) :
    (2 : ℚ) ^ 31 ≤ float_magnitude uf ↔ 158 ≤ exp_field uf := by
  have hF := frac_field_lt uf
  have key : (2 : ℚ) ^ 31 ≤ float_magnitude uf ↔ 2 ^ 181 ≤ scaled_magnitude uf := by
    unfold float_magnitude
    rw [le_div_iff₀ (by positivity)]
    have : (2 : ℚ) ^ 31 * ((2 ^ 150 : ℕ) : ℚ) = ((2 ^ 181 : ℕ) : ℚ) := by
      norm_num
    rw [this]
    exact Nat.cast_le
  rw [key]
  unfold scaled_magnitude
  constructor
  · intro h
    by_contra hc
    have hE : exp_field uf ≤ 157 := by omega
    split at h
    · have : (2 : Nat) ^ 24 ≤ 2 ^ 181 := Nat.pow_le_pow_right (by norm_num) (by norm_num)
      have h24 : (2 : Nat) ^ 24 = 16777216 := by norm_num
      omega
    · have h1 : (2 ^ 23 + frac_field uf) * 2 ^ exp_field uf < 2 ^ 24 * 2 ^ exp_field uf := by
        apply Nat.mul_lt_mul_of_pos_right
        · norm_num
          omega
        · exact Nat.pos_pow_of_pos _ (by norm_num)
      have h2 : 2 ^ 24 * 2 ^ exp_field uf ≤ 2 ^ 181 := by
        rw [← Nat.pow_add]
        exact Nat.pow_le_pow_right (by norm_num) (by omega)
      exact absurd h (not_le.mpr (lt_of_lt_of_le h1 h2))
  · intro h
    rw [if_neg (by omega)]
    have h1 : 2 ^ 181 ≤ 2 ^ 23 * 2 ^ exp_field uf := by
      rw [← Nat.pow_add]
      exact Nat.pow_le_pow_right (by norm_num) (by omega)
    exact le_trans h1 (Nat.mul_le_mul_right _ (Nat.le_add_right _ _))

theorem toInt32_neg32 (m : Nat) (h : m < 2147483648) : toInt32 (neg32 m) = -(m : Int) := by
  unfold neg32
  norm_num
  by_cases h0 : m = 0
  · rw [h0]
    decide
  · have e : (4294967296 - m % 4294967296) % 4294967296 = 4294967296 - m := by omega
    rw [e, toInt32_high (by omega)]
    omega

/-- The function `float_twice` by cases on the exponent field. -/
theorem float_twice_eq (uf : Nat) (h : uf < 4294967296) :
    float_twice uf =
      if exp_field uf = 255 then uf
      else if exp_field uf = 0 then sign_bit uf * 2147483648 + 2 * frac_field uf
      else if exp_field uf = 254 then sign_bit uf * 2147483648 + 255 * 8388608
      else sign_bit uf * 2147483648 + (exp_field uf + 1) * 8388608 + frac_field uf := by
  have hE := exp_field_lt uf
  have hF := frac_field_lt uf
  have hS := sign_bit_cases uf
  unfold float_twice
  simp only [field_exp, field_frac, field_sign_shift uf h]
  by_cases h1 : exp_field uf = 255
  · rw [if_pos h1, if_pos h1]
  · rw [if_neg h1, if_neg h1]
    by_cases h2 : exp_field uf = 0
    · have e1 : lnot (exp_field uf) = 1 := by rw [h2]; decide
      have e2 : shl32 (frac_field uf) 1 = 2 * frac_field uf := by
        rw [shl32_eq]
        omega
      have e3 : 2 * frac_field uf &&& shl32 1 31 = 0 := by
        rw [field_sign_and]
        unfold sign_bit
        omega
      have e4 : shl32 (sar32 0 31) 23 = 0 := by decide
      have e5 : sign_bit uf * 2147483648 ||| 2 * frac_field uf =
          sign_bit uf * 2147483648 + 2 * frac_field uf := by
        have := or_eq_add (sign_bit uf) (2 * frac_field uf) 31 (by norm_num; omega)
        norm_num at this
        rw [Nat.mul_comm 2147483648] at this
        exact this
      rw [e1, if_pos (by decide), if_pos h2, e2, e3, e4, Nat.or_zero, e5]
    · have e1 : lnot (exp_field uf) = 0 := by
        unfold lnot
        rw [if_neg h2]
      have e2 : add32 (exp_field uf) 1 = exp_field uf + 1 := by
        rw [add32_eq]
        omega
      have e3 : shl32 (exp_field uf + 1) 23 = (exp_field uf + 1) * 8388608 := by
        rw [shl32_eq]
        omega
      rw [e1, if_neg (by decide), if_pos h1, if_neg h2, e2, e3]
      by_cases h3 : exp_field uf = 254
      · have e4 : lnot (lnot ((exp_field uf + 1) ^^^ 255)) = 0 := by rw [h3]; decide
        have e5 : mul32 0 (frac_field uf) = 0 := by
          unfold mul32
          simp
        rw [if_pos h3, e4, e5, Nat.or_zero, h3]
        have := or_eq_add (sign_bit uf) (255 * 8388608) 31 (by norm_num)
        norm_num at this ⊢
        rw [Nat.mul_comm 2147483648] at this
        exact this
      · have hx : (exp_field uf + 1) ^^^ 255 ≠ 0 := by
          intro hx
          have := Nat.xor_eq_zero.mp hx
          omega
        have e4 : lnot (lnot ((exp_field uf + 1) ^^^ 255)) = 1 := by
          unfold lnot
          rw [if_neg hx]
          rfl
        have e5 : mul32 1 (frac_field uf) = frac_field uf := by
          unfold mul32
          norm_num
          omega
        have e6 : (exp_field uf + 1) * 8388608 ||| frac_field uf =
            (exp_field uf + 1) * 8388608 + frac_field uf := by
          have := or_eq_add (exp_field uf + 1) (frac_field uf) 23 (by norm_num; exact hF)
          norm_num at this
          rw [Nat.mul_comm 8388608] at this
          exact this
        have e7 : sign_bit uf * 2147483648 |||
            ((exp_field uf + 1) * 8388608 + frac_field uf) =
            sign_bit uf * 2147483648 + ((exp_field uf + 1) * 8388608 + frac_field uf) := by
          have := or_eq_add (sign_bit uf) ((exp_field uf + 1) * 8388608 + frac_field uf) 31
            (by norm_num; omega)
          norm_num at this
          rw [Nat.mul_comm 2147483648] at this
          exact this
        rw [if_neg h3, e4, e5, Nat.or_assoc, e6, e7]
        omega

theorem fields_of_sum (s x : Nat) (hs : s = 0 ∨ s = 1) (hx : x < 2147483648) :
    sign_bit (s * 2147483648 + x) = s ∧ exp_field (s * 2147483648 + x) = x / 8388608 ∧
    frac_field (s * 2147483648 + x) = x % 8388608 := by
  unfold sign_bit exp_field frac_field
  norm_num
  rcases hs with hs | hs <;> subst hs <;> omega

theorem float_real_double (a b : Nat) (hs : sign_bit a = sign_bit b)
    (hm : scaled_magnitude a = 2 * scaled_magnitude b) : float_real a = 2 * float_real b := by
  unfold float_real float_magnitude
  rw [hs, hm]
  push_cast
  split <;> ring

/-! ## The claims -/

/-- C26 (`ezThreeFourths`). For every 32-bit `x`, `ezThreeFourths x` is the two's
complement number `3 * x` wrapped to 32 bits and then divided by 4 with rounding toward
zero; the three examples of the source are instances. -/
theorem ezThreeFourths_is_times_three_quarters (x : Nat) (_hx : x < 2 ^ 32) :
    ezThreeFourths x < 2 ^ 32 ∧
    toInt32 (ezThreeFourths x) = Int.tdiv (toInt32 (3 * x % 2 ^ 32)) 4 := by
  have e32 : (2 : Nat) ^ 32 = 4294967296 := by norm_num
  rw [e32]
  have hx3 : add32 (shl32 x 1) x = 3 * x % 4294967296 := by
    rw [add32_eq, shl32_eq]
    omega
  have hy : 3 * x % 4294967296 < 4294967296 := Nat.mod_lt _ (by norm_num)
  have hn0 : not32 0 = 4294967295 := by decide
  have hn1 : not32 4294967295 = 0 := by decide
  unfold ezThreeFourths
  simp only [hx3]
  generalize 3 * x % 4294967296 = y at hy
  by_cases h : y < 2147483648
  · have hs : sar32 y 31 = 0 := by
      rw [sar32_low 31 h]
      norm_num
      omega
    have h2 : sar32 y 2 = y / 4 := by
      rw [sar32_low 2 h]
      norm_num
    have hr : add32 (0 &&& sar32 (add32 y 3) 2) (4294967295 &&& (y / 4)) = y / 4 := by
      rw [Nat.zero_and, all_ones_and, add32_eq]
      omega
    rw [hs, h2, hn0, hr, toInt32_low (by omega), toInt32_low h, tdiv_four_nonneg _ (by omega)]
    constructor
    · omega
    · norm_cast
  · have h' : 2147483648 ≤ y := by omega
    have hs : sar32 y 31 = 4294967295 := by
      rw [sar32_high 31 h']
      norm_num
      omega
    rw [hs, hn1, Nat.zero_and, all_ones_and, toInt32_high h', tdiv_four_neg _ (by omega)]
    by_cases hw : y + 3 < 4294967296
    · have ha : add32 y 3 = y + 3 := by
        rw [add32_eq]
        omega
      have h2 : sar32 (y + 3) 2 = (y + 3) / 4 + 3221225472 := by
        rw [sar32_high 2 (by omega)]
        norm_num
      have hr : add32 (((y + 3) / 4 + 3221225472) % 4294967296) 0 =
          (y + 3) / 4 + 3221225472 := by
        rw [add32_eq]
        omega
      rw [ha, h2, hr, toInt32_high (by omega)]
      constructor
      · omega
      · push_cast
        omega
    · have ha : add32 y 3 = y + 3 - 4294967296 := by
        rw [add32_eq]
        omega
      have h2 : sar32 (y + 3 - 4294967296) 2 = 0 := by
        rw [sar32_low 2 (by omega)]
        norm_num
        omega
      have hr : add32 (0 % 4294967296) 0 = 0 := by decide
      rw [ha, h2, hr, toInt32_low (by omega)]
      constructor
      · omega
      · push_cast
        omega

/-- C26 at concrete inputs: the three examples of the source. -/
theorem ezThreeFourths_is_times_three_quarters_witness :
    toInt32 (ezThreeFourths 11) = 8 ∧ toInt32 (ezThreeFourths (neg32 9)) = -6 ∧
    toInt32 (ezThreeFourths 1073741824) = -268435456 ∧
    toInt32 (ezThreeFourths 1073741824) = Int.tdiv (toInt32 (3 * 1073741824 % 2 ^ 32)) 4 :=
  ⟨by decide, by decide, by decide,
   (ezThreeFourths_is_times_three_quarters 1073741824 (by norm_num)).2⟩

/-- C27, as stated, fails in its second example: the reverse of `0x89ABCDEF` is
`0xF7B3D591`, and that is what `bitReverse` returns, not `0xF7D3D591`. The two patterns
differ in bits 21 and 22, and bits 21 and 22 of the result are bits 10 and 9 of the
argument. -/
theorem bitReverse_second_example :
    bitReverse 0x89ABCDEF = 0xF7B3D591 ∧ bitReverse 0x89ABCDEF ≠ 0xF7D3D591 ∧
    (bitReverse 0x89ABCDEF).testBit 21 = Nat.testBit 0x89ABCDEF 10 ∧
    Nat.testBit 0xF7D3D591 21 ≠ Nat.testBit 0x89ABCDEF 10 := by
  decide

/-- C27 as amended: for every 32-bit word `x` and every `i` in 0..31, bit `i` of
`bitReverse x` is bit `31 - i` of `x`; the result is a 32-bit word, and
`bitReverse (bitReverse x) = x`. The examples are `bitReverse 0x80000002 = 0x40000001`
and `bitReverse 0x89ABCDEF = 0xF7B3D591`. -/
theorem bitReverse_reverses (x : Nat) (hx : x < 2 ^ 32) :
    bitReverse x < 2 ^ 32 ∧
    (∀ i, i < 32 → (bitReverse x).testBit i = x.testBit (31 - i)) ∧
    bitReverse (bitReverse x) = x ∧
    bitReverse 0x80000002 = 0x40000001 ∧ bitReverse 0x89ABCDEF = 0xF7B3D591 := by
  have e : (2 : Nat) ^ 32 = 4294967296 := by norm_num
  refine ⟨by rw [e]; exact bitReverse_lt x, fun i hi => bitReverse_testBit x i hi, ?_,
    by decide, by decide⟩
  apply Nat.eq_of_testBit_eq
  intro i
  by_cases hi : i < 32
  · rw [bitReverse_testBit _ _ hi, bitReverse_testBit _ _ (by omega)]
    congr 1
    omega
  · have h1 : bitReverse (bitReverse x) < 2 ^ i :=
      lt_of_lt_of_le (by rw [e]; exact bitReverse_lt _)
        (Nat.pow_le_pow_right (by norm_num) (by omega))
    have h2 : x < 2 ^ i := lt_of_lt_of_le hx (Nat.pow_le_pow_right (by norm_num) (by omega))
    rw [Nat.testBit_lt_two_pow h1, Nat.testBit_lt_two_pow h2]

/-- C27 as amended, at a concrete input: the first example of the source. -/
theorem bitReverse_reverses_witness :
    bitReverse 0x80000002 < 2 ^ 32 ∧
    (∀ i, i < 32 → (bitReverse 0x80000002).testBit i = Nat.testBit 0x80000002 (31 - i)) ∧
    bitReverse (bitReverse 0x80000002) = 0x80000002 :=
  have h := bitReverse_reverses 0x80000002 (by norm_num)
  ⟨h.1, h.2.1, h.2.2.1⟩

/-- C24 (`float_f2i`). For every 32-bit pattern `uf`, `float_f2i uf` is `0x80000000`
when the exponent field is 255 (NaN, infinity) or the magnitude is `2 ^ 31` or more,
and otherwise it is the two's complement pattern of the encoded number rounded toward
zero; it is 0 for every exponent field below 127 (zeros, denormals, magnitudes below
1). -/
theorem float_f2i_is_cast (uf : Nat) (_huf : uf < 2 ^ 32) :
    (exp_field uf = 255 ∨ (2 : ℚ) ^ 31 ≤ float_magnitude uf → float_f2i uf = 0x80000000) ∧
    (exp_field uf ≠ 255 → float_magnitude uf < (2 : ℚ) ^ 31 →
      toInt32 (float_f2i uf) = trunc (float_real uf)) ∧
    (exp_field uf < 127 → float_f2i uf = 0) := by
  have hE := exp_field_lt uf
  refine ⟨?_, ?_, ?_⟩
  · intro h
    rw [float_f2i_eq, if_pos]
    rcases h with h | h
    · exact Or.inl h
    · exact Or.inr ((float_magnitude_large uf).mp h)
  · intro h1 h2
    have h3 : ¬ (158 ≤ exp_field uf) := fun h => absurd ((float_magnitude_large uf).mpr h)
      (not_le.mpr h2)
    have hfl := floor_float_magnitude uf
    have hnn := float_magnitude_nonneg uf
    rw [float_f2i_eq, if_neg (by omega)]
    unfold float_real
    by_cases h4 : exp_field uf < 127
    · rw [if_pos h4, scaled_magnitude_small uf h4] at *
      have e0 : toInt32 0 = 0 := by decide
      rw [e0]
      split
      · rw [trunc_neg _ hnn, hfl]
        simp
      · rw [trunc_nonneg _ hnn, hfl]
        simp
    · rw [if_neg h4, scaled_magnitude_div uf (by omega)] at *
      have hlt := shifted_significand_lt uf (by omega)
      split
      · rw [trunc_neg _ hnn, hfl, toInt32_neg32 _ hlt]
      · rw [trunc_nonneg _ hnn, hfl, toInt32_low hlt]
  · intro h
    rw [float_f2i_eq, if_neg (by omega), if_pos h]

/-- C24 at concrete inputs: `-5.0` and the largest single below `2 ^ 31`. -/
theorem float_f2i_is_cast_witness :
    toInt32 (float_f2i 0xC0A00000) = trunc (float_real 0xC0A00000) ∧
    toInt32 (float_f2i 0xC0A00000) = -5 ∧
    float_f2i 0x4EFFFFFF = 2147483520 ∧ float_f2i 0x4F000000 = 0x80000000 ∧
    float_f2i 0x7FC00000 = 0x80000000 ∧ float_f2i 0x3F7FFFFF = 0 :=
  ⟨(float_f2i_is_cast 0xC0A00000 (by norm_num)).2.1 (by decide)
      (lt_of_not_le (fun h => absurd ((float_magnitude_large _).mp h) (by decide))),
   by decide, by decide, by decide, by decide, by decide⟩

/-- C25 (`float_twice`). For every 32-bit pattern `uf`: with the exponent field 255
(NaN, infinity) the result is `uf`; otherwise the sign bit is kept, and the result
encodes twice the number that `uf` encodes. For the exponent field 0 the fraction is
doubled, running over into the exponent field; from 1 to 253 the exponent field grows
by one and the fraction is kept; for 254 the result is the infinity of that sign, with
the exponent field 255 and the fraction 0. -/
theorem float_twice_doubles (uf : Nat) (huf : uf < 2 ^ 32) :
    (exp_field uf = 255 → float_twice uf = uf) ∧
    (exp_field uf ≠ 255 → float_twice uf < 2 ^ 32 ∧
      sign_bit (float_twice uf) = sign_bit uf) ∧
    (exp_field uf < 254 → exp_field (float_twice uf) ≠ 255 ∧
      float_real (float_twice uf) = 2 * float_real uf) ∧
    (exp_field uf = 0 → float_twice uf % 2 ^ 31 = 2 * frac_field uf) ∧
    (0 < exp_field uf → exp_field uf < 254 →
      exp_field (float_twice uf) = exp_field uf + 1 ∧
      frac_field (float_twice uf) = frac_field uf) ∧
    (exp_field uf = 254 → exp_field (float_twice uf) = 255 ∧
      frac_field (float_twice uf) = 0) := by
  have e32 : (2 : Nat) ^ 32 = 4294967296 := by norm_num
  rw [e32] at huf ⊢
  have hE := exp_field_lt uf
  have hF := frac_field_lt uf
  have hS := sign_bit_cases uf
  have heq := float_twice_eq uf huf
  have case0 : exp_field uf = 0 →
      float_twice uf = sign_bit uf * 2147483648 + 2 * frac_field uf := by
    intro h
    rw [heq, if_neg (by omega), if_pos h]
  have case1 : 0 < exp_field uf → exp_field uf < 254 → float_twice uf =
      sign_bit uf * 2147483648 + ((exp_field uf + 1) * 8388608 + frac_field uf) := by
    intro h1 h2
    rw [heq, if_neg (by omega), if_neg (by omega), if_neg (by omega), Nat.add_assoc]
  have case2 : exp_field uf = 254 →
      float_twice uf = sign_bit uf * 2147483648 + 255 * 8388608 := by
    intro h
    rw [heq, if_neg (by omega), if_neg (by omega), if_pos h]
  have f0 := fields_of_sum (sign_bit uf) (2 * frac_field uf) hS (by omega)
  have f1 := fields_of_sum (sign_bit uf) ((exp_field uf + 1) * 8388608 + frac_field uf) hS
  have f2 := fields_of_sum (sign_bit uf) (255 * 8388608) hS (by norm_num)
  refine ⟨?_, ?_, ?_, ?_, ?_, ?_⟩
  · intro h
    rw [heq, if_pos h]
  · intro h
    by_cases h0 : exp_field uf = 0
    · rw [case0 h0]
      exact ⟨by omega, f0.1⟩
    · by_cases h2 : exp_field uf = 254
      · rw [case2 h2]
        exact ⟨by omega, f2.1⟩
      · rw [case1 (by omega) (by omega)]
        exact ⟨by omega, (f1 (by omega)).1⟩
  · intro h
    by_cases h0 : exp_field uf = 0
    · have hr := case0 h0
      have he : exp_field (float_twice uf) = 2 * frac_field uf / 8388608 := by
        rw [hr]; exact f0.2.1
      have hfr : frac_field (float_twice uf) = 2 * frac_field uf % 8388608 := by
        rw [hr]; exact f0.2.2
      have hs : sign_bit (float_twice uf) = sign_bit uf := by rw [hr]; exact f0.1
      refine ⟨by omega, float_real_double _ _ hs ?_⟩
      unfold scaled_magnitude
      rw [he, hfr, if_pos h0]
      by_cases hc : 2 * frac_field uf < 8388608
      · rw [if_pos (by omega)]
        omega
      · have h1 : 2 * frac_field uf / 8388608 = 1 := by omega
        rw [if_neg (by omega), h1]
        norm_num
        omega
    · have hr := case1 (by omega) h
      have hb := f1 (by omega)
      have he : exp_field (float_twice uf) = exp_field uf + 1 := by
        rw [hr, hb.2.1]; omega
      have hfr : frac_field (float_twice uf) = frac_field uf := by
        rw [hr, hb.2.2]; omega
      have hs : sign_bit (float_twice uf) = sign_bit uf := by rw [hr]; exact hb.1
      refine ⟨by omega, float_real_double _ _ hs ?_⟩
      unfold scaled_magnitude
      rw [he, hfr, if_neg (by omega), if_neg h0, pow_succ]
      ring
  · intro h0
    rw [case0 h0]
    norm_num
    rcases hS with hS | hS <;> rw [hS] <;> omega
  · intro h1 h2
    have hr := case1 h1 h2
    have hb := f1 (by omega)
    rw [hr, hb.2.1, hb.2.2]
    constructor <;> omega
  · intro h
    rw [case2 h, f2.2.1, f2.2.2]
    constructor <;> norm_num

/-- C25 at concrete inputs: `1.5`, a denormal whose double is normalized, the largest
finite single, and a NaN. -/
theorem float_twice_doubles_witness :
    float_real (float_twice 0x3FC00000) = 2 * float_real 0x3FC00000 ∧
    float_twice 0x3FC00000 = 0x40400000 ∧ float_twice 0x00400001 = 0x00800002 ∧
    float_twice 0x7F7FFFFF = 0x7F800000 ∧ float_twice 0xFF7FFFFF = 0xFF800000 ∧
    float_twice 0x7FC00000 = 0x7FC00000 ∧ float_twice 0x80000000 = 0x80000000 :=
  ⟨((float_twice_doubles 0x3FC00000 (by norm_num)).2.2.1 (by decide)).2,
   by decide, by decide, by decide, by decide, by decide, by decide⟩

end DataPlay

namespace LRUcache

/-! ## The loops of `visit_cache` -/

theorem hit_loop_none (lines : List cache_line) (tag cnt : Nat) :
    ∀ n i, i + n = lines.length →
      (∀ j l, i ≤ j → lines[j]? = some l → ¬ (l.valid = 1 ∧ l.tag = tag)) →
      hit_loop lines tag cnt n i = some none := by
  intro n
  induction n with
  | zero => intro i _ _; rfl
  | succ n ih =>
    intro i hlen hno
    have hi : i < lines.length := by omega
    unfold hit_loop
    rw [List.getElem?_eq_getElem hi]
    simp only
    rw [if_neg (hno i _ (le_refl i) (List.getElem?_eq_getElem hi))]
    exact ih (i + 1) (by omega) (fun j l hj => hno j l (by omega))

theorem hit_loop_some (lines : List cache_line) (tag cnt : Nat) (j : Nat) (l : cache_line)
    (hj : lines[j]? = some l) (hm : l.valid = 1 ∧ l.tag = tag) :
    ∀ n i, i + n = lines.length → i ≤ j →
      (∀ k l', i ≤ k → k < j → lines[k]? = some l' → ¬ (l'.valid = 1 ∧ l'.tag = tag)) →
      hit_loop lines tag cnt n i =
        some (some (lines.set j { l with access_time := cnt })) := by
  intro n
  induction n with
  | zero =>
    intro i hlen hij _
    have : j < lines.length := by
      by_contra hc
      rw [List.getElem?_eq_none (by omega)] at hj
      exact Option.noConfusion hj
    omega
  | succ n ih =>
    intro i hlen hij hno
    have hi : i < lines.length := by omega
    unfold hit_loop
    rw [List.getElem?_eq_getElem hi]
    simp only
    by_cases hij2 : i = j
    · subst hij2
      rw [List.getElem?_eq_getElem hi] at hj
      injection hj with hj
      rw [hj, if_pos hm]
    · rw [if_neg (hno i _ (le_refl i) (by omega) (List.getElem?_eq_getElem hi))]
      exact ih (i + 1) (by omega) (by omega) (fun k l' hk => hno k l' (by omega))

theorem fill_loop_none (lines : List cache_line) (tag cnt : Nat) :
    ∀ n i, i + n = lines.length →
      (∀ j l, i ≤ j → lines[j]? = some l → ¬ (l.valid = 0)) →
      fill_loop lines tag cnt n i = some none := by
  intro n
  induction n with
  | zero => intro i _ _; rfl
  | succ n ih =>
    intro i hlen hno
    have hi : i < lines.length := by omega
    unfold fill_loop
    rw [List.getElem?_eq_getElem hi]
    simp only
    rw [if_neg (hno i _ (le_refl i) (List.getElem?_eq_getElem hi))]
    exact ih (i + 1) (by omega) (fun j l hj => hno j l (by omega))

theorem fill_loop_some (lines : List cache_line) (tag cnt : Nat) (j : Nat) (l : cache_line)
    (hj : lines[j]? = some l) (hm : l.valid = 0) :
    ∀ n i, i + n = lines.length → i ≤ j →
      (∀ k l', i ≤ k → k < j → lines[k]? = some l' → ¬ (l'.valid = 0)) →
      fill_loop lines tag cnt n i =
        some (some (lines.set j { valid := 1, tag := tag, access_time := cnt })) := by
  intro n
  induction n with
  | zero =>
    intro i hlen hij _
    have : j < lines.length := by
      by_contra hc
      rw [List.getElem?_eq_none (by omega)] at hj
      exact Option.noConfusion hj
    omega
  | succ n ih =>
    intro i hlen hij hno
    have hi : i < lines.length := by omega
    unfold fill_loop
    rw [List.getElem?_eq_getElem hi]
    simp only
    by_cases hij2 : i = j
    · subst hij2
      rw [List.getElem?_eq_getElem hi] at hj
      injection hj with hj
      rw [hj, if_pos hm]
    · rw [if_neg (hno i _ (le_refl i) (by omega) (List.getElem?_eq_getElem hi))]
      exact ih (i + 1) (by omega) (by omega) (fun k l' hk => hno k l' (by omega))

theorem time_at_eq {lines : List cache_line} {i : Nat} {l : cache_line}
    (h : lines[i]? = some l) : time_at lines i = l.access_time := by
  unfold time_at
  rw [h]

theorem tag_at_eq {lines : List cache_line} {i : Nat} {l : cache_line}
    (h : lines[i]? = some l) : tag_at lines i = l.tag := by
  unfold tag_at
  rw [h]

theorem LRU_earliest_loop_spec (lines : List cache_line) :
    ∀ n i min_time idx, i + n = lines.length → idx < i → time_at lines idx = min_time →
      (∀ k, k < i → min_time ≤ time_at lines k) →
      ∃ r, LRU_earliest_loop lines n i min_time idx = some r ∧ r < lines.length ∧
        ∀ k, k < lines.length → time_at lines r ≤ time_at lines k := by
  intro n
  induction n with
  | zero =>
    intro i min_time idx hlen hidx hmin hall
    refine ⟨idx, rfl, by omega, ?_⟩
    intro k hk
    rw [hmin]
    exact hall k (by omega)
  | succ n ih =>
    intro i min_time idx hlen hidx hmin hall
    have hi : i < lines.length := by omega
    unfold LRU_earliest_loop
    rw [List.getElem?_eq_getElem hi]
    simp only
    have ht : time_at lines i = (lines[i]).access_time :=
      time_at_eq (List.getElem?_eq_getElem hi)
    split
    · rename_i hlt
      apply ih (i + 1) _ i (by omega) (by omega) ht
      intro k hk
      by_cases hki : k = i
      · rw [hki, ht]
      · have := hall k (by omega)
        omega
    · rename_i hlt
      apply ih (i + 1) min_time idx (by omega) (by omega) hmin
      intro k hk
      by_cases hki : k = i
      · rw [hki, ht]
        omega
      · exact hall k (by omega)

theorem LRU_earliest_spec (para : cache_parameter) (lines : List cache_line)
    (hlen : lines.length = para.E) (hE : 1 ≤ para.E) :
    ∃ r, LRU_earliest para lines = some r ∧ r < lines.length ∧
      ∀ k, k < lines.length → time_at lines r ≤ time_at lines k := by
  have h0 : 0 < lines.length := by omega
  unfold LRU_earliest
  rw [List.getElem?_eq_getElem h0]
  simp only
  apply LRU_earliest_loop_spec lines (para.E - 1) 1 _ 0 (by omega) (by omega)
    (time_at_eq (List.getElem?_eq_getElem h0))
  intro k hk
  have : k = 0 := by omega
  rw [this, time_at_eq (List.getElem?_eq_getElem h0)]

/-! ## A set of the simulator and a set of the reference cache -/

theorem lt_of_getElem? {lines : List cache_line} {i : Nat} {l : cache_line}
    (h : lines[i]? = some l) : i < lines.length := by
  by_contra hc
  rw [List.getElem?_eq_none (by omega)] at h
  exact Option.noConfusion h

theorem tag_at_set_ne (lines : List cache_line) (j i : Nat) (new : cache_line) (h : i ≠ j) :
    tag_at (lines.set j new) i = tag_at lines i := by
  unfold tag_at
  rw [List.getElem?_set_ne (Ne.symm h)]

theorem time_at_set_ne (lines : List cache_line) (j i : Nat) (new : cache_line) (h : i ≠ j) :
    time_at (lines.set j new) i = time_at lines i := by
  unfold time_at
  rw [List.getElem?_set_ne (Ne.symm h)]

theorem tag_at_set_self (lines : List cache_line) (j : Nat) (new : cache_line)
    (h : j < lines.length) : tag_at (lines.set j new) j = new.tag := by
  unfold tag_at
  rw [List.getElem?_set_self h]

theorem time_at_set_self (lines : List cache_line) (j : Nat) (new : cache_line)
    (h : j < lines.length) : time_at (lines.set j new) j = new.access_time := by
  unfold time_at
  rw [List.getElem?_set_self h]

theorem set_rel_mem_lt {E : Nat} {lines : List cache_line} {L idxs : List Nat}
    (hrel : set_rel E lines L idxs) {i : Nat} (hi : i ∈ idxs) : i < E := by
  obtain ⟨l, hl, _⟩ := (hrel.valid_iff i).mp hi
  have := lt_of_getElem? hl
  rw [hrel.len] at this
  exact this

theorem set_rel_inj {E : Nat} {lines : List cache_line} {L idxs : List Nat}
    (hrel : set_rel E lines L idxs) {i j : Nat} (hi : i ∈ idxs) (hj : j ∈ idxs)
    (h : tag_at lines i = tag_at lines j) : i = j := by
  have hn := hrel.tags_nodup
  rw [hrel.tags] at hn
  exact List.inj_on_of_nodup_map hn hi hj h

theorem map_congr_mem {f g : Nat → Nat} {l : List Nat} (h : ∀ i ∈ l, f i = g i) :
    l.map f = l.map g := List.map_congr_left h

/-- The set after line `j` is given the tag `u` and the time `cnt`, `rest` being the
other valid lines in their order. -/
theorem set_rel_update {E : Nat} {lines : List cache_line} {L idxs rest : List Nat}
    (hrel : set_rel E lines L idxs) (j u cnt : Nat) (new : cache_line) (hj : j < E)
    (hsub : rest.Sublist idxs) (hjr : j ∉ rest) (hmem : ∀ i, i ∈ idxs → i ≠ j → i ∈ rest)
    (hu : u ∉ rest.map (tag_at lines)) (ht : ∀ i ∈ rest, time_at lines i < cnt)
    (hv : new.valid = 1) (htag : new.tag = u) (htime : new.access_time = cnt) :
    set_rel E (lines.set j new) (u :: rest.map (tag_at lines)) (j :: rest) := by
  have hjl : j < lines.length := by rw [hrel.len]; exact hj
  have hne : ∀ i ∈ rest, i ≠ j := fun i hi e => hjr (e ▸ hi)
  refine ⟨?_, ?_, ?_, ?_, ?_, ?_, ?_⟩
  · rw [List.length_set]
    exact hrel.len
  · exact List.nodup_cons.mpr ⟨hjr, hrel.nodup.sublist hsub⟩
  · intro i
    by_cases hij : i = j
    · subst hij
      constructor
      · intro _
        exact ⟨new, List.getElem?_set_self hjl, hv⟩
      · intro _
        exact List.mem_cons_self _ _
    · rw [List.getElem?_set_ne (Ne.symm hij), ← hrel.valid_iff i]
      constructor
      · intro h
        rcases List.mem_cons.mp h with h | h
        · exact absurd h hij
        · exact hsub.subset h
      · intro h
        exact List.mem_cons_of_mem _ (hmem i h hij)
  · intro i l hl
    by_cases hij : i = j
    · subst hij
      rw [List.getElem?_set_self hjl] at hl
      injection hl with hl
      rw [← hl]
      exact Or.inr hv
    · rw [List.getElem?_set_ne (Ne.symm hij)] at hl
      exact hrel.bits i l hl
  · rw [List.map_cons, tag_at_set_self _ _ _ hjl, htag]
    congr 1
    exact map_congr_mem (fun i hi => (tag_at_set_ne lines j i new (hne i hi)).symm)
  · exact List.nodup_cons.mpr ⟨hu, by
      have hn := hrel.tags_nodup
      rw [hrel.tags] at hn
      exact hn.sublist (hsub.map _)⟩
  · refine List.pairwise_cons.mpr ⟨?_, ?_⟩
    · intro i hi
      rw [time_at_set_self _ _ _ hjl, htime, time_at_set_ne _ _ _ _ (hne i hi)]
      exact ht i hi
    · refine List.Pairwise.imp_of_mem ?_ (hrel.order.sublist hsub)
      intro a b ha hb hab
      rw [time_at_set_ne _ _ _ _ (hne a ha), time_at_set_ne _ _ _ _ (hne b hb)]
      exact hab

theorem map_erase_of_nodup (f : Nat → Nat) :
    ∀ (l : List Nat) (j : Nat), (l.map f).Nodup → j ∈ l →
      (l.erase j).map f = (l.map f).erase (f j) := by
  intro l
  induction l with
  | nil => intro j _ h; exact absurd h (List.not_mem_nil j)
  | cons a l ih =>
    intro j hn hj
    rw [List.map_cons, List.nodup_cons] at hn
    by_cases haj : a = j
    · subst haj
      rw [List.erase_cons_head, List.map_cons, List.erase_cons_head]
    · have hjl : j ∈ l := by
        rcases List.mem_cons.mp hj with h | h
        · exact absurd h.symm haj
        · exact h
      have hf : f a ≠ f j := by
        intro e
        apply hn.1
        rw [e]
        exact List.mem_map_of_mem f hjl
      rw [List.erase_cons_tail (by simpa using haj), List.map_cons, List.map_cons,
        List.erase_cons_tail (by simpa using hf), ih j hn.2 hjl]

/-- There is an invalid line exactly when the reference set is not full. -/
theorem invalid_iff_not_full {E : Nat} {lines : List cache_line} {L idxs : List Nat}
    (hrel : set_rel E lines L idxs) :
    (∃ (i : Nat) (l : cache_line), lines[i]? = some l ∧ l.valid = 0) ↔ L.length < E := by
  have hlen : L.length = idxs.length := by rw [hrel.tags, List.length_map]
  rw [hlen]
  constructor
  · rintro ⟨i, l, hl, hv⟩
    have hi : i < E := by
      have := lt_of_getElem? hl
      rw [hrel.len] at this
      exact this
    have hni : i ∉ idxs := by
      intro hmem
      obtain ⟨l', hl', hv'⟩ := (hrel.valid_iff i).mp hmem
      rw [hl] at hl'
      injection hl' with hl'
      rw [← hl'] at hv'
      omega
    have hsub : idxs ⊆ (List.range E).erase i := by
      intro k hk
      have hki : k ≠ i := fun e => hni (by rw [← e]; exact hk)
      rw [List.mem_erase_of_ne hki, List.mem_range]
      exact set_rel_mem_lt hrel hk
    have h1 := (hrel.nodup.subperm hsub).length_le
    rw [List.length_erase_of_mem (List.mem_range.mpr hi), List.length_range] at h1
    omega
  · intro h
    by_contra hc
    have hall : List.range E ⊆ idxs := by
      intro k hk
      rw [List.mem_range] at hk
      have hkl : k < lines.length := by rw [hrel.len]; exact hk
      rw [hrel.valid_iff k]
      refine ⟨lines[k], List.getElem?_eq_getElem hkl, ?_⟩
      rcases hrel.bits k _ (List.getElem?_eq_getElem hkl) with h0 | h1
      · exact absurd ⟨k, _, List.getElem?_eq_getElem hkl, h0⟩ hc
      · exact h1
    have h1 := ((List.nodup_range E).subperm hall).length_le
    rw [List.length_range] at h1
    omega

theorem list_set_same {α : Type} (lines : List α) (j : Nat) (l : α)
    (h : lines[j]? = some l) : lines.set j l = lines := by
  apply List.ext_getElem?
  intro k
  rw [List.getElem?_set]
  split
  · rename_i hjk
    subst hjk
    have hlt : j < lines.length := by
      by_contra hn
      rw [List.getElem?_eq_none (Nat.le_of_not_lt hn)] at h
      exact absurd h (by simp)
    rw [if_pos hlt, h]
  · rfl

/-- An access that finds its tag in the set. -/
theorem set_visit_hit {para : cache_parameter} {lines : List cache_line} {L idxs : List Nat}
    (u cnt : Nat) (hrel : set_rel para.E lines L idxs)
    (ht : ∀ i ∈ idxs, time_at lines i < cnt) (hu : u ∈ L) :
    ∃ lines' idxs', hit_loop lines u cnt para.E 0 = some (some lines') ∧
      visited para.E lines' (u :: L.erase u) idxs' u cnt := by
  have hu2 := hu
  rw [hrel.tags, List.mem_map] at hu2
  obtain ⟨j, hj, hjt⟩ := hu2
  obtain ⟨l, hl, hv⟩ := (hrel.valid_iff j).mp hj
  have hlt : l.tag = u := by rw [← tag_at_eq hl]; exact hjt
  have hloop := hit_loop_some lines u cnt j l hl ⟨hv, hlt⟩ para.E 0
    (by rw [hrel.len]; omega) (Nat.zero_le j) (by
      intro k l' _ hkj hl' hm
      have hk : k ∈ idxs := (hrel.valid_iff k).mpr ⟨l', hl', hm.1⟩
      have hkt : tag_at lines k = tag_at lines j := by
        rw [tag_at_eq hl', hm.2, hjt]
      have := set_rel_inj hrel hk hj hkt
      omega)
  have hjE := set_rel_mem_lt hrel hj
  have hjl : j < lines.length := lt_of_getElem? hl
  have hn := hrel.tags_nodup
  have hmap : (idxs.erase j).map (tag_at lines) = L.erase u := by
    rw [hrel.tags, ← hjt]
    exact map_erase_of_nodup (tag_at lines) idxs j (by rw [← hrel.tags]; exact hn) hj
  have hupd := set_rel_update hrel j u cnt { l with access_time := cnt } hjE
    (List.erase_sublist j idxs) (hrel.nodup.not_mem_erase)
    (fun i hi hij => (List.mem_erase_of_ne hij).mpr hi)
    (by rw [hmap]; exact hn.not_mem_erase)
    (fun i hi => ht i ((List.erase_sublist j idxs).subset hi)) hv hlt rfl
  rw [hmap] at hupd
  refine ⟨_, _, hloop, hupd, ?_, j, idxs.erase j, rfl, ?_, ?_⟩
  · intro i hi
    rcases List.mem_cons.mp hi with h | h
    · rw [h, time_at_set_self _ _ _ hjl]
    · have hij : i ≠ j := fun e => hrel.nodup.not_mem_erase (e ▸ h)
      rw [time_at_set_ne _ _ _ _ hij]
      exact Nat.le_of_lt (ht i ((List.erase_sublist j idxs).subset h))
  · rw [tag_at_set_self _ _ _ hjl]
    exact hlt
  · rw [time_at_set_self _ _ _ hjl]

/-- An access that does not find its tag in the set: the first loop finds nothing. -/
theorem set_visit_no_hit {para : cache_parameter} {lines : List cache_line}
    {L idxs : List Nat} (u cnt : Nat) (hrel : set_rel para.E lines L idxs) (hu : u ∉ L) :
    hit_loop lines u cnt para.E 0 = some none := by
  apply hit_loop_none lines u cnt para.E 0 (by rw [hrel.len]; omega)
  intro j l _ hl hm
  apply hu
  rw [hrel.tags, List.mem_map]
  exact ⟨j, (hrel.valid_iff j).mpr ⟨l, hl, hm.1⟩, by rw [tag_at_eq hl]; exact hm.2⟩

/-- A miss in a set that is not full. -/
theorem set_visit_fill {para : cache_parameter} {lines : List cache_line} {L idxs : List Nat}
    (u cnt : Nat) (hrel : set_rel para.E lines L idxs)
    (ht : ∀ i ∈ idxs, time_at lines i < cnt) (hu : u ∉ L) (hfull : L.length < para.E) :
    ∃ lines' idxs', fill_loop lines u cnt para.E 0 = some (some lines') ∧
      visited para.E lines' (u :: L) idxs' u cnt := by
  have hex : ∃ i, ∃ l : cache_line, lines[i]? = some l ∧ l.valid = 0 :=
    (invalid_iff_not_full hrel).mpr hfull
  classical
  let j := Nat.find hex
  obtain ⟨l, hl, hv⟩ := Nat.find_spec hex
  have hmin : ∀ k, k < j → ¬ ∃ l : cache_line, lines[k]? = some l ∧ l.valid = 0 :=
    fun k hk => Nat.find_min hex hk
  have hloop := fill_loop_some lines u cnt j l hl hv para.E 0
    (by rw [hrel.len]; omega) (Nat.zero_le j) (by
      intro k l' _ hkj hl' hm
      exact hmin k hkj ⟨l', hl', hm⟩)
  have hjl : j < lines.length := lt_of_getElem? hl
  have hjE : j < para.E := by rw [← hrel.len]; exact hjl
  have hji : j ∉ idxs := by
    intro hmem
    obtain ⟨l', hl', hv'⟩ := (hrel.valid_iff j).mp hmem
    rw [hl] at hl'
    injection hl' with hl'
    rw [← hl'] at hv'
    omega
  have hupd := set_rel_update hrel j u cnt { valid := 1, tag := u, access_time := cnt } hjE
    (List.Sublist.refl idxs) hji (fun i hi _ => hi)
    (by rw [← hrel.tags]; exact hu) ht rfl rfl rfl
  rw [← hrel.tags] at hupd
  refine ⟨_, _, hloop, hupd, ?_, j, idxs, rfl, ?_, ?_⟩
  · intro i hi
    rcases List.mem_cons.mp hi with h | h
    · rw [h, time_at_set_self _ _ _ hjl]
    · have hij : i ≠ j := fun e => hji (e ▸ h)
      rw [time_at_set_ne _ _ _ _ hij]
      exact Nat.le_of_lt (ht i h)
  · rw [tag_at_set_self _ _ _ hjl]
  · rw [time_at_set_self _ _ _ hjl]

/-- A miss in a full set: the second loop finds nothing, and `LRU_earliest` finds the
line of the least recently accessed tag. -/
theorem set_visit_evict {para : cache_parameter} {lines : List cache_line}
    {L idxs : List Nat} (u cnt : Nat) (hrel : set_rel para.E lines L idxs)
    (hE : 1 ≤ para.E) (ht : ∀ i ∈ idxs, time_at lines i < cnt) (hu : u ∉ L)
    (hfull : ¬ L.length < para.E) :
    fill_loop lines u cnt para.E 0 = some none ∧
    ∃ r idxs', LRU_earliest para lines = some r ∧ r < lines.length ∧
      visited para.E (lines.set r { valid := 1, tag := u, access_time := cnt })
        (u :: L.dropLast) idxs' u cnt := by
  have hnone : ¬ ∃ (i : Nat) (l : cache_line), lines[i]? = some l ∧ l.valid = 0 :=
    fun h => hfull ((invalid_iff_not_full hrel).mp h)
  have hall : ∀ k, k < para.E → k ∈ idxs := by
    intro k hk
    have hkl : k < lines.length := by rw [hrel.len]; exact hk
    rw [hrel.valid_iff k]
    refine ⟨lines[k], List.getElem?_eq_getElem hkl, ?_⟩
    rcases hrel.bits k _ (List.getElem?_eq_getElem hkl) with h0 | h1
    · exact absurd ⟨k, _, List.getElem?_eq_getElem hkl, h0⟩ hnone
    · exact h1
  constructor
  · apply fill_loop_none lines u cnt para.E 0 (by rw [hrel.len]; omega)
    intro j l _ hl hm
    exact hnone ⟨j, l, hl, hm⟩
  · obtain ⟨r, hr, hrl, hrmin⟩ := LRU_earliest_spec para lines hrel.len hE
    have hne : idxs ≠ [] := by
      intro e
      have := hall 0 (by omega)
      rw [e] at this
      exact absurd this (List.not_mem_nil 0)
    have hsplit := List.dropLast_append_getLast hne
    have hord := hrel.order
    rw [← hsplit, List.pairwise_append] at hord
    have hnd := hrel.nodup
    rw [← hsplit, List.nodup_append] at hnd
    have hrE : r < para.E := by rw [← hrel.len]; exact hrl
    have hlastE : idxs.getLast hne < para.E :=
      set_rel_mem_lt hrel (List.getLast_mem hne)
    have hrlast : r = idxs.getLast hne := by
      have hmem : r ∈ idxs.dropLast ++ [idxs.getLast hne] := by
        rw [hsplit]; exact hall r hrE
      rcases List.mem_append.mp hmem with h | h
      · have h1 := hord.2.2 r h (idxs.getLast hne) (List.mem_singleton_self _)
        have h2 := hrmin (idxs.getLast hne) (by rw [hrel.len]; exact hlastE)
        omega
      · exact List.mem_singleton.mp h
    have hjr : r ∉ idxs.dropLast := by
      intro h
      exact hnd.2.2 h (by rw [hrlast]; exact List.mem_singleton_self _)
    have hmap : idxs.dropLast.map (tag_at lines) = L.dropLast := by
      rw [hrel.tags, List.map_dropLast]
    have hupd := set_rel_update hrel r u cnt { valid := 1, tag := u, access_time := cnt } hrE
      (List.dropLast_sublist idxs) hjr
      (by
        intro i hi hir
        rw [← hsplit] at hi
        rcases List.mem_append.mp hi with h | h
        · exact h
        · exact absurd (by rw [hrlast]; exact List.mem_singleton.mp h) hir)
      (by
        rw [hmap]
        intro h
        exact hu ((List.dropLast_sublist L).subset h))
      (fun i hi => ht i ((List.dropLast_sublist idxs).subset hi)) rfl rfl rfl
    rw [hmap] at hupd
    refine ⟨r, r :: idxs.dropLast, hr, hrl, hupd, ?_, r, idxs.dropLast, rfl, ?_, ?_⟩
    · intro i hi
      rcases List.mem_cons.mp hi with h | h
      · rw [h, time_at_set_self _ _ _ hrl]
      · have hij : i ≠ r := fun e => hjr (e ▸ h)
        rw [time_at_set_ne _ _ _ _ hij]
        exact Nat.le_of_lt (ht i ((List.dropLast_sublist idxs).subset h))
    · rw [tag_at_set_self _ _ _ hrl]
    · rw [time_at_set_self _ _ _ hrl]

/-- A second access to the tag at the same time: a hit that changes nothing. -/
theorem set_revisit {para : cache_parameter} {lines : List cache_line} {L idxs : List Nat}
    {u cnt : Nat} (h : visited para.E lines L idxs u cnt) :
    hit_loop lines u cnt para.E 0 = some (some lines) ∧ u ∈ L ∧ u :: L.erase u = L := by
  obtain ⟨hrel, _, j, rest, hidx, htag, htime⟩ := h
  have hj : j ∈ idxs := by rw [hidx]; exact List.mem_cons_self _ _
  obtain ⟨l, hl, hv⟩ := (hrel.valid_iff j).mp hj
  have hlt : l.tag = u := by rw [← tag_at_eq hl]; exact htag
  have hlc : l.access_time = cnt := by rw [← time_at_eq hl]; exact htime
  have hloop := hit_loop_some lines u cnt j l hl ⟨hv, hlt⟩ para.E 0
    (by rw [hrel.len]; omega) (Nat.zero_le j) (by
      intro k l' _ hkj hl' hm
      have hk : k ∈ idxs := (hrel.valid_iff k).mpr ⟨l', hl', hm.1⟩
      have hkt : tag_at lines k = tag_at lines j := by
        rw [tag_at_eq hl', hm.2, htag]
      have := set_rel_inj hrel hk hj hkt
      omega)
  have hsame : ({ l with access_time := cnt } : cache_line) = l := by
    cases l
    simp only at hlc
    rw [hlc]
  rw [hsame, list_set_same lines j l hl] at hloop
  have hL : L = u :: rest.map (tag_at lines) := by
    rw [hrel.tags, hidx, List.map_cons, htag]
  refine ⟨hloop, ?_, ?_⟩
  · rw [hL]; exact List.mem_cons_self _ _
  · rw [hL, List.erase_cons_head]

theorem get_set_eq (addr : Nat) (para : cache_parameter) :
    get_set addr para = addr / 2 ^ para.b % 2 ^ para.s := by
  unfold get_set
  rw [Nat.shiftRight_eq_div_pow, Nat.and_pow_two_sub_one_eq_mod]

theorem get_tag_eq (addr : Nat) (para : cache_parameter) :
    get_tag addr para = addr / 2 ^ (para.s + para.b) := by
  unfold get_tag
  rw [Nat.shiftRight_eq_div_pow]

/-- Replacing the set of `addr` by a visited one gives a visited cache. -/
theorem cache_visited_of {s E b cnt : Nat} {para : cache_parameter}
    {cur_cache : List (List cache_line)} {c : lru_cache}
    (hrel : cache_rel s E b cnt para cur_cache c) (addr : Nat)
    (lines : List cache_line) (L idxs : List Nat)
    (hv : visited E lines L idxs (addr / 2 ^ (s + b)) cnt)
    (para2 : cache_parameter) (c2 : lru_cache)
    (hs : para2.s = s) (hE : para2.E = E) (hb : para2.b = b)
    (hh : para2.hit_count = c2.hits) (hm : para2.miss_count = c2.misses)
    (he : para2.eviction_count = c2.evictions)
    (htags : c2.tags = Function.update c.tags (addr / 2 ^ b % 2 ^ s) L) :
    cache_visited s E b cnt addr para2 (cur_cache.set (addr / 2 ^ b % 2 ^ s) lines) c2 := by
  refine ⟨hs, hE, hb, hh, hm, he, ?_, ?_, ?_⟩
  · rw [List.length_set]; exact hrel.len
  · intro k lines2 hk hne
    rw [List.getElem?_set_ne (Ne.symm hne)] at hk
    rw [htags, Function.update_noteq hne]
    exact hrel.sets k lines2 hk
  · intro lines2 hk
    have hlt : addr / 2 ^ b % 2 ^ s < cur_cache.length := by
      rw [hrel.len]; exact Nat.mod_lt _ (Nat.two_pow_pos s)
    rw [List.getElem?_set_self hlt] at hk
    injection hk with hk
    rw [htags, Function.update_same, ← hk]
    exact ⟨idxs, hv⟩

/-- One access of the simulator follows one access of the reference cache. -/
theorem visit_cache_rel {s E b cnt : Nat} {para : cache_parameter}
    {cur_cache : List (List cache_line)} {c : lru_cache}
    (hrel : cache_rel s E b cnt para cur_cache c) (hE : 1 ≤ E) (addr : Nat) :
    ∃ para2 cache2, visit_cache para cur_cache addr cnt = some (para2, cache2) ∧
      cache_visited s E b cnt addr para2 cache2 (lru_access s E b c addr) := by
  have hps := hrel.para_s
  have hpE := hrel.para_E
  have hpb := hrel.para_b
  have hset : get_set addr para = addr / 2 ^ b % 2 ^ s := by rw [get_set_eq, hps, hpb]
  have htag : get_tag addr para = addr / 2 ^ (s + b) := by rw [get_tag_eq, hps, hpb]
  have hlt : addr / 2 ^ b % 2 ^ s < cur_cache.length := by
    rw [hrel.len]; exact Nat.mod_lt _ (Nat.two_pow_pos s)
  have hget : cur_cache[addr / 2 ^ b % 2 ^ s]? = some cur_cache[addr / 2 ^ b % 2 ^ s] :=
    List.getElem?_eq_getElem hlt
  obtain ⟨idxs, hsr, ht⟩ := hrel.sets _ _ hget
  rw [← hpE] at hsr
  generalize cur_cache[addr / 2 ^ b % 2 ^ s] = lines at hget hsr ht
  by_cases hu : addr / 2 ^ (s + b) ∈ c.tags (addr / 2 ^ b % 2 ^ s)
  · obtain ⟨lines2, idxs2, hloop, hv⟩ := set_visit_hit (addr / 2 ^ (s + b)) cnt hsr ht hu
    refine ⟨{ para with hit_count := para.hit_count + 1 },
      cur_cache.set (addr / 2 ^ b % 2 ^ s) lines2, ?_, ?_⟩
    · unfold visit_cache
      simp only [hset, htag, hget, hloop]
    · rw [hpE] at hv
      refine cache_visited_of hrel addr lines2 _ idxs2 hv _ _ hps hpE hpb ?_ ?_ ?_ ?_
      · unfold lru_access; simp only [if_pos hu]; rw [hrel.hits]
      · unfold lru_access; simp only [if_pos hu]; exact hrel.misses
      · unfold lru_access; simp only [if_pos hu]; exact hrel.evictions
      · unfold lru_access; simp only [if_pos hu]
  · have hno := set_visit_no_hit (addr / 2 ^ (s + b)) cnt hsr hu
    by_cases hfull : (c.tags (addr / 2 ^ b % 2 ^ s)).length < E
    · obtain ⟨lines2, idxs2, hloop, hv⟩ :=
        set_visit_fill (addr / 2 ^ (s + b)) cnt hsr ht hu (by rw [hpE]; exact hfull)
      refine ⟨{ para with miss_count := para.miss_count + 1 },
        cur_cache.set (addr / 2 ^ b % 2 ^ s) lines2, ?_, ?_⟩
      · unfold visit_cache
        simp only [hset, htag, hget, hno, hloop]
      · rw [hpE] at hv
        refine cache_visited_of hrel addr lines2 _ idxs2 hv _ _ hps hpE hpb ?_ ?_ ?_ ?_
        · unfold lru_access; simp only [if_neg hu, if_pos hfull]; exact hrel.hits
        · unfold lru_access; simp only [if_neg hu, if_pos hfull]; rw [hrel.misses]
        · unfold lru_access; simp only [if_neg hu, if_pos hfull]; exact hrel.evictions
        · unfold lru_access; simp only [if_neg hu, if_pos hfull]
    · obtain ⟨hfill, r, idxs2, hr, hrl, hv⟩ :=
        @set_visit_evict
          { s := para.s, E := para.E, b := para.b, hit_count := para.hit_count,
            miss_count := para.miss_count + 1, eviction_count := para.eviction_count + 1 }
          lines _ idxs (addr / 2 ^ (s + b)) cnt hsr (by rw [hpE]; exact hE) ht hu
          (by rw [hpE]; exact hfull)
      refine ⟨
        { s := para.s, E := para.E, b := para.b, hit_count := para.hit_count,
          miss_count := para.miss_count + 1, eviction_count := para.eviction_count + 1 },
        cur_cache.set (addr / 2 ^ b % 2 ^ s)
          (lines.set r { valid := 1, tag := addr / 2 ^ (s + b), access_time := cnt }),
        ?_, ?_⟩
      · unfold visit_cache
        have hfill2 : fill_loop lines (addr / 2 ^ (s + b)) cnt para.E 0 = some none := hfill
        simp only [hset, htag, hget, hno, hfill2, hr, if_pos hrl]
      · have hv2 : visited E
            (lines.set r { valid := 1, tag := addr / 2 ^ (s + b), access_time := cnt })
            (addr / 2 ^ (s + b) :: (c.tags (addr / 2 ^ b % 2 ^ s)).dropLast) idxs2
            (addr / 2 ^ (s + b)) cnt := by
          rw [← hpE]; exact hv
        refine cache_visited_of hrel addr _ _ idxs2 hv2 _ _ hps hpE hpb ?_ ?_ ?_ ?_
        · unfold lru_access; simp only [if_neg hu, if_neg hfull]; exact hrel.hits
        · unfold lru_access; simp only [if_neg hu, if_neg hfull]; rw [hrel.misses]
        · unfold lru_access; simp only [if_neg hu, if_neg hfull]; rw [hrel.evictions]
        · unfold lru_access; simp only [if_neg hu, if_neg hfull]

/-- After the access the cache stands for the reference cache at the next time. -/
theorem cache_visited_next {s E b cnt addr : Nat} {para : cache_parameter}
    {cur_cache : List (List cache_line)} {c : lru_cache}
    (h : cache_visited s E b cnt addr para cur_cache c) :
    cache_rel s E b (cnt + 1) para cur_cache c := by
  refine ⟨h.para_s, h.para_E, h.para_b, h.hits, h.misses, h.evictions, h.len, ?_⟩
  intro k lines hk
  by_cases hki : k = addr / 2 ^ b % 2 ^ s
  · subst hki
    obtain ⟨idxs, hrel, ht, _⟩ := h.set lines hk
    exact ⟨idxs, hrel, fun i hi => Nat.lt_succ_of_le (ht i hi)⟩
  · obtain ⟨idxs, hrel, ht⟩ := h.sets k lines hk hki
    exact ⟨idxs, hrel, fun i hi => Nat.lt_succ_of_lt (ht i hi)⟩

/-- The second access of an `M` operation: a hit that leaves the cache as it is. -/
theorem visit_cache_again {s E b cnt addr : Nat} {para : cache_parameter}
    {cur_cache : List (List cache_line)} {c : lru_cache}
    (h : cache_visited s E b cnt addr para cur_cache c) :
    ∃ para2, visit_cache para cur_cache addr cnt = some (para2, cur_cache) ∧
      cache_visited s E b cnt addr para2 cur_cache (lru_access s E b c addr) := by
  have hps := h.para_s
  have hpE := h.para_E
  have hpb := h.para_b
  have hset : get_set addr para = addr / 2 ^ b % 2 ^ s := by rw [get_set_eq, hps, hpb]
  have htag : get_tag addr para = addr / 2 ^ (s + b) := by rw [get_tag_eq, hps, hpb]
  have hlt : addr / 2 ^ b % 2 ^ s < cur_cache.length := by
    rw [h.len]; exact Nat.mod_lt _ (Nat.two_pow_pos s)
  have hget : cur_cache[addr / 2 ^ b % 2 ^ s]? = some cur_cache[addr / 2 ^ b % 2 ^ s] :=
    List.getElem?_eq_getElem hlt
  obtain ⟨idxs, hv⟩ := h.set _ hget
  generalize cur_cache[addr / 2 ^ b % 2 ^ s] = lines at hget hv
  have hv2 := hv
  rw [← hpE] at hv2
  obtain ⟨hloop, hu, hsame⟩ := set_revisit hv2
  have hcache : cur_cache.set (addr / 2 ^ b % 2 ^ s) lines = cur_cache :=
    list_set_same _ _ _ hget
  have htags : (lru_access s E b c addr).tags = c.tags := by
    unfold lru_access
    simp only [if_pos hu, hsame, Function.update_eq_self]
  refine ⟨{ para with hit_count := para.hit_count + 1 }, ?_, ?_⟩
  · unfold visit_cache
    simp only [hset, htag, hget, hloop, hcache]
  · refine ⟨hps, hpE, hpb, ?_, ?_, ?_, h.len, ?_, ?_⟩
    · unfold lru_access; simp only [if_pos hu]; rw [h.hits]
    · unfold lru_access; simp only [if_pos hu]; exact h.misses
    · unfold lru_access; simp only [if_pos hu]; exact h.evictions
    · rw [htags]; exact h.sets
    · rw [htags]; exact h.set

/-- The trace loop of `main` follows the reference cache. -/
theorem trace_loop_rel (s E b : Nat) (hE : 1 ≤ E) (trace : List trace_line) :
    ∀ (cnt : Nat) (para : cache_parameter) (cur_cache : List (List cache_line))
      (c : lru_cache), cache_rel s E b cnt para cur_cache c →
      ∃ para2 cache2, trace_loop trace cnt para cur_cache = some (para2, cache2) ∧
        para2.hit_count = (lru_run s E b trace c).hits ∧
        para2.miss_count = (lru_run s E b trace c).misses ∧
        para2.eviction_count = (lru_run s E b trace c).evictions := by
  induction trace with
  | nil =>
      intro cnt para cur_cache c h
      exact ⟨para, cur_cache, rfl, h.hits, h.misses, h.evictions⟩
  | cons l rest ih =>
      intro cnt para cur_cache c h
      unfold trace_loop lru_run
      by_cases h1 : l.opt = 'L' ∨ l.opt = 'S'
      · obtain ⟨para2, cache2, hv, hrel⟩ := visit_cache_rel h hE l.addr
        simp only [if_pos h1, hv]
        exact ih (cnt + 1) para2 cache2 _ (cache_visited_next hrel)
      · by_cases h2 : l.opt = 'M'
        · obtain ⟨para2, cache2, hv, hrel⟩ := visit_cache_rel h hE l.addr
          obtain ⟨para3, hv3, hrel3⟩ := visit_cache_again hrel
          simp only [if_neg h1, if_pos h2, hv, hv3]
          exact ih (cnt + 1) para3 cache2 _ (cache_visited_next hrel3)
        · simp only [if_neg h1, if_neg h2]
          refine ih (cnt + 1) para cur_cache c ?_
          refine ⟨h.para_s, h.para_E, h.para_b, h.hits, h.misses, h.evictions, h.len, ?_⟩
          intro k lines hk
          obtain ⟨idxs, hrel, ht⟩ := h.sets k lines hk
          exact ⟨idxs, hrel, fun i hi => Nat.lt_succ_of_lt (ht i hi)⟩

/-- The fresh cache stands for the empty reference cache. -/
theorem init_cache_rel (s E b : Nat) :
    cache_rel s E b 1
      { s := s, E := E, b := b, hit_count := 0, miss_count := 0, eviction_count := 0 }
      (init_cache
        { s := s, E := E, b := b, hit_count := 0, miss_count := 0, eviction_count := 0 })
      { tags := fun _ => [], hits := 0, misses := 0, evictions := 0 } := by
  refine ⟨rfl, rfl, rfl, rfl, rfl, rfl, ?_, ?_⟩
  · unfold init_cache; rw [List.length_replicate]
  · intro k lines hk
    unfold init_cache at hk
    rw [List.getElem?_replicate] at hk
    split at hk
    · injection hk with hk
      subst hk
      refine ⟨[], ⟨?_, List.nodup_nil, ?_, ?_, rfl, List.nodup_nil, List.Pairwise.nil⟩, ?_⟩
      · rw [List.length_replicate]
      · intro i
        constructor
        · intro hi; exact absurd hi (List.not_mem_nil i)
        · rintro ⟨l, hl, hv⟩
          rw [List.getElem?_replicate] at hl
          split at hl
          · injection hl with hl
            rw [← hl] at hv
            exact absurd hv (by decide)
          · exact absurd hl (by simp)
      · intro i l hl
        rw [List.getElem?_replicate] at hl
        split at hl
        · injection hl with hl
          rw [← hl]
          exact Or.inl rfl
        · exact absurd hl (by simp)
      · intro i hi; exact absurd hi (List.not_mem_nil i)
    · exact absurd hk (by simp)

/-! ## The claims -/

/-- C23: the simulator counts what an LRU cache does. For `E ≥ 1` and every trace,
`simulate` (the trace loop of `main` on a fresh `init_cache` cache, time stamp from 1,
an `M` line visiting its address twice) ends and its hit, miss and eviction counts are
those of the reference set-associative LRU cache `lru_counts`, which has `2 ^ s` sets of
at most `E` tags, the set index `(addr >> b) mod 2 ^ s`, the tag `addr >> (s + b)`, and
evicts the least recently accessed tag of a full set. The bounds on `s`, `b`, the
addresses and the length of the trace are those within which the `int` and
`unsigned long long` arithmetic of the code is exact. -/
theorem simulator_counts_as_lru (s E b : Nat) (trace : List trace_line) (hE : 1 ≤ E)
    (_hs : s ≤ 30) (_hb : b ≤ 30) (_haddr : ∀ l ∈ trace, l.addr < 2 ^ 64)
    (_hlen : trace.length < 2 ^ 31 - 1) :
    ∃ para, simulate s E b trace = some para ∧
      (para.hit_count, para.miss_count, para.eviction_count) = lru_counts s E b trace := by
  obtain ⟨para2, cache2, hrun, hh, hm, he⟩ :=
    trace_loop_rel s E b hE trace 1 _ _ _ (init_cache_rel s E b)
  refine ⟨para2, ?_, ?_⟩
  · unfold simulate
    simp only [hrun, Option.map_some']
  · unfold lru_counts
    simp only [hh, hm, he]

theorem simulator_counts_as_lru_witness :
    lru_counts 1 2 1 sample_trace = (2, 5, 2) ∧
    ∃ para, simulate 1 2 1 sample_trace = some para ∧
      (para.hit_count, para.miss_count, para.eviction_count) =
        lru_counts 1 2 1 sample_trace :=
  ⟨by decide, simulator_counts_as_lru 1 2 1 sample_trace (by decide) (by decide) (by decide)
    (by decide) (by decide)⟩

/-- C31 (option order). The cases `'s'`, `'E'` and `'b'` of the `switch` have no `break`
(lines 187-194), so the argument of `-s` is also assigned to `para.E`, `para.b` and
`trace_file`, that of `-E` to `para.b` and `trace_file`, and that of `-b` to
`trace_file`. For `-E 1 -s 4 -b 5 -t t.trace` the loop ends with `para.E = 4`, and the
test of line 199 finds nothing wrong; for `-t t.trace -s 4 -E 1 -b 5` the trace file
is `5`. Of the 24 orders of these four options only `-s -E -b -t` ends with the
parameters as given, and that order does so for all arguments. -/
theorem option_order_changes_parameters :
    parse_options (command_line ['E', 's', 'b', 't'] "4".toList "1".toList "5".toList
        "t.trace".toList) =
      { v := 0, s := some 4, E := some 4, b := some 5,
        trace_file := some "t.trace".toList } ∧
    err_input (parse_options (command_line ['E', 's', 'b', 't'] "4".toList "1".toList
        "5".toList "t.trace".toList)) = some false ∧
    parse_options (command_line ['t', 's', 'E', 'b'] "4".toList "1".toList "5".toList
        "t.trace".toList) =
      { v := 0, s := some 4, E := some 1, b := some 5, trace_file := some "5".toList } ∧
    (['s', 'E', 'b', 't'].permutations.filter (fun order =>
        as_given "4".toList "1".toList "5".toList "t.trace".toList
          (parse_options (command_line order "4".toList "1".toList "5".toList
            "t.trace".toList)))) = [['s', 'E', 'b', 't']] ∧
    ∀ s E b t : List Char,
      as_given s E b t (parse_options (command_line ['s', 'E', 'b', 't'] s E b t)) = true := by
  refine ⟨by decide, by decide, by decide, by decide!, ?_⟩
  intro s E b t
  simp [as_given, parse_options, command_line, option_loop, option_switch, from_case_s,
    from_case_E, from_case_b, from_case_t]

end LRUcache

namespace CacheBlockOpt

/-! ## Arrays as numbers -/

theorem K_pos : 0 < K := by decide

theorem digit_lt (mem k : Nat) : digit mem k < K := Nat.mod_lt _ K_pos

theorem digit_put_self (mem k v : Nat) (hv : v < K) : digit (put mem k v) k = v := by
  unfold digit put
  have hp : 0 < K ^ k := Nat.pos_pow_of_pos k K_pos
  rw [Nat.add_mul_div_left _ _ hp, Nat.div_eq_of_lt (Nat.mod_lt _ hp), Nat.zero_add,
    Nat.add_mul_mod_self_left, Nat.mod_eq_of_lt hv]

theorem digit_put_lt (mem k v j : Nat) (hj : j < k) : digit (put mem k v) j = digit mem j := by
  unfold digit put
  obtain ⟨d, rfl⟩ : ∃ d, k = j + (d + 1) := ⟨k - j - 1, by omega⟩
  have hp : 0 < K ^ j := Nat.pos_pow_of_pos j K_pos
  have e1 : K ^ (j + (d + 1)) = K ^ j * (K * K ^ d) := by
    rw [pow_add, pow_succ, Nat.mul_comm (K ^ d) K]
  rw [e1, Nat.mul_assoc (K ^ j), Nat.add_mul_div_left _ _ hp, Nat.mod_mul_right_div_self,
    Nat.mul_assoc K, Nat.add_mul_mod_self_left, Nat.mod_mul_right_mod]

theorem digit_put_gt (mem k v j : Nat) (hv : v < K) (hj : k < j) :
    digit (put mem k v) j = digit mem j := by
  unfold digit put
  obtain ⟨d, rfl⟩ : ∃ d, j = k + 1 + d := ⟨j - k - 1, by omega⟩
  have hp : 0 < K ^ k := Nat.pos_pow_of_pos k K_pos
  have e1 : K ^ (k + 1 + d) = K ^ k * (K * K ^ d) := by
    rw [pow_add, pow_succ, Nat.mul_assoc]
  have e2 : K ^ (k + 1 + d) = K ^ (k + 1) * K ^ d := pow_add K (k + 1) d
  rw [e1, ← Nat.div_div_eq_div_mul, Nat.add_mul_div_left _ _ hp,
    Nat.div_eq_of_lt (Nat.mod_lt _ hp), Nat.zero_add, ← Nat.div_div_eq_div_mul,
    Nat.add_mul_div_left _ _ K_pos, Nat.div_eq_of_lt hv, Nat.zero_add, ← e1, e2,
    Nat.div_div_eq_div_mul]

theorem digit_put_ne (mem k v j : Nat) (hv : v < K) (hj : j ≠ k) :
    digit (put mem k v) j = digit mem j := by
  rcases Nat.lt_or_gt_of_ne hj with h | h
  · exact digit_put_lt mem k v j h
  · exact digit_put_gt mem k v j hv h

theorem enc_lt (f : Nat → Nat) (n : Nat) (hf : ∀ i, i < n → f i < K) : enc f n < K ^ n := by
  induction n with
  | zero => simp [enc]
  | succ n ih =>
      have h1 := ih (fun i hi => hf i (Nat.lt_succ_of_lt hi))
      have h2 := hf n (Nat.lt_succ_self n)
      unfold enc
      rw [pow_succ]
      have : K ^ n * f n ≤ K ^ n * (K - 1) := Nat.mul_le_mul_left _ (by omega)
      have h3 : K ^ n * (K - 1) + K ^ n = K ^ n * K := by
        rw [← Nat.mul_succ]; rfl
      omega

theorem digit_enc (f : Nat → Nat) (n : Nat) (hf : ∀ i, i < n → f i < K) (k : Nat)
    (hk : k < n) : digit (enc f n) k = f k := by
  induction n with
  | zero => omega
  | succ n ih =>
      have hf2 : ∀ i, i < n → f i < K := fun i hi => hf i (Nat.lt_succ_of_lt hi)
      have hp : 0 < K ^ k := Nat.pos_pow_of_pos k K_pos
      by_cases hkn : k = n
      · subst hkn
        unfold digit enc
        rw [Nat.add_mul_div_left _ _ hp, Nat.div_eq_of_lt (enc_lt f k hf2), Nat.zero_add,
          Nat.mod_eq_of_lt (hf k hk)]
      · have hk2 : k < n := by omega
        have step : enc f (n + 1) = enc f n + K ^ n * f n := rfl
        rw [step, ← ih hf2 hk2]
        obtain ⟨d, rfl⟩ : ∃ d, n = k + (d + 1) := ⟨n - k - 1, by omega⟩
        unfold digit
        have e1 : K ^ (k + (d + 1)) = K ^ k * (K * K ^ d) := by
          rw [pow_add, pow_succ, Nat.mul_comm (K ^ d) K]
        rw [e1, Nat.mul_assoc (K ^ k), Nat.add_mul_div_left _ _ hp, Nat.mul_assoc K,
          Nat.add_mul_mod_self_left]

theorem at2_table {α : Type} (n m : Nat) (g : Nat → Nat → α) (r c : Nat) (hr : r < n)
    (hc : c < m) : at2 (table n m g) r c = some (g r c) := by
  unfold at2 table
  simp [hr, hc]

theorem table_dims {α : Type} (n m : Nat) (g : Nat → Nat → α) : dims (table n m g) n m := by
  unfold dims table
  simp

theorem table_congr {α : Type} (n m : Nat) (g h : Nat → Nat → α)
    (e : ∀ r c, r < n → c < m → g r c = h r c) : table n m g = table n m h := by
  unfold table
  apply List.map_congr_left
  intro r hr
  apply List.map_congr_left
  intro c hc
  exact e r c (List.mem_range.mp hr) (List.mem_range.mp hc)

/-- An array with `n` rows of `m` entries is the table of its entries. -/
theorem eq_table {α : Type} (X : List (List α)) (n m : Nat) (h : dims X n m) (d : α) :
    X = table n m (fun r c => ((at2 X r c).getD d)) := by
  obtain ⟨hlen, hrows⟩ := h
  apply List.ext_getElem
  · simp [table, hlen]
  · intro r h1 h2
    have hr : r < n := by rw [← hlen]; exact h1
    have hrow : (X[r]).length = m := hrows _ (List.getElem_mem h1)
    apply List.ext_getElem
    · simp [table, hrow]
    · intro c h3 h4
      have hc : c < m := by rw [← hrow]; exact h3
      simp [table, at2, List.getElem?_eq_getElem h1, List.getElem?_eq_getElem h3]

theorem get2_table {α : Type} (n m : Nat) (g : Nat → Nat → α) (r c : Int) (hr0 : 0 ≤ r)
    (hc0 : 0 ≤ c) (hr : r.toNat < n) (hc : c.toNat < m) :
    get2 (table n m g) r c = some (g r.toNat c.toNat) := by
  unfold get2 table
  simp [hr0, hc0, hr, hc]

theorem set2_table {α : Type} (n m : Nat) (g : Nat → Nat → α) (r c : Int) (v : α)
    (hr0 : 0 ≤ r) (hc0 : 0 ≤ c) (hr : r.toNat < n) (hc : c.toNat < m) :
    set2 (table n m g) r c v =
      some (table n m (fun r2 c2 => if r2 = r.toNat ∧ c2 = c.toNat then v else g r2 c2)) := by
  unfold set2
  have hrow : (table n m g)[r.toNat]? = some ((List.range m).map (fun c => g r.toNat c)) := by
    unfold table; simp [hr]
  rw [if_pos ⟨hr0, hc0⟩, hrow]
  simp only [List.length_map, List.length_range, if_pos hc]
  congr 1
  apply List.ext_getElem
  · simp [table]
  · intro r2 h1 h2
    simp only [table, List.length_map, List.length_range] at h2
    rw [List.getElem_set]
    by_cases e : r.toNat = r2
    · subst e
      rw [if_pos rfl]
      apply List.ext_getElem
      · simp [table]
      · intro c2 h3 h4
        rw [List.getElem_set]
        by_cases e2 : c.toNat = c2
        · subst e2; simp [table]
        · have e3 : ¬ c2 = c.toNat := fun h => e2 h.symm
          simp [table, e2, e3]
    · have e3 : ¬ r2 = r.toNat := fun h => e h.symm
      rw [if_neg e]
      simp [table, e3]

theorem get1_map_range {α : Type} (n : Nat) (g : Nat → α) (k : Int) (hk0 : 0 ≤ k)
    (hk : k.toNat < n) : get1 ((List.range n).map g) k = some (g k.toNat) := by
  unfold get1
  simp [hk0, hk]

theorem set1_map_range {α : Type} (n : Nat) (g : Nat → α) (k : Int) (v : α) (hk0 : 0 ≤ k)
    (hk : k.toNat < n) :
    set1 ((List.range n).map g) k v =
      some ((List.range n).map (fun k2 => if k2 = k.toNat then v else g k2)) := by
  unfold set1
  rw [if_pos ⟨hk0, by simpa using hk⟩]
  congr 1
  apply List.ext_getElem
  · simp
  · intro k2 h1 h2
    rw [List.getElem_set]
    by_cases e : k.toNat = k2
    · subst e; simp
    · have e3 : ¬ k2 = k.toNat := fun h => e h.symm
      simp [e, e3]

theorem for_loop_sim {σ τ : Type} {R : σ → τ → Prop} (cond : Nat → Bool) (step : Nat)
    {b1 : Nat → σ → Option σ} {b2 : Nat → τ → Option τ} (h : ∀ i, Sim R (b1 i) (b2 i)) :
    ∀ fuel i, Sim R (for_loop cond step b1 fuel i) (for_loop cond step b2 fuel i) := by
  intro fuel
  induction fuel with
  | zero =>
      intro i e a e2 _ hrun
      exact absurd hrun (by simp [for_loop])
  | succ fuel ih =>
      intro i e a e2 hR hrun
      unfold for_loop at hrun ⊢
      by_cases hc : cond i = true
      · rw [if_pos hc] at hrun ⊢
        cases h1 : b1 i e with
        | none => rw [h1] at hrun; exact absurd hrun (by simp)
        | some e1 =>
            rw [h1] at hrun
            obtain ⟨a1, ha1, hR1⟩ := h i e a e1 hR h1
            rw [ha1]
            exact ih (i + step) e1 a1 e2 hR1 hrun
      · rw [if_neg hc] at hrun ⊢
        injection hrun with hrun
        exact ⟨a, rfl, hrun ▸ hR⟩

theorem on_mem_sim {μ ν : Type} {R : μ → ν → Prop} {p : μ → Option μ} {q : ν → Option ν}
    (h : Sim R p q) : Sim (StRel R) (on_mem p) (on_mem q) := by
  intro s t s2 hst hrun
  unfold on_mem at hrun ⊢
  cases h1 : p s.mem with
  | none => rw [h1] at hrun; exact absurd hrun (by simp)
  | some m1 =>
      rw [h1] at hrun
      obtain ⟨n1, hn1, hR1⟩ := h s.mem t.mem m1 hst.1 h1
      rw [hn1]
      injection hrun with hrun
      subst hrun
      exact ⟨_, rfl, hR1, hst.2.1, hst.2.2.1, hst.2.2.2⟩

theorem some_sim {σ τ : Type} {R : σ → τ → Prop} :
    Sim R (fun s => some s) (fun t => some t) := by
  intro e a e2 hR hrun
  injection hrun with hrun
  exact ⟨a, rfl, hrun ▸ hR⟩

theorem cell_diag_sim {μ ν : Type} {R : μ → ν → Prop} {o1 : Ops μ} {o2 : Ops ν}
    (h : OpsSim R o1 o2) (M i j i1 j1 : Nat) :
    Sim (StRel R) (cell_diag o1 M i j i1 j1) (cell_diag o2 M i j i1 j1) := by
  intro s t s2 hst hrun
  unfold cell_diag at hrun ⊢
  by_cases hc : i1 ≠ j1 ∨ i ≠ j
  · rw [if_pos hc] at hrun ⊢
    exact on_mem_sim (h.a_b _ _) s t s2 hst hrun
  · rw [if_neg hc] at hrun ⊢
    refine on_mem_sim (h.a_tmp _ _ _) _ _ s2 ?_ hrun
    exact ⟨hst.1, rfl, rfl, rfl⟩

theorem put_diag_sim {μ ν : Type} {R : μ → ν → Prop} {o1 : Ops μ} {o2 : Ops ν}
    (h : OpsSim R o1 o2) : Sim (StRel R) (put_diag o1) (put_diag o2) := by
  intro s t s2 hst hrun
  unfold put_diag at hrun ⊢
  rw [← hst.2.1, ← hst.2.2.2]
  cases hd : s.diag with
  | none => rw [hd] at hrun; exact absurd hrun (by simp)
  | some d =>
      cases hi : s.idx with
      | none => rw [hd, hi] at hrun; exact absurd hrun (by simp)
      | some k =>
          rw [hd, hi] at hrun
          exact on_mem_sim (h.tmp_b _ _ _) s t s2 hst hrun

theorem put_diag_when_sim {μ ν : Type} {R : μ → ν → Prop} {o1 : Ops μ} {o2 : Ops ν}
    (h : OpsSim R o1 o2) (i j : Nat) :
    Sim (StRel R) (fun st => if i = j then put_diag o1 st else some st)
      (fun st => if i = j then put_diag o2 st else some st) := by
  by_cases hc : i = j
  · simp only [if_pos hc]; exact put_diag_sim h
  · simp only [if_neg hc]; exact some_sim

theorem row_diag_sim {μ ν : Type} {R : μ → ν → Prop} {o1 : Ops μ} {o2 : Ops ν}
    (h : OpsSim R o1 o2) (M i j i1 : Nat) (cond : Nat → Bool)
    (fuel start : Nat) :
    Sim (StRel R)
      (fun st =>
        match for_loop cond 1 (cell_diag o1 M i j i1) fuel start st with
        | none => none
        | some st => if i = j then put_diag o1 st else some st)
      (fun st =>
        match for_loop cond 1 (cell_diag o2 M i j i1) fuel start st with
        | none => none
        | some st => if i = j then put_diag o2 st else some st) := by
  intro s t s2 hst hrun
  simp only at hrun ⊢
  split at hrun
  · exact absurd hrun (by simp)
  · rename_i s1 h1
    obtain ⟨t1, ht1, hR1⟩ :=
      for_loop_sim cond 1 (cell_diag_sim h M i j i1) fuel start s t s1 hst h1
    rw [ht1]
    exact put_diag_when_sim h i j s1 t1 s2 hR1 hrun

theorem transpose_32_sim {μ ν : Type} {R : μ → ν → Prop} {o1 : Ops μ} {o2 : Ops ν}
    (h : OpsSim R o1 o2) (M N : Nat) :
    Sim (StRel R) (transpose_32 o1 M N) (transpose_32 o2 M N) := by
  unfold transpose_32
  apply for_loop_sim; intro i
  apply for_loop_sim; intro j
  apply for_loop_sim; intro i1
  exact row_diag_sim h M i j i1 _ _ _

theorem transpose_63_65_sim {μ ν : Type} {R : μ → ν → Prop} {o1 : Ops μ} {o2 : Ops ν}
    (h : OpsSim R o1 o2) (M N : Nat) :
    Sim (StRel R) (transpose_63_65 o1 M N) (transpose_63_65 o2 M N) := by
  unfold transpose_63_65
  apply for_loop_sim; intro i
  apply for_loop_sim; intro j
  apply for_loop_sim; intro i1
  exact row_diag_sim h M i j i1 _ _ _

theorem cell_upper_sim {μ ν : Type} {R : μ → ν → Prop} {o1 : Ops μ} {o2 : Ops ν}
    (h : OpsSim R o1 o2) (M i j i1 j1 : Nat) (block_size : Int) :
    Sim (StRel R) (cell_upper o1 M i j i1 j1 block_size)
      (cell_upper o2 M i j i1 j1 block_size) := by
  intro s t s2 hst hrun
  unfold cell_upper at hrun ⊢
  by_cases hc : i1 ≠ j1 ∧ (j1 : Int) < j + Int.tdiv block_size 2
  · rw [if_pos hc] at hrun ⊢
    exact on_mem_sim (h.a_b _ _) s t s2 hst hrun
  · rw [if_neg hc] at hrun ⊢
    by_cases hd : i1 = j1
    · simp only [if_pos hd] at hrun ⊢
      refine on_mem_sim (h.a_tmp _ _ _) _ _ s2 ?_ hrun
      exact ⟨hst.1, rfl, rfl, rfl⟩
    · simp only [if_neg hd] at hrun ⊢
      refine on_mem_sim (h.a_tmp _ _ _) _ _ s2 ?_ hrun
      exact ⟨hst.1, hst.2.1, rfl, hst.2.2.2⟩

theorem cell_lower_sim {μ ν : Type} {R : μ → ν → Prop} {o1 : Ops μ} {o2 : Ops ν}
    (h : OpsSim R o1 o2) (M i j i1 j1 : Nat) (block_size : Int) :
    Sim (StRel R) (cell_lower o1 M i j i1 j1 block_size)
      (cell_lower o2 M i j i1 j1 block_size) := by
  intro s t s2 hst hrun
  unfold cell_lower at hrun ⊢
  by_cases hc : (j1 : Int) < j + Int.tdiv block_size 2
  · rw [if_pos hc] at hrun ⊢
    refine on_mem_sim (h.a_tmp _ _ _) _ _ s2 ?_ hrun
    exact ⟨hst.1, hst.2.1, rfl, hst.2.2.2⟩
  · rw [if_neg hc] at hrun ⊢
    by_cases hd : j1 ≠ i1
    · rw [if_pos hd] at hrun ⊢
      exact on_mem_sim (h.a_b _ _) s t s2 hst hrun
    · rw [if_neg hd] at hrun ⊢
      refine on_mem_sim (h.a_tmp _ _ _) _ _ s2 ?_ hrun
      exact ⟨hst.1, rfl, rfl, rfl⟩

theorem put_diag_if_sim {μ ν : Type} {R : μ → ν → Prop} {o1 : Ops μ} {o2 : Ops ν}
    (h : OpsSim R o1 o2) (i j : Nat) :
    Sim (StRel R) (put_diag_if o1 i j) (put_diag_if o2 i j) := by
  intro s t s2 hst hrun
  unfold put_diag_if at hrun ⊢
  by_cases hc : i = j
  · rw [if_pos hc] at hrun ⊢
    rw [← hst.2.1]
    cases hd : s.diag with
    | none => rw [hd] at hrun; exact absurd hrun (by simp)
    | some d =>
        rw [hd] at hrun
        simp only at hrun ⊢
        by_cases hd0 : d ≥ 0
        · rw [if_pos hd0] at hrun ⊢
          exact put_diag_sim h s t s2 hst hrun
        · rw [if_neg hd0] at hrun ⊢
          exact some_sim s t s2 hst hrun
  · rw [if_neg hc] at hrun ⊢
    exact some_sim s t s2 hst hrun

theorem unload_upper_sim {μ ν : Type} {R : μ → ν → Prop} {o1 : Ops μ} {o2 : Ops ν}
    (h : OpsSim R o1 o2) (i j k l : Nat) (block_size : Int) :
    Sim (StRel R) (unload_upper o1 i j k l block_size) (unload_upper o2 i j k l block_size) := by
  intro s t s2 hst hrun
  unfold unload_upper at hrun ⊢
  rw [← hst.2.2.1]
  cases hd : s.set_num with
  | none => rw [hd] at hrun; exact absurd hrun (by simp)
  | some d =>
      rw [hd] at hrun
      exact on_mem_sim (h.tmp_b _ _ _) s t s2 hst hrun

theorem unload_lower_sim {μ ν : Type} {R : μ → ν → Prop} {o1 : Ops μ} {o2 : Ops ν}
    (h : OpsSim R o1 o2) (i j k l : Nat) (block_size : Int) :
    Sim (StRel R) (unload_lower o1 i j k l block_size) (unload_lower o2 i j k l block_size) := by
  intro s t s2 hst hrun
  unfold unload_lower at hrun ⊢
  rw [← hst.2.2.1]
  cases hd : s.set_num with
  | none => rw [hd] at hrun; exact absurd hrun (by simp)
  | some d =>
      rw [hd] at hrun
      exact on_mem_sim (h.tmp_b _ _ _) s t s2 hst hrun

theorem row_upper_sim {μ ν : Type} {R : μ → ν → Prop} {o1 : Ops μ} {o2 : Ops ν}
    (h : OpsSim R o1 o2) (M i j i1 : Nat) (block_size : Int)
    (cond : Nat → Bool) (fuel start : Nat) :
    Sim (StRel R)
      (fun st =>
        match for_loop cond 1 (fun j1 => cell_upper o1 M i j i1 j1 block_size) fuel start
            st with
        | none => none
        | some st => put_diag_if o1 i j st)
      (fun st =>
        match for_loop cond 1 (fun j1 => cell_upper o2 M i j i1 j1 block_size) fuel start
            st with
        | none => none
        | some st => put_diag_if o2 i j st) := by
  intro s t s2 hst hrun
  simp only at hrun ⊢
  split at hrun
  · exact absurd hrun (by simp)
  · rename_i s1 h1
    obtain ⟨t1, ht1, hR1⟩ :=
      for_loop_sim cond 1 (fun j1 => cell_upper_sim h M i j i1 j1 block_size) fuel start
        s t s1 hst h1
    rw [ht1]
    exact put_diag_if_sim h i j s1 t1 s2 hR1 hrun

theorem row_lower_sim {μ ν : Type} {R : μ → ν → Prop} {o1 : Ops μ} {o2 : Ops ν}
    (h : OpsSim R o1 o2) (M i j i1 : Nat) (block_size : Int)
    (cond : Nat → Bool) (fuel start : Nat) :
    Sim (StRel R)
      (fun st =>
        match for_loop cond 1 (fun j1 => cell_lower o1 M i j i1 j1 block_size) fuel start
            st with
        | none => none
        | some st => put_diag_if o1 i j st)
      (fun st =>
        match for_loop cond 1 (fun j1 => cell_lower o2 M i j i1 j1 block_size) fuel start
            st with
        | none => none
        | some st => put_diag_if o2 i j st) := by
  intro s t s2 hst hrun
  simp only at hrun ⊢
  split at hrun
  · exact absurd hrun (by simp)
  · rename_i s1 h1
    obtain ⟨t1, ht1, hR1⟩ :=
      for_loop_sim cond 1 (fun j1 => cell_lower_sim h M i j i1 j1 block_size) fuel start
        s t s1 hst h1
    rw [ht1]
    exact put_diag_if_sim h i j s1 t1 s2 hR1 hrun

theorem block_64_sim {μ ν : Type} {R : μ → ν → Prop} {o1 : Ops μ} {o2 : Ops ν}
    (h : OpsSim R o1 o2) (M i j : Nat) :
    Sim (StRel R) (block_64 o1 M i j) (block_64 o2 M i j) := by
  intro s t s2 hst hrun
  unfold block_64 at hrun ⊢
  simp only at hrun ⊢
  split at hrun
  · exact absurd hrun (by simp)
  rename_i s1 h1
  obtain ⟨t1, ht1, hR1⟩ :=
    for_loop_sim _ 1 (fun i1 => row_upper_sim h M i j i1 _ _ _ _) _ _ s t s1 hst h1
  rw [ht1]
  simp only
  split at hrun
  · exact absurd hrun (by simp)
  rename_i s2 h2
  obtain ⟨t2, ht2, hR2⟩ :=
    for_loop_sim _ 1 (fun k => for_loop_sim _ 1 (fun l => unload_upper_sim h i j k l _) _ _)
      _ _ s1 t1 s2 hR1 h2
  rw [ht2]
  simp only
  split at hrun
  · exact absurd hrun (by simp)
  rename_i s3 h3
  obtain ⟨t3, ht3, hR3⟩ :=
    for_loop_sim _ 1 (fun i1 => row_lower_sim h M i j i1 _ _ _ _) _ _ s2 t2 s3 hR2 h3
  rw [ht3]
  simp only
  exact for_loop_sim _ 1
    (fun k => for_loop_sim _ 1 (fun l => unload_lower_sim h i j k l _) _ _) _ _ s3 t3 _ hR3
    hrun

theorem transpose_64_sim {μ ν : Type} {R : μ → ν → Prop} {o1 : Ops μ} {o2 : Ops ν}
    (h : OpsSim R o1 o2) (M N : Nat) :
    Sim (StRel R) (transpose_64 o1 M N) (transpose_64 o2 M N) := by
  intro s t s2 hst hrun
  unfold transpose_64 at hrun ⊢
  refine for_loop_sim _ _ (fun i => for_loop_sim _ _ (fun j => block_64_sim h M i j) _ _)
    _ _ _ _ s2 ?_ hrun
  exact ⟨hst.1, rfl, hst.2.2.1, hst.2.2.2⟩

theorem index_lt (N M i j : Nat) (hi : i < N) (hj : j < M) : i * M + j < N * M := by
  have : (i + 1) * M ≤ N * M := Nat.mul_le_mul_right M hi
  rw [Nat.add_mul, Nat.one_mul] at this
  omega

theorem index_div (M i j : Nat) (hj : j < M) : (i * M + j) / M = i := by
  have hM : 0 < M := by omega
  rw [Nat.add_comm, Nat.add_mul_div_right _ _ hM, Nat.div_eq_of_lt hj, Nat.zero_add]

theorem index_mod (M i j : Nat) (hj : j < M) : (i * M + j) % M = j := by
  rw [Nat.add_comm, Nat.add_mul_mod_self_right, Nat.mod_eq_of_lt hj]

theorem index_inj (M i j i2 j2 : Nat) (hj : j < M) (hj2 : j2 < M)
    (h : i * M + j = i2 * M + j2) : i = i2 ∧ j = j2 := by
  have h1 := congrArg (fun x => x / M) h
  have h2 := congrArg (fun x => x % M) h
  simp only [index_div M i j hj, index_div M i2 j2 hj2, index_mod M i j hj,
    index_mod M i2 j2 hj2] at h1 h2
  exact ⟨h1, h2⟩

/-- The statements on the lists follow the statements on the numbers. -/
theorem enc_ops_sim {α : Type} (f : Nat → α) (M N A : Nat) :
    OpsSim (Stands f M N A) (enc_ops M N A) (list_ops α) := by
  refine ⟨?_, ?_, ?_⟩
  · intro i1 j1 e a e2 hR hrun
    obtain ⟨hA, hB, hT, hL⟩ := hR
    simp only [enc_ops] at hrun
    split at hrun
    · rename_i hc
      obtain ⟨h1, h2, h3, h4⟩ := hc
      injection hrun with hrun
      subst hrun
      show ∃ a2, copy_A_B i1 j1 a = some a2 ∧ _
      unfold copy_A_B
      have hg := get2_table N M (fun i j => f (digit A (i * M + j))) i1 j1 h1 h2 h3 h4
      rw [← hA] at hg
      have hs := set2_table M N (fun j i => f (digit e.B (j * N + i))) j1 i1
        (f (digit A (i1.toNat * M + j1.toNat))) h2 h1 h4 h3
      rw [← hB] at hs
      rw [hg]
      simp only [hs]
      refine ⟨_, rfl, hA, ?_, hT, hL⟩
      apply table_congr
      intro r c hr hc
      by_cases e1 : r = j1.toNat ∧ c = i1.toNat
      · rw [if_pos e1, e1.1, e1.2, digit_put_self _ _ _ (digit_lt _ _)]
      · rw [if_neg e1, digit_put_ne _ _ _ _ (digit_lt _ _)]
        intro e2
        exact e1 (index_inj N r c _ _ hc h3 e2)
    · exact absurd hrun (by simp)
  · intro k i1 j1 e a e2 hR hrun
    obtain ⟨hA, hB, hT, hL⟩ := hR
    simp only [enc_ops] at hrun
    split at hrun
    · rename_i hc
      obtain ⟨h1, h2, h3, h4, h5, h6⟩ := hc
      injection hrun with hrun
      subst hrun
      show ∃ a2, copy_A_tmp k i1 j1 a = some a2 ∧ _
      unfold copy_A_tmp
      have hg := get2_table N M (fun i j => f (digit A (i * M + j))) i1 j1 h1 h2 h3 h4
      rw [← hA] at hg
      have hs := set1_map_range 256 (fun k => f (digit e.tmp k)) k
        (f (digit A (i1.toNat * M + j1.toNat))) h5 h6
      rw [← hT] at hs
      rw [hg]
      simp only [hs]
      refine ⟨_, rfl, hA, hB, ?_, ?_⟩
      · apply List.map_congr_left
        intro c _
        by_cases e1 : c = k.toNat
        · rw [if_pos e1, e1, digit_put_self _ _ _ (digit_lt _ _)]
        · rw [if_neg e1, digit_put_ne _ _ _ _ (digit_lt _ _) e1]
      · show k :: a.log = k :: e.log
        rw [hL]
    · exact absurd hrun (by simp)
  · intro r c k e a e2 hR hrun
    obtain ⟨hA, hB, hT, hL⟩ := hR
    simp only [enc_ops] at hrun
    split at hrun
    · rename_i hc
      obtain ⟨h5, h6, h1, h2, h3, h4⟩ := hc
      injection hrun with hrun
      subst hrun
      show ∃ a2, copy_tmp_B r c k a = some a2 ∧ _
      unfold copy_tmp_B
      have hg := get1_map_range 256 (fun k => f (digit e.tmp k)) k h5 h6
      rw [← hT] at hg
      have hs := set2_table M N (fun j i => f (digit e.B (j * N + i))) r c
        (f (digit e.tmp k.toNat)) h1 h2 h3 h4
      rw [← hB] at hs
      rw [hg]
      simp only [hs]
      refine ⟨_, rfl, hA, ?_, hT, ?_⟩
      · apply table_congr
        intro r2 c2 hr hc
        by_cases e1 : r2 = r.toNat ∧ c2 = c.toNat
        · rw [if_pos e1, e1.1, e1.2, digit_put_self _ _ _ (digit_lt _ _)]
        · rw [if_neg e1, digit_put_ne _ _ _ _ (digit_lt _ _)]
          intro e2
          exact e1 (index_inj N r2 c2 _ _ hc h4 e2)
      · show k :: a.log = k :: e.log
        rw [hL]
    · exact absurd hrun (by simp)

theorem at2_some {α : Type} (X : List (List α)) (n m : Nat) (h : dims X n m) (r c : Nat)
    (hr : r < n) (hc : c < m) : ∃ v, at2 X r c = some v := by
  obtain ⟨hlen, hrows⟩ := h
  have h1 : r < X.length := by rw [hlen]; exact hr
  have hrow : (X[r]).length = m := hrows _ (List.getElem_mem h1)
  have h3 : c < (X[r]).length := by rw [hrow]; exact hc
  exact ⟨(X[r])[c], by simp [at2, List.getElem?_eq_getElem h1, List.getElem?_eq_getElem h3]⟩

/-- The arrays at the entry are what the names stand for. -/
theorem stands_entry {α : Type} (M N : Nat) (A B : List (List α)) (tmp : List α) (d : α)
    (hK : 2 * (N * M) + 256 ≤ K) (hA : dims A N M) (hB : dims B M N)
    (htmp : tmp.length = 256) :
    Stands (value_of M N A B tmp d) M N (named_A M N) (named M N)
      { A := A, B := B, tmp := tmp, log := [] } := by
  refine ⟨?_, ?_, ?_, rfl⟩
  · show A = _
    rw [eq_table A N M hA d]
    apply table_congr
    intro i j hi hj
    have hlt := index_lt N M i j hi hj
    unfold named_A
    rw [digit_enc _ _ (fun k hk => by omega) _ hlt]
    unfold value_of
    rw [if_pos hlt, index_div M i j hj, index_mod M i j hj]
    rw [at2_table N M _ i j hi hj]
    rfl
  · show B = _
    rw [eq_table B M N hB d]
    apply table_congr
    intro j i hj hi
    have hlt := index_lt M N j i hj hi
    unfold named
    simp only
    rw [digit_enc _ _ (fun k hk => by rw [Nat.mul_comm M N] at hk; omega) _ hlt]
    unfold value_of
    rw [Nat.mul_comm M N] at hlt
    rw [if_neg (by omega), if_pos (by omega), Nat.add_sub_cancel_left, index_div N j i hi,
      index_mod N j i hi, at2_table M N _ j i hj hi]
    rfl
  · show tmp = _
    apply List.ext_getElem
    · simp [htmp]
    · intro k h1 h2
      have hk : k < 256 := by rw [← htmp]; exact h1
      unfold named
      simp only [List.getElem_map, List.getElem_range]
      rw [digit_enc _ _ (fun k hk => by omega) _ hk]
      unfold value_of
      rw [if_neg (by omega), if_neg (by omega), Nat.add_sub_cancel_left,
        List.getElem?_eq_getElem h1]
      rfl

/-- A branch of `transpose_submit` whose run on names is right is right for all
arrays. -/
theorem special_size {α : Type} (M N : Nat)
    (run : (μ : Type) → Ops μ → State μ → Option (State μ))
    (hsim : ∀ (f : Nat → α), Sim (StRel (Stands f M N (named_A M N)))
      (run Enc (enc_ops M N (named_A M N))) (run (Arrays α) (list_ops α)))
    (hok : named_ok M N (run Enc (enc_ops M N (named_A M N)) (entry (named M N))) = true)
    (hK : 2 * (N * M) + 256 ≤ K) (hM : 0 < M) (hN : 0 < N)
    (A B : List (List α)) (tmp : List α) (hA : dims A N M) (hB : dims B M N)
    (htmp : tmp.length = 256) :
    ∃ st, run (Arrays α) (list_ops α) (entry { A := A, B := B, tmp := tmp, log := [] })
        = some st ∧
      st.mem.A = A ∧ (∀ i j, i < N → j < M → at2 st.mem.B j i = at2 A i j) ∧
      ∀ k ∈ st.mem.log, 0 ≤ k ∧ k < 256 := by
  obtain ⟨d, _⟩ := at2_some A N M hA 0 0 hN hM
  have hent := stands_entry M N A B tmp d hK hA hB htmp
  cases hrun : run Enc (enc_ops M N (named_A M N)) (entry (named M N)) with
  | none => rw [hrun] at hok; exact absurd hok (by simp [named_ok])
  | some se =>
      rw [hrun] at hok
      simp only [named_ok, Bool.and_eq_true, decide_eq_true_eq, List.all_eq_true] at hok
      obtain ⟨hBe, hlog⟩ := hok
      obtain ⟨st, hst, hR, -, -, -⟩ := hsim (value_of M N A B tmp d) (entry (named M N))
        (entry { A := A, B := B, tmp := tmp, log := [] }) se ⟨hent, rfl, rfl, rfl⟩ hrun
      obtain ⟨hA2, hB2, -, hL2⟩ := hR
      refine ⟨st, hst, ?_, ?_, ?_⟩
      · rw [hA2]; exact hent.1.symm
      · intro i j hi hj
        rw [hB2, at2_table M N _ j i hj hi, hBe]
        have hlt := index_lt M N j i hj hi
        rw [digit_enc _ _ (fun k hk => ?_) _ hlt, index_div N j i hi, index_mod N j i hi]
        · obtain ⟨v, hv⟩ := at2_some A N M hA i j hi hj
          unfold value_of
          rw [if_pos (index_lt N M i j hi hj), index_div M i j hj, index_mod M i j hj, hv]
          rfl
        · have h1 : k % N < N := Nat.mod_lt _ hN
          have h2 : k / N < M := by
            rw [Nat.div_lt_iff_lt_mul hN]; exact hk
          have := index_lt N M (k % N) (k / N) h1 h2
          omega
      · intro k hk
        rw [hL2] at hk
        exact hlog k hk

theorem named_32 :
    named_ok 32 32 (transpose_32 (enc_ops 32 32 (named_A 32 32)) 32 32 (entry (named 32 32)))
      = true := by
  decide!

theorem named_64 :
    named_ok 64 64 (transpose_64 (enc_ops 64 64 (named_A 64 64)) 64 64 (entry (named 64 64)))
      = true := by
  decide!

theorem named_63_65 :
    named_ok 63 65
      (transpose_63_65 (enc_ops 63 65 (named_A 63 65)) 63 65 (entry (named 63 65)))
      = true := by
  decide!

theorem for_loop_inv {σ : Type} (stop : Nat) (body : Nat → σ → Option σ)
    (Inv : Nat → σ → Prop)
    (hstep : ∀ i st, i < stop → Inv i st → ∃ st2, body i st = some st2 ∧ Inv (i + 1) st2) :
    ∀ fuel i st, i ≤ stop → stop - i < fuel → Inv i st →
      ∃ st2, for_loop (fun i => decide (i < stop)) 1 body fuel i st = some st2 ∧
        Inv stop st2 := by
  intro fuel
  induction fuel with
  | zero => intro i st _ h; omega
  | succ fuel ih =>
      intro i st hi hfuel hinv
      unfold for_loop
      by_cases hc : i < stop
      · obtain ⟨st2, hb, hinv2⟩ := hstep i st hc hinv
        simp only [hc, decide_True, if_true, hb]
        exact ih (i + 1) st2 hc (by omega) hinv2
      · have e : i = stop := by omega
        subst e
        simp only [hc, decide_False]
        exact ⟨st, by simp, hinv⟩

theorem for_loop_post {σ : Type} (stop : Nat) (body : Nat → σ → Option σ)
    (Inv : Nat → σ → Prop) (Q : σ → Prop) (fuel : Nat) (st : σ) (hfuel : stop < fuel)
    (hinv : Inv 0 st) (hQ : ∀ st2, Inv stop st2 → Q st2)
    (hstep : ∀ i st, i < stop → Inv i st → ∃ st2, body i st = some st2 ∧ Inv (i + 1) st2) :
    ∃ st2, for_loop (fun i => decide (i < stop)) 1 body fuel 0 st = some st2 ∧ Q st2 := by
  obtain ⟨st2, h1, h2⟩ :=
    for_loop_inv stop body Inv hstep fuel 0 st (Nat.zero_le stop) (by omega) hinv
  exact ⟨st2, h1, hQ st2 h2⟩

theorem get2_cast {α : Type} (X : List (List α)) (r c : Nat) :
    get2 X (r : Int) (c : Int) = at2 X r c := by
  unfold get2 at2
  simp

theorem set2_cast {α : Type} (X : List (List α)) (n m : Nat) (h : dims X n m) (r c : Nat)
    (v : α) (hr : r < n) (hc : c < m) :
    ∃ X2, set2 X (r : Int) (c : Int) v = some X2 ∧ dims X2 n m ∧
      ∀ r2 c2, r2 < n → c2 < m →
        at2 X2 r2 c2 = if r2 = r ∧ c2 = c then some v else at2 X r2 c2 := by
  have hX := eq_table X n m h v
  have hs := set2_table n m (fun r c => (at2 X r c).getD v) (r : Int) (c : Int) v
    (Int.ofNat_nonneg r) (Int.ofNat_nonneg c) (by simpa using hr) (by simpa using hc)
  rw [← hX] at hs
  refine ⟨_, hs, table_dims n m _, ?_⟩
  intro r2 c2 hr2 hc2
  rw [at2_table n m _ r2 c2 hr2 hc2]
  simp only [Int.toNat_ofNat]
  by_cases e : r2 = r ∧ c2 = c
  · rw [if_pos e, if_pos e]
  · rw [if_neg e, if_neg e]
    obtain ⟨w, hw⟩ := at2_some X n m h r2 c2 hr2 hc2
    rw [hw]; rfl

theorem trans_tmp_step {α : Type} (M N : Nat) (A : List (List α)) (hA : dims A N M)
    (i j : Nat) (hi : i < N) (hj : j < M) (m : Arrays α) (h : tmp_inv M N A i j m) :
    ∃ m1 m2,
      copy_A_tmp (2 * ((i % 2 : Nat) : Int) + ((j % 2 : Nat) : Int)) i j m = some m1 ∧
      copy_tmp_B j i (2 * ((i % 2 : Nat) : Int) + ((j % 2 : Nat) : Int)) m1 = some m2 ∧
      tmp_inv M N A i (j + 1) m2 := by
  obtain ⟨hmA, hmB, hmT, hmL, hmP⟩ := h
  obtain ⟨v, hv⟩ := at2_some A N M hA i j hi hj
  have hk : (2 * ((i % 2 : Nat) : Int) + ((j % 2 : Nat) : Int)) =
      ((2 * (i % 2) + j % 2 : Nat) : Int) := by push_cast; rfl
  have hk4 : 2 * (i % 2) + j % 2 < 4 := by omega
  rw [hk]
  generalize 2 * (i % 2) + j % 2 = k at hk4
  obtain ⟨B2, hB2, hd2, hB2at⟩ := set2_cast m.B M N hmB j i v hj hi
  have h1 : copy_A_tmp (k : Int) i j m =
      some { m with tmp := m.tmp.set k v, log := (k : Int) :: m.log } := by
    unfold copy_A_tmp
    rw [hmA, get2_cast, hv]
    simp only [set1, Int.toNat_ofNat]
    rw [if_pos ⟨Int.ofNat_nonneg k, by omega⟩]
  have h2 : copy_tmp_B (j : Int) (i : Int) (k : Int)
      { m with tmp := m.tmp.set k v, log := (k : Int) :: m.log } =
      some { m with B := B2, tmp := m.tmp.set k v, log := (k : Int) :: (k : Int) :: m.log } := by
    unfold copy_tmp_B
    simp only [get1, Int.toNat_ofNat, if_pos (Int.ofNat_nonneg k)]
    rw [List.getElem?_set_self (by omega)]
    simp only [hB2]
  refine ⟨_, _, h1, h2, hmA, hd2, ?_, ?_, ?_⟩
  · simp [hmT]
  · intro k2 hk2
    simp only [List.mem_cons] at hk2
    rcases hk2 with e | e | e
    · rw [e]; omega
    · rw [e]; omega
    · exact hmL k2 e
  · intro i2 j2 hi2 hj2 hp
    show at2 B2 j2 i2 = _
    rw [hB2at j2 i2 hj2 hi2]
    by_cases e : j2 = j ∧ i2 = i
    · rw [if_pos e, e.1, e.2, hv]
    · rw [if_neg e]
      apply hmP i2 j2 hi2 hj2
      rcases hp with hp | hp
      · exact Or.inl hp
      · refine Or.inr ⟨hp.1, ?_⟩
        have : j2 ≠ j := fun e2 => e ⟨e2, hp.1⟩
        omega

/-- The function `trans_tmp` on lists transposes, for all sizes, and accesses `tmp` at
the indices `0..3` only. -/
theorem trans_tmp_spec {α : Type} (M N : Nat) (A B : List (List α)) (tmp : List α)
    (hA : dims A N M) (hB : dims B M N) (htmp : tmp.length = 256) :
    ∃ m, trans_tmp (list_ops α) M N { A := A, B := B, tmp := tmp, log := [] } = some m ∧
      m.A = A ∧ (∀ i j, i < N → j < M → at2 m.B j i = at2 A i j) ∧
      ∀ k ∈ m.log, 0 ≤ k ∧ k < 4 := by
  unfold trans_tmp
  apply for_loop_post N _ (fun i m => tmp_inv M N A i 0 m) _ (N + 1) _ (by omega)
  · exact ⟨rfl, hB, htmp, by simp, by intro i2 j2 _ _ hp; omega⟩
  · intro m hinv
    exact ⟨hinv.1, fun i j hi hj => hinv.2.2.2.2 i j hi hj (Or.inl hi), hinv.2.2.2.1⟩
  · intro i m hi hinv
    apply for_loop_post M _ (fun j m => tmp_inv M N A i j m) _ (M + 1) _ (by omega) hinv
    · intro m2 hinv2
      obtain ⟨h1, h2, h3, h4, h5⟩ := hinv2
      refine ⟨h1, h2, h3, h4, ?_⟩
      intro i2 j2 hi2 hj2 hp
      apply h5 i2 j2 hi2 hj2
      rcases hp with hp | hp
      · rcases Nat.lt_succ_iff_lt_or_eq.mp hp with hp2 | hp2
        · exact Or.inl hp2
        · exact Or.inr ⟨hp2, hj2⟩
      · omega
    · intro j m1 hj hinv1
      obtain ⟨m2, m3, e1, e2, hinv3⟩ := trans_tmp_step M N A hA i j hi hj m1 hinv1
      refine ⟨m3, ?_, hinv3⟩
      simp only [list_ops, e1, e2]

/-- The function `is_transpose` gives `true` for an array and its transpose when no
value differs from itself. -/
theorem is_transpose_true {α : Type} (ne : α → α → Bool) (M N : Nat) (A B : List (List α))
    (h : ∀ i j, i < N → j < M → ∃ v, at2 A i j = some v ∧ at2 B j i = some v ∧ ne v v = false) :
    is_transpose ne M N A B = some true := by
  unfold is_transpose
  have key : ∃ r, for_loop (fun i => decide (i < N)) 1 (fun i (r : Option Bool) =>
      for_loop (fun j => decide (j < M)) 1 (fun j (r : Option Bool) =>
        match r with
        | some v => some (some v)
        | none =>
            match get2 A i j, get2 B j i with
            | some x, some y => if ne x y then some (some false) else some none
            | _, _ => none)
        (M + 1) 0 r)
      (N + 1) 0 none = some r ∧ r = none := by
    apply for_loop_post N _ (fun _ r => r = none) _ (N + 1) _ (by omega) rfl
      (fun _ h => h)
    intro i r hi hinv
    apply for_loop_post M _ (fun _ r => r = none) _ (M + 1) _ (by omega) hinv (fun _ h => h)
    intro j r hj hinv
    obtain ⟨v, h1, h2, h3⟩ := h i j hi hj
    subst hinv
    refine ⟨none, ?_, rfl⟩
    simp only [get2_cast, h1, h2, h3, Bool.false_eq_true, if_false]
  obtain ⟨r, hr, hnone⟩ := key
  rw [hr, hnone]
  rfl

/-- The function `transpose_submit` on lists: it returns, `A` is as before, `B` is the
transpose of `A`, and `tmp` is accessed at indices in `0..255` only. -/
theorem transpose_submit_spec {α : Type} (M N : Nat) (A B : List (List α)) (tmp : List α)
    (hM : 0 < M) (hN : 0 < N) (hA : dims A N M) (hB : dims B M N)
    (htmp : tmp.length = 256) :
    ∃ m, transpose_submit (list_ops α) M N { A := A, B := B, tmp := tmp, log := [] }
        = some m ∧
      m.A = A ∧ (∀ i j, i < N → j < M → at2 m.B j i = at2 A i j) ∧
      ∀ k ∈ m.log, 0 ≤ k ∧ k < 256 := by
  unfold transpose_submit
  by_cases h32 : M = 32 ∧ N = 32
  · obtain ⟨rfl, rfl⟩ := h32
    rw [if_pos ⟨rfl, rfl⟩]
    obtain ⟨st, hst, h1, h2, h3⟩ := special_size 32 32
      (fun μ ops st => transpose_32 ops 32 32 st)
      (fun f => transpose_32_sim (enc_ops_sim f 32 32 _) 32 32) named_32 (by decide)
      hM hN A B tmp hA hB htmp
    exact ⟨st.mem, by simp only [hst, Option.map_some'], h1, h2, h3⟩
  · rw [if_neg h32]
    by_cases h64 : M = 64 ∧ N = 64
    · obtain ⟨rfl, rfl⟩ := h64
      rw [if_pos ⟨rfl, rfl⟩]
      obtain ⟨st, hst, h1, h2, h3⟩ := special_size 64 64
        (fun μ ops st => transpose_64 ops 64 64 st)
        (fun f => transpose_64_sim (enc_ops_sim f 64 64 _) 64 64) named_64 (by decide)
        hM hN A B tmp hA hB htmp
      exact ⟨st.mem, by simp only [hst, Option.map_some'], h1, h2, h3⟩
    · rw [if_neg h64]
      by_cases h63 : M = 63 ∧ N = 65
      · obtain ⟨rfl, rfl⟩ := h63
        rw [if_pos ⟨rfl, rfl⟩]
        obtain ⟨st, hst, h1, h2, h3⟩ := special_size 63 65
          (fun μ ops st => transpose_63_65 ops 63 65 st)
          (fun f => transpose_63_65_sim (enc_ops_sim f 63 65 _) 63 65) named_63_65
          (by decide) hM hN A B tmp hA hB htmp
        exact ⟨st.mem, by simp only [hst, Option.map_some'], h1, h2, h3⟩
      · rw [if_neg h63]
        obtain ⟨m, hm, h1, h2, h3⟩ := trans_tmp_spec M N A B tmp hA hB htmp
        exact ⟨m, hm, h1, h2, fun k hk => ⟨(h3 k hk).1, by have := (h3 k hk).2; omega⟩⟩

theorem transposed_of {α : Type} (M N : Nat) (A : List (List α)) (m : Arrays α)
    (hA : dims A N M) (h1 : m.A = A)
    (h2 : ∀ i j, i < N → j < M → at2 m.B j i = at2 A i j) : transposed M N A m := by
  refine ⟨h1, ?_, ?_⟩
  · intro i j hi hj
    obtain ⟨v, hv⟩ := at2_some A N M hA i j hi hj
    exact ⟨v, by rw [get2_cast, hv], by rw [get2_cast, h2 i j hi hj, hv]⟩
  · intro ne hne
    rw [h1]
    apply is_transpose_true
    intro i j hi hj
    obtain ⟨v, hv⟩ := at2_some A N M hA i j hi hj
    refine ⟨v, hv, by rw [h2 i j hi hj, hv], ?_⟩
    unfold at2 at hv
    cases hrow : A[i]? with
    | none => rw [hrow] at hv; exact absurd hv (by simp)
    | some row =>
        rw [hrow] at hv
        exact hne row (List.getElem?_mem hrow) v (List.getElem?_mem hv)

/-! ## The claims -/

/-- C22: `transpose_submit` is correct for all sizes. For all `M, N > 0`, every `N` by
`M` array `A`, every `M` by `N` array `B` and every `tmp` of 256 entries, the call
returns, `A` is unchanged and `B` is the transpose of `A`: `B[j][i] = A[i][j]` for
`i < N` and `j < M`, and `is_transpose` returns true (for a comparison `!=` under which
no value of `A` differs from itself). This covers the branches for 32 by 32, 64 by 64
and `M = 63`, `N = 65` and the fallback; the same holds of `trans_tmp` called for any
size. -/
theorem transpose_submit_transposes {α : Type} (M N : Nat) (A B : List (List α))
    (tmp : List α) (hM : 0 < M) (hN : 0 < N) (hA : dims A N M) (hB : dims B M N)
    (htmp : tmp.length = 256) :
    (∃ m, transpose_submit (list_ops α) M N { A := A, B := B, tmp := tmp, log := [] }
        = some m ∧ transposed M N A m) ∧
    (∃ m, trans_tmp (list_ops α) M N { A := A, B := B, tmp := tmp, log := [] }
        = some m ∧ transposed M N A m) := by
  constructor
  · obtain ⟨m, hm, h1, h2, _⟩ := transpose_submit_spec M N A B tmp hM hN hA hB htmp
    exact ⟨m, hm, transposed_of M N A m hA h1 h2⟩
  · obtain ⟨m, hm, h1, h2, _⟩ := trans_tmp_spec M N A B tmp hA hB htmp
    exact ⟨m, hm, transposed_of M N A m hA h1 h2⟩

theorem transpose_submit_transposes_witness :
    (transpose_submit (list_ops Nat) 2 3 sample_mem).map (fun m => m.B)
      = some [[1, 3, 5], [2, 4, 6]] ∧
    ((∃ m, transpose_submit (list_ops Nat) 2 3 sample_mem = some m ∧
        transposed 2 3 sample_A m) ∧
      (∃ m, trans_tmp (list_ops Nat) 2 3 sample_mem = some m ∧ transposed 2 3 sample_A m)) :=
  ⟨by decide!,
    transpose_submit_transposes 2 3 sample_A [[0, 0, 0], [0, 0, 0]] (List.replicate 256 0)
      (by decide) (by decide) (by unfold dims; decide) (by unfold dims; decide)
      (List.length_replicate 256 0)⟩

/-- C30: no access to `tmp` is out of bounds. For all `M, N > 0` and arrays of these
sizes with a `tmp` of 256 entries, `transpose_submit` returns, and so does `trans_tmp`,
without an access out of the bounds of an array, and every index at which `tmp` was
read or written lies in `0..255`. -/
theorem tmp_indices_in_bounds {α : Type} (M N : Nat) (A B : List (List α))
    (tmp : List α) (hM : 0 < M) (hN : 0 < N) (hA : dims A N M) (hB : dims B M N)
    (htmp : tmp.length = 256) :
    (∃ m, transpose_submit (list_ops α) M N { A := A, B := B, tmp := tmp, log := [] }
        = some m ∧ ∀ k ∈ m.log, 0 ≤ k ∧ k < 256) ∧
    (∃ m, trans_tmp (list_ops α) M N { A := A, B := B, tmp := tmp, log := [] }
        = some m ∧ ∀ k ∈ m.log, 0 ≤ k ∧ k < 256) := by
  constructor
  · obtain ⟨m, hm, _, _, h3⟩ := transpose_submit_spec M N A B tmp hM hN hA hB htmp
    exact ⟨m, hm, h3⟩
  · obtain ⟨m, hm, _, _, h3⟩ := trans_tmp_spec M N A B tmp hA hB htmp
    exact ⟨m, hm, fun k hk => ⟨(h3 k hk).1, by have := (h3 k hk).2; omega⟩⟩

theorem tmp_indices_in_bounds_witness :
    (transpose_submit (list_ops Nat) 2 3 sample_mem).map (fun m => m.log)
      = some [1, 1, 0, 0, 3, 3, 2, 2, 1, 1, 0, 0] ∧
    ((∃ m, transpose_submit (list_ops Nat) 2 3 sample_mem = some m ∧
        ∀ k ∈ m.log, 0 ≤ k ∧ k < 256) ∧
      (∃ m, trans_tmp (list_ops Nat) 2 3 sample_mem = some m ∧
        ∀ k ∈ m.log, 0 ≤ k ∧ k < 256)) :=
  ⟨by decide!,
    tmp_indices_in_bounds 2 3 sample_A [[0, 0, 0], [0, 0, 0]] (List.replicate 256 0)
      (by decide) (by decide) (by unfold dims; decide) (by unfold dims; decide)
      (List.length_replicate 256 0)⟩

end CacheBlockOpt
